import Mathlib

/-!
# gama: workflow-dispatch schema engine and repository enrichment

A shallow embedding of `pkg/workflow/workflow.go` (ParseWorkflow, ToPretty,
ToJson) and of `internal/github/usecase/usecase.go` (ListRepositories and its
workers), followed by the properties proved about them.

Conventions of the embedding.

* A Go map is a list of key/value pairs with pairwise distinct keys; the order
  of the list is the order in which a `range` loop over the map visits it.
  Go leaves that order unspecified, so statements about "every iteration
  order" quantify over every such list.
* A Go panic is the `error` side of `Except Panic`.
* The `int` counter of ToPretty is a natural number (it counts rows held in
  memory, so it never reaches the machine bound).
* Go strings are Lean strings (sequences of Unicode scalar values).
-/

set_option linter.dupNamespace false

namespace gama

/-! ## Go runtime notions -/

/-- The two run-time panics the embedded code can raise. -/
inductive Panic where
  | indexOutOfRange
  | typeAssertion
  deriving DecidableEq, Repr

deriving instance DecidableEq for Except

/-- A Go value of interface type `any`, by dynamic type. The code only asks
whether it is nil, a string or a bool. -/
inductive GoAny where
  | nil
  | str (s : String)
  | bool (b : Bool)
  | int (i : Int)
  | float (mantissa : Int) (exponent : Int)
  deriving DecidableEq, Repr

/-- A Go map with string keys, listed in the order a range loop visits it. -/
abbrev GoMap (V : Type) := List (String × V)

/-- Reading `m[k]` with the comma-ok form. -/
def mapGet {V : Type} : GoMap V → String → Option V
  | [], _ => none
  | (k', v) :: m, k => if k' = k then some v else mapGet m k

/-- The assignment `m[k] = v`: an existing key keeps its place, a new key is
added. -/
def mapSet {V : Type} : GoMap V → String → V → GoMap V
  | [], k, v => [(k, v)]
  | (k', v') :: m, k, v => if k' = k then (k, v) :: m else (k', v') :: mapSet m k v

/-- The keys of a map are pairwise distinct. -/
def NodupKeys {V : Type} (m : GoMap V) : Prop := (m.map Prod.fst).Nodup

instance {V : Type} (m : GoMap V) : Decidable (NodupKeys m) :=
  inferInstanceAs (Decidable (m.map Prod.fst).Nodup)

/-! ## encoding/json, as far as ToJson uses it -/

/-- Comparison of two strings as Go's `<=` on strings: lexicographic on the
UTF-8 bytes, which is the lexicographic order on code points. -/
def leChars : List Char → List Char → Bool
  | [], _ => true
  | _ :: _, [] => false
  | a :: as, b :: bs =>
    if a.toNat < b.toNat then true
    else if b.toNat < a.toNat then false
    else leChars as bs

/-- The order json.Marshal sorts map keys by. -/
def keyLE (a b : String) : Prop := leChars a.data b.data = true

instance : DecidableRel keyLE :=
  fun a b => inferInstanceAs (Decidable (leChars a.data b.data = true))

/-- The order on map entries induced by their keys. -/
def entryLE {V : Type} (a b : String × V) : Prop := keyLE a.1 b.1

instance {V : Type} : DecidableRel (entryLE : String × V → String × V → Prop) :=
  fun a b => inferInstanceAs (Decidable (keyLE a.1 b.1))

/-- The entries of a map in the order json.Marshal writes them: sorted by key.
Keys are distinct, so every sorting algorithm gives this list. -/
def sortKeys {V : Type} (m : GoMap V) : List (String × V) :=
  List.insertionSort entryLE m

/-- Lower-case hexadecimal digit. -/
def hexDigit (n : Nat) : Char := "0123456789abcdef".data.getD n '0'

/-- How json.Marshal (HTML escaping on, the default) writes one character of a
string: quote and backslash are backslash-escaped, newline, carriage return and
tab get their short escapes, the other control characters and the characters
less-than, greater-than and ampersand are written as a four-digit unicode
escape, as are U+2028 and U+2029. (This is the encoder of the Go releases up
to 1.21; later releases also give backspace and form feed a short escape. No
statement below depends on the difference.) -/
def escapeChar (c : Char) : String :=
  if c.toNat = 34 then "\\\""
  else if c.toNat = 92 then "\\\\"
  else if c.toNat = 10 then "\\n"
  else if c.toNat = 13 then "\\r"
  else if c.toNat = 9 then "\\t"
  else if c.toNat < 32 ∨ c.toNat = 60 ∨ c.toNat = 62 ∨ c.toNat = 38 then
    "\\u00" ++ String.singleton (hexDigit (c.toNat / 16))
      ++ String.singleton (hexDigit (c.toNat % 16))
  else if c.toNat = 8232 then "\\u2028"
  else if c.toNat = 8233 then "\\u2029"
  else String.singleton c

/-- The json.Marshal encoding of a Go string: a JSON string literal. -/
def marshalString (s : String) : String :=
  "\"" ++ String.join (s.data.map escapeChar) ++ "\""

/-- The json.Marshal encoding of a map with string keys, given the encoding of
its values: entries in sorted key order, no white space. -/
def marshalObject {V : Type} (enc : V → String) (m : GoMap V) : String :=
  "\x7b" ++ String.intercalate ","
    ((sortKeys m).map fun kv => marshalString kv.1 ++ ":" ++ enc kv.2) ++ "\x7d"

/-- The values ToJson stores in its `map[string]interface{}`: a string, or a
`map[string]any` whose values are the strings `kv.Value`. -/
inductive JAny where
  | str (s : String)
  | obj (m : GoMap String)
  deriving DecidableEq, Repr

/-- The json.Marshal encoding of a value held by the result map. -/
def marshalAny : JAny → String
  | .str s => marshalString s
  | .obj m => marshalObject marshalString m

/-- The error json.Marshal can return. -/
inductive MarshalError where
  | unsupported
  deriving DecidableEq, Repr

/-- The call `json.Marshal(v)` for a value of the result map. Strings and maps
of strings are always encodable, so the error is never raised. -/
def jsonMarshalAny (v : JAny) : Except MarshalError String := .ok (marshalAny v)

/-- The call `json.Marshal(result)` for the result map. -/
def jsonMarshal (result : GoMap JAny) : Except MarshalError String :=
  .ok (marshalObject marshalAny result)

/-- Go's `error` interface: `none` is the nil error. -/
abbrev GoError := Option String

/-! ## pkg/yaml: the raw workflow definition -/

namespace py

/-- Modelled from the spec: the type declarations of package `pkg/yaml` are
missing from the sources; this is the spec's RawWorkflowField with the field
names ParseWorkflow reads (`Description`, `Type` (here `Type_`), `Required`, `Default` of
interface type, `Options`, and `JSONContent`, the nested defaults, a map from
string to string; the nil map is the empty list). -/
structure WorkflowInput where
  Description : String
  Type_ : String
  Required : Bool
  Default : GoAny
  Options : List String
  JSONContent : GoMap String
  deriving DecidableEq, Repr

/-- Modelled from the spec: `content.On.WorkflowDispatch.Inputs`, the map from
field name to raw field that ParseWorkflow ranges over. -/
structure WorkflowContent where
  Inputs : GoMap WorkflowInput
  deriving DecidableEq, Repr

end py

/-! ## pkg/workflow: data model -/

namespace workflow

/-- One entry of a grouped field. -/
structure KeyValue where
  Default : String
  Key : String
  Value : String
  deriving DecidableEq, Repr

/-- A string or boolean field. -/
structure Value where
  Default : GoAny
  Value : GoAny
  deriving DecidableEq, Repr

/-- A single-choice field. -/
structure Choice where
  Default : String
  Options : List String
  Value : String
  deriving DecidableEq, Repr

/-- One field of the model; the four pointer fields are `none` when nil. -/
structure Content where
  Description : String
  Type_ : String
  Required : Bool
  KeyValue : Option (List gama.workflow.KeyValue)
  Choice : Option gama.workflow.Choice
  Value : Option gama.workflow.Value
  Boolean : Option gama.workflow.Value
  deriving DecidableEq, Repr

/-- The model: a map from field name to field. -/
structure Workflow where
  Content : GoMap gama.workflow.Content
  deriving DecidableEq, Repr

structure PrettyChoice where
  ID : Nat
  Key : String
  Value : String
  Values : List String
  Default : String
  deriving DecidableEq, Repr

structure PrettyInput where
  ID : Nat
  Key : String
  Value : String
  Default : String
  deriving DecidableEq, Repr

structure PrettyKeyValue where
  ID : Nat
  Parent : Option String
  Key : String
  Value : String
  Default : String
  deriving DecidableEq, Repr

/-- The rows of the form, one list per kind. -/
structure Pretty where
  Choices : List PrettyChoice
  Inputs : List PrettyInput
  Boolean : List PrettyInput
  KeyVals : List PrettyKeyValue
  deriving DecidableEq, Repr

/-! ## ParseWorkflow -/

/-- Lines 60-67: the nested defaults, in the order the range loop visits them,
appended one by one to `keyValue`. -/
def parseKeyValues (jsonContent : GoMap String) : List KeyValue :=
  jsonContent.foldl
    (fun keyValue kv => keyValue ++ [{ Key := kv.1, Value := "", Default := kv.2 }]) []

/-- Lines 78-92: the choice branch. It may replace the loop variable's
Default by the first option (panicking when there is none), stores the choice
field, and asserts without check that the default is a string. -/
def parseChoice (w : Workflow) (key : String) (value : py.WorkflowInput) :
    Except Panic (Workflow × py.WorkflowInput) :=
  if value.Type_ = "choice" then do
    let value ←
      if value.Default = GoAny.nil then
        match value.Options with
        | [] => throw Panic.indexOutOfRange
        | first :: _ => pure { value with Default := GoAny.str first }
      else pure value
    match value.Default with
    | GoAny.str d =>
      pure ({ Content := mapSet w.Content key
                { Description := value.Description, Type_ := "choice",
                  Required := value.Required, KeyValue := none,
                  Choice := some { Default := d, Options := value.Options, Value := "" },
                  Value := none, Boolean := none } }, value)
    | _ => throw Panic.typeAssertion
  else pure (w, value)

/-- Lines 94-111: the string/number branch, with the checked assertion. -/
def parseString (w : Workflow) (key : String) (value : py.WorkflowInput) : Workflow :=
  if value.Type_ = "string" ∨ value.Type_ = "number" ∨ value.Type_ = "" then
    let defaultValue : String :=
      match value.Default with
      | GoAny.str s => s
      | _ => ""
    { Content := mapSet w.Content key
        { Description := value.Description, Type_ := "input",
          Required := value.Required, KeyValue := none, Choice := none,
          Value := some { Default := GoAny.str defaultValue, Value := GoAny.str "" },
          Boolean := none } }
  else w

/-- The call `strconv.FormatBool`. -/
def FormatBool (b : Bool) : String := if b then "true" else "false"

/-- Lines 113-131: the boolean branch, with the checked assertion. -/
def parseBoolean (w : Workflow) (key : String) (value : py.WorkflowInput) : Workflow :=
  if value.Type_ = "boolean" then
    let defaultValue : String :=
      match value.Default with
      | GoAny.bool b => FormatBool b
      | _ => "false"
    { Content := mapSet w.Content key
        { Description := value.Description, Type_ := "boolean",
          Required := value.Required, KeyValue := none, Choice := none,
          Value := none,
          Boolean := some { Default := GoAny.str defaultValue, Value := GoAny.str "" } } }
  else w

/-- Lines 58-132: one iteration of the loop over the raw fields. -/
def parseInput (w : Workflow) (kv : String × py.WorkflowInput) : Except Panic Workflow :=
  let key := kv.1
  let value := kv.2
  if value.JSONContent.length > 0 then
    pure { Content := mapSet w.Content key
            { Description := value.Description, Type_ := "json",
              Required := value.Required,
              KeyValue := some (parseKeyValues value.JSONContent),
              Choice := none, Value := none, Boolean := none } }
  else do
    let (w, value) ← parseChoice w key value
    let w := parseString w key value
    pure (parseBoolean w key value)

/-- ParseWorkflow: the loop over `content.On.WorkflowDispatch.Inputs` in its
iteration order, then `return w, nil`. The result is the model together with
the returned error; a panic is the `error` side. -/
def ParseWorkflow (content : py.WorkflowContent) : Except Panic (Workflow × GoError) := do
  let w ← content.Inputs.foldlM parseInput { Content := [] }
  pure (w, none)

/-! ## ToPretty -/

/-- Lines 142-151: the rows of one grouped field. -/
def prettyKeyVals (parent : String) (entries : List KeyValue) (st : Pretty × Nat) :
    Pretty × Nat :=
  entries.foldl
    (fun st v =>
      ({ st.1 with KeyVals := st.1.KeyVals ++
          [{ ID := st.2, Parent := some parent, Key := v.Key, Value := "",
             Default := v.Default }] }, st.2 + 1)) st

/-- The checked assertion `Default.(string)` of lines 164-170 and 180-186. -/
def defaultString (d : GoAny) : String :=
  match d with
  | GoAny.str s => s
  | _ => ""

/-- Lines 140-195: one iteration of the loop over the fields; the state is
the rows so far and the counter `id`. -/
def prettyField (st : Pretty × Nat) (kv : String × Content) : Pretty × Nat :=
  let parent := kv.1
  let data := kv.2
  let st := match data.KeyValue with
    | some entries => prettyKeyVals parent entries st
    | none => st
  let st : Pretty × Nat := match data.Choice with
    | some c =>
      ({ st.1 with Choices := st.1.Choices ++
          [{ ID := st.2, Key := parent, Value := "", Values := c.Options,
             Default := c.Default }] }, st.2 + 1)
    | none => st
  let st : Pretty × Nat := match data.Value with
    | some v =>
      ({ st.1 with Inputs := st.1.Inputs ++
          [{ ID := st.2, Key := parent, Value := "", Default := defaultString v.Default }] },
        st.2 + 1)
    | none => st
  match data.Boolean with
  | some b =>
    ({ st.1 with Boolean := st.1.Boolean ++
        [{ ID := st.2, Key := parent, Value := "", Default := defaultString b.Default }] },
      st.2 + 1)
  | none => st

/-- The state ToPretty ends in: the rows and the final value of `id`. -/
def prettyRun (w : Workflow) : Pretty × Nat :=
  w.Content.foldl prettyField
    ({ Choices := [], Inputs := [], Boolean := [], KeyVals := [] }, 0)

/-- ToPretty: the loop over `w.Content` in its iteration order. -/
def ToPretty (w : Workflow) : Pretty := (prettyRun w).1

/-! ## ToJson -/

/-- Lines 205-215: one key/value row. A row with a parent goes into the
parent's nested map (created on first use; the unchecked assertion panics when
the parent's slot holds a string), a row without parent goes to the top
level. -/
def jsonKeyVal (result : GoMap JAny) (kv : PrettyKeyValue) : Except Panic (GoMap JAny) :=
  match kv.Parent with
  | some parent =>
    let result :=
      match mapGet result parent with
      | none => mapSet result parent (JAny.obj [])
      | some _ => result
    match mapGet result parent with
    | some (JAny.obj m) => pure (mapSet result parent (JAny.obj (mapSet m kv.Key kv.Value)))
    | _ => throw Panic.typeAssertion
  | none => pure (mapSet result kv.Key (JAny.str kv.Value))

/-- Lines 244-256, convertJsonToString: every value of kind map is replaced
by its JSON encoding as a string; the first encoding error is returned. -/
def convertJsonToString : GoMap JAny → Except MarshalError (GoMap JAny)
  | [] => pure []
  | (k, JAny.obj m) :: rest => do
    let str ← jsonMarshalAny (JAny.obj m)
    let rest ← convertJsonToString rest
    pure ((k, JAny.str str) :: rest)
  | (k, JAny.str s) :: rest => do
    let rest ← convertJsonToString rest
    pure ((k, JAny.str s) :: rest)

/-- ToJson: the four loops, the re-encoding of nested maps and the final
encoding. The result is the returned string and error. -/
def ToJson (p : Pretty) : Except Panic (String × GoError) := do
  let result ← p.KeyVals.foldlM jsonKeyVal []
  let result := p.Choices.foldl (fun r c => mapSet r c.Key (JAny.str c.Value)) result
  let result := p.Inputs.foldl (fun r i => mapSet r i.Key (JAny.str i.Value)) result
  let result := p.Boolean.foldl (fun r b => mapSet r b.Key (JAny.str b.Value)) result
  match convertJsonToString result with
  | .error _ => pure ("", some "json: encoding error")
  | .ok result =>
    match jsonMarshal result with
    | .error _ => pure ("", some "json: encoding error")
    | .ok modifiedJSON => pure (modifiedJSON, none)

/-- SetValue on a key/value row. -/
def PrettyKeyValue.SetValue (kv : PrettyKeyValue) (value : String) : PrettyKeyValue :=
  { kv with Value := value }

/-- SetValue on a choice row. -/
def PrettyChoice.SetValue (c : PrettyChoice) (value : String) : PrettyChoice :=
  { c with Value := value }

/-- SetValue on an input or boolean row. -/
def PrettyInput.SetValue (i : PrettyInput) (value : String) : PrettyInput :=
  { i with Value := value }

end workflow

/-! ## internal/github/repository: the records the use case consumes -/

namespace gr

/-- Modelled from the spec: the type declarations of package
`internal/github/repository` are missing from the sources; this is the spec's
RepositoryRecord with the field names the worker reads. -/
structure GithubRepository where
  FullName : String
  StargazersCount : Int
  Private : Bool
  DefaultBranch : String
  deriving DecidableEq, Repr

/-- Modelled from the spec: one element of what GetTriggerableWorkflows
returns, the spec's WorkflowMeta with the field names the worker reads. -/
structure TriggerableWorkflow where
  Id : Int
  Name : String
  State : String
  deriving DecidableEq, Repr

end gr

/-! ## internal/github/usecase: ListRepositories -/

namespace usecase

/-- Modelled from the spec: the use case's own workflow record (its type
declaration is missing from the sources), built at lines 70-74. -/
structure Workflow where
  ID : Int
  Name : String
  State : String
  deriving DecidableEq, Repr

/-- Modelled from the spec: the spec's EnrichedRepository (its type
declaration is missing from the sources), built at lines 77-83. -/
structure GithubRepository where
  Name : String
  Stars : Int
  Private : Bool
  DefaultBranch : String
  TriggerableWorkflows : List Workflow
  deriving DecidableEq, Repr

/-- Modelled from the spec: the output record (its type declaration is missing
from the sources), built at lines 55-57. -/
structure ListRepositoriesOutput where
  Repositories : List GithubRepository
  deriving DecidableEq, Repr

/-- The interface method `githubRepository.GetTriggerableWorkflows`, by
repository full name: the workflows, or a non-nil error. -/
abbrev Fetch := String → Except String (List gr.TriggerableWorkflow)

/-- What a worker pushes for one job: a value on the results channel or a
value on the errors channel. -/
inductive Outcome where
  | result (res : GithubRepository)
  | failure (err : String)
  deriving DecidableEq, Repr

/-- Lines 62-83: the body of the worker loop for one job. -/
def workerJob (fetch : Fetch) (repository : gr.GithubRepository) : Outcome :=
  match fetch repository.FullName with
  | .error err => Outcome.failure err
  | .ok triggerableWorkflows =>
    let workflows : List Workflow :=
      triggerableWorkflows.foldl
        (fun workflows workflow =>
          workflows ++ [{ ID := workflow.Id, Name := workflow.Name, State := workflow.State }])
        []
    Outcome.result
      { Name := repository.FullName, Stars := repository.StargazersCount,
        Private := repository.Private, DefaultBranch := repository.DefaultBranch,
        TriggerableWorkflows := workflows }

/-- Where a worker goroutine stands: blocked on `range jobs`, inside the
loop body with a job, or returned. -/
inductive Worker where
  | waiting
  | working (repository : gr.GithubRepository)
  | returned
  deriving DecidableEq, Repr

/-- The state of one call of ListRepositories after the workers are started:
the main goroutine (jobs still to send, whether `jobs` is closed, loop
iterations left, `result`, `resultErr`), the three channel buffers, the
workers, and the history of what the collecting loop has received. -/
structure State where
  toSend : List gr.GithubRepository
  closed : Bool
  jobs : List gr.GithubRepository
  workers : List Worker
  results : List GithubRepository
  errors : List String
  remaining : Nat
  result : List GithubRepository
  resultErr : GoError
  received : List Outcome
  deriving DecidableEq, Repr

/-- One scheduling decision. -/
inductive Action where
  | send
  | close
  | take (w : Nat)
  | finish (w : Nat)
  | leave (w : Nat)
  | recvResult
  | recvError
  deriving DecidableEq, Repr

/-- Lines 28-35: the channels are made with capacity `len(repositories)` and
that many workers are started. -/
def start (repositories : List gr.GithubRepository) : State :=
  { toSend := repositories, closed := false, jobs := [],
    workers := List.replicate repositories.length Worker.waiting,
    results := [], errors := [], remaining := repositories.length,
    result := [], resultErr := none, received := [] }

/-- One step of the system, `none` when the chosen goroutine is blocked.
`cap` is the capacity of the three channels.
* send: line 39, `jobs <- repository`.
* close: line 41.
* take: a waiting worker receives the next job (line 61).
* finish: the worker's fetch returns and it sends on `errors` (line 64) or on
  `results` (line 77), then waits again.
* leave: a waiting worker finds `jobs` closed and drained and returns.
* recvResult, recvError: one iteration of the loop of lines 46-53, taking the
  case whose channel has a value. -/
def step (fetch : Fetch) (cap : Nat) (s : State) : Action → Option State
  | Action.send =>
    match s.toSend with
    | repository :: rest =>
      if s.jobs.length < cap then
        some { s with toSend := rest, jobs := s.jobs ++ [repository] }
      else none
    | [] => none
  | Action.close =>
    if s.toSend = [] ∧ s.closed = false then some { s with closed := true } else none
  | Action.take w =>
    match s.workers.get? w, s.jobs with
    | some Worker.waiting, repository :: rest =>
      some { s with jobs := rest, workers := s.workers.set w (Worker.working repository) }
    | _, _ => none
  | Action.finish w =>
    match s.workers.get? w with
    | some (Worker.working repository) =>
      match workerJob fetch repository with
      | Outcome.failure err =>
        if s.errors.length < cap then
          some { s with errors := s.errors ++ [err], workers := s.workers.set w Worker.waiting }
        else none
      | Outcome.result res =>
        if s.results.length < cap then
          some { s with results := s.results ++ [res],
                        workers := s.workers.set w Worker.waiting }
        else none
    | _ => none
  | Action.leave w =>
    match s.workers.get? w with
    | some Worker.waiting =>
      if s.jobs = [] ∧ s.closed = true then
        some { s with workers := s.workers.set w Worker.returned }
      else none
    | _ => none
  | Action.recvResult =>
    if s.toSend = [] ∧ s.closed = true ∧ 0 < s.remaining then
      match s.results with
      | res :: rest =>
        some { s with results := rest, remaining := s.remaining - 1,
                      result := s.result ++ [res],
                      received := s.received ++ [Outcome.result res] }
      | [] => none
    else none
  | Action.recvError =>
    if s.toSend = [] ∧ s.closed = true ∧ 0 < s.remaining then
      match s.errors with
      | err :: rest =>
        some { s with errors := rest, remaining := s.remaining - 1,
                      resultErr := some err,
                      received := s.received ++ [Outcome.failure err] }
      | [] => none
    else none

/-- Running a schedule; `none` when it asks a blocked goroutine to move. -/
def exec (fetch : Fetch) (cap : Nat) : State → List Action → Option State
  | s, [] => some s
  | s, a :: schedule =>
    match step fetch cap s a with
    | some s' => exec fetch cap s' schedule
    | none => none

/-- The main goroutine has left the collecting loop and is at the return of
lines 55-57. -/
def State.done (s : State) : Bool :=
  decide (s.toSend = []) && s.closed && decide (s.remaining = 0)

/-- ListRepositories under a schedule: the early return when listing fails
(lines 22-25), otherwise the state in which the main goroutine returns, with
the output and error it returns; `none` when the schedule does not bring the
main goroutine to its return. -/
def ListRepositories (listed : Except String (List gr.GithubRepository)) (fetch : Fetch)
    (schedule : List Action) : Option (Option ListRepositoriesOutput × GoError) :=
  match listed with
  | .error err => some (none, some err)
  | .ok repositories =>
    match exec fetch repositories.length (start repositories) schedule with
    | some s => if s.done then some (some { Repositories := s.result }, s.resultErr) else none
    | none => none

end usecase

end gama

namespace gama
namespace workflow

/-! ## Sample inputs -/

/-- A raw field with nested defaults, declared as a choice without options. -/
def sampleGroupInput : py.WorkflowInput :=
  { Description := "build matrix", Type_ := "choice", Required := true,
    Default := GoAny.nil, Options := [],
    JSONContent := [("os", "linux"), ("arch", "amd64")] }

/-- A raw boolean field with a declared boolean default. -/
def sampleBooleanInput : py.WorkflowInput :=
  { Description := "verbose", Type_ := "boolean", Required := false,
    Default := GoAny.bool true, Options := [], JSONContent := [] }

/-- A raw choice field with two options and no declared default. -/
def sampleChoiceInput : py.WorkflowInput :=
  { Description := "letter", Type_ := "choice", Required := false,
    Default := GoAny.nil, Options := ["a", "b"], JSONContent := [] }

/-- A raw choice field with two options and a declared string default. -/
def sampleChoiceWithDefault : py.WorkflowInput :=
  { Description := "letter", Type_ := "choice", Required := false,
    Default := GoAny.str "b", Options := ["a", "b"], JSONContent := [] }

/-- A raw choice field declared with zero options and a string default. -/
def sampleChoiceNoOptions : py.WorkflowInput :=
  { Description := "target", Type_ := "choice", Required := false,
    Default := GoAny.str "prod", Options := [], JSONContent := [] }

/-- A raw choice field declared with zero options and no default. -/
def sampleChoiceNoOptionsNoDefault : py.WorkflowInput :=
  { Description := "target", Type_ := "choice", Required := false,
    Default := GoAny.nil, Options := [], JSONContent := [] }

/-- A raw choice field with two options whose declared default is a boolean. -/
def sampleChoiceBoolDefault : py.WorkflowInput :=
  { Description := "target", Type_ := "choice", Required := false,
    Default := GoAny.bool true, Options := ["dev", "prod"], JSONContent := [] }

/-- A raw workflow with a group field and a boolean field. -/
def sampleContent : py.WorkflowContent :=
  { Inputs := [("matrix", sampleGroupInput), ("debug", sampleBooleanInput)] }

/-- The model ParseWorkflow returns for `sampleContent`. -/
def sampleModel : Workflow :=
  { Content :=
      [("matrix",
        { Description := "build matrix", Type_ := "json", Required := true,
          KeyValue := some [{ Key := "os", Default := "linux", Value := "" },
                            { Key := "arch", Default := "amd64", Value := "" }],
          Choice := none, Value := none, Boolean := none }),
       ("debug",
        { Description := "verbose", Type_ := "boolean", Required := false,
          KeyValue := none, Choice := none, Value := none,
          Boolean := some { Default := GoAny.str "true", Value := GoAny.str "" } })] }

/-- The model that holds one choice field `letter`. -/
def choiceModel (d : String) (options : List String) : Workflow :=
  { Content :=
      [("letter",
        { Description := "letter", Type_ := "choice", Required := false,
          KeyValue := none,
          Choice := some { Default := d, Options := options, Value := "" },
          Value := none, Boolean := none })] }

/-- The model that holds one choice field `target` without options. -/
def noOptionsModel : Workflow :=
  { Content :=
      [("target",
        { Description := "target", Type_ := "choice", Required := false,
          KeyValue := none,
          Choice := some { Default := "prod", Options := [], Value := "" },
          Value := none, Boolean := none })] }

end workflow
end gama

namespace gama
namespace workflow

/-! ## Counting rows -/

/-- Number of rows ToPretty emits for the entries of a field. -/
def kvRows (c : Content) : Nat :=
  match c.KeyValue with
  | some entries => entries.length
  | none => 0

/-- One row for a variant that is present, none for a nil pointer. -/
def optRows {α : Type} (o : Option α) : Nat :=
  match o with
  | some _ => 1
  | none => 0

/-- Number of rows ToPretty emits for one field: one per entry of its group,
one for its choice, one for its input value, one for its boolean. -/
def fieldRows (c : Content) : Nat :=
  kvRows c + optRows c.Choice + optRows c.Value + optRows c.Boolean

/-- Number of rows ToPretty emits for a sequence of fields. -/
def rowCount (m : GoMap Content) : Nat := (m.map fun kv => fieldRows kv.2).sum

/-- The ids of all rows, over the four row lists. -/
def allIds (p : Pretty) : List Nat :=
  p.KeyVals.map PrettyKeyValue.ID ++ p.Choices.map PrettyChoice.ID
    ++ p.Inputs.map PrettyInput.ID ++ p.Boolean.map PrettyInput.ID

/-- The rows of the entries of one group, numbered from `first`. -/
def keyValRows (parent : String) : List KeyValue → Nat → List PrettyKeyValue
  | [], _ => []
  | v :: rest, first =>
    { ID := first, Parent := some parent, Key := v.Key, Value := "", Default := v.Default }
      :: keyValRows parent rest (first + 1)

/-- The key/value rows one field contributes when the counter stands at
`first`. -/
def emittedKeyVals (kv : String × Content) (first : Nat) : List PrettyKeyValue :=
  match kv.2.KeyValue with
  | some entries => keyValRows kv.1 entries first
  | none => []

/-- The choice row one field contributes when the counter stands at `first`. -/
def emittedChoices (kv : String × Content) (first : Nat) : List PrettyChoice :=
  match kv.2.Choice with
  | some c =>
    [{ ID := first + kvRows kv.2, Key := kv.1, Value := "", Values := c.Options,
       Default := c.Default }]
  | none => []

/-- The input row one field contributes when the counter stands at `first`. -/
def emittedInputs (kv : String × Content) (first : Nat) : List PrettyInput :=
  match kv.2.Value with
  | some v =>
    [{ ID := first + kvRows kv.2 + optRows kv.2.Choice, Key := kv.1, Value := "",
       Default := defaultString v.Default }]
  | none => []

/-- The boolean row one field contributes when the counter stands at
`first`. -/
def emittedBoolean (kv : String × Content) (first : Nat) : List PrettyInput :=
  match kv.2.Boolean with
  | some b =>
    [{ ID := first + kvRows kv.2 + optRows kv.2.Choice + optRows kv.2.Value, Key := kv.1,
       Value := "", Default := defaultString b.Default }]
  | none => []

/-- An input field with the given default. -/
def inputField (d : String) : Content :=
  { Description := "", Type_ := "input", Required := false, KeyValue := none,
    Choice := none, Value := some { Default := GoAny.str d, Value := GoAny.str "" },
    Boolean := none }

end workflow
end gama

namespace gama
namespace workflow

/-- The ids of each of the four row lists increase strictly along the list
and stay below `bound`. -/
def IdsIncreaseBelow (p : Pretty) (bound : Nat) : Prop :=
  ((p.KeyVals.map PrettyKeyValue.ID).Pairwise (· < ·) ∧
    ∀ i ∈ p.KeyVals.map PrettyKeyValue.ID, i < bound) ∧
  ((p.Choices.map PrettyChoice.ID).Pairwise (· < ·) ∧
    ∀ i ∈ p.Choices.map PrettyChoice.ID, i < bound) ∧
  ((p.Inputs.map PrettyInput.ID).Pairwise (· < ·) ∧
    ∀ i ∈ p.Inputs.map PrettyInput.ID, i < bound) ∧
  ((p.Boolean.map PrettyInput.ID).Pairwise (· < ·) ∧
    ∀ i ∈ p.Boolean.map PrettyInput.ID, i < bound)

/-- A model with the two input fields `a` and `b`, visited as a, b. -/
def abModel : Workflow :=
  { Content := [("a", inputField "x"), ("b", inputField "y")] }

/-- The same model, visited as b, a. -/
def baModel : Workflow :=
  { Content := [("b", inputField "y"), ("a", inputField "x")] }

end workflow
end gama

namespace gama
namespace workflow

/-! ## What ToJson is compared with -/

/-- The parent names of the key/value rows. -/
def parentNames (p : Pretty) : List String :=
  p.KeyVals.filterMap PrettyKeyValue.Parent

/-- The keys written at the top level of the result: key/value rows without
parent, and the choice, input and boolean rows. -/
def topLevelKeys (p : Pretty) : List String :=
  (p.KeyVals.filter fun kv => kv.Parent = none).map PrettyKeyValue.Key
    ++ p.Choices.map PrettyChoice.Key ++ p.Inputs.map PrettyInput.Key
    ++ p.Boolean.map PrettyInput.Key

/-- The current value of nested key `k` under `parent`: the value of the last
key/value row with that parent and key, if there is one. -/
def nestedValue (rows : List PrettyKeyValue) (parent k : String) : Option String :=
  ((rows.filter fun kv => kv.Parent = some parent ∧ kv.Key = k).getLast?).map
    PrettyKeyValue.Value

/-- How one key/value row changes the nested map of `parent`. -/
def groupStep (parent : String) (acc : Option (GoMap String)) (kv : PrettyKeyValue) :
    Option (GoMap String) :=
  if kv.Parent = some parent then some (mapSet (acc.getD []) kv.Key kv.Value) else acc

/-- The nested map the rows build for `parent`; `none` when no row names it. -/
def groupOf (parent : String) (rows : List PrettyKeyValue) : Option (GoMap String) :=
  rows.foldl (groupStep parent) none

/-- The string a value of the result map is sent as: a string as it is, a
nested map as its JSON encoding. -/
def stringify : JAny → String
  | JAny.str s => s
  | JAny.obj m => marshalObject marshalString m

/-- The rows of the group `matrix` with the single entry os = linux. -/
def matrixRows : Pretty :=
  { Choices := [], Inputs := [], Boolean := [],
    KeyVals := [{ ID := 0, Parent := some "matrix", Key := "os", Value := "linux",
                  Default := "" }] }

/-- The rows of the group `matrix` together with an input row of the same
name. -/
def shadowedRows : Pretty :=
  { Choices := [],
    Inputs := [{ ID := 1, Key := "matrix", Value := "x", Default := "" }],
    Boolean := [],
    KeyVals := [{ ID := 0, Parent := some "matrix", Key := "os", Value := "linux",
                  Default := "" }] }

end workflow
end gama

namespace gama
namespace workflow

/-- A key/value row without parent named `matrix`, followed by a row whose
parent is `matrix`. -/
def orphanThenGroupRows : Pretty :=
  { Choices := [], Inputs := [], Boolean := [],
    KeyVals := [{ ID := 0, Parent := none, Key := "matrix", Value := "x", Default := "" },
                { ID := 1, Parent := some "matrix", Key := "os", Value := "linux",
                  Default := "" }] }

end workflow
end gama

namespace gama

/-- The strict order json.Marshal's key order puts distinct keys in. -/
def keyLT (a b : String) : Prop := keyLE a b ∧ a ≠ b

instance : DecidableRel keyLT :=
  fun a b => inferInstanceAs (Decidable (keyLE a b ∧ a ≠ b))

namespace workflow

/-- The rows of the group `matrix` declared as os, then arch, after SetValue
on both rows. -/
def osArchRows : Pretty :=
  { Choices := [], Inputs := [], Boolean := [],
    KeyVals :=
      [PrettyKeyValue.SetValue
         { ID := 0, Parent := some "matrix", Key := "os", Value := "", Default := "linux" }
         "linux",
       PrettyKeyValue.SetValue
         { ID := 1, Parent := some "matrix", Key := "arch", Value := "", Default := "amd64" }
         "amd64"] }

end workflow
end gama

namespace gama
namespace usecase

/-! ## What ListRepositories is compared with -/

/-- The enriched record of a repository whose workflows were fetched. -/
def enrich (repository : gr.GithubRepository) (workflows : List gr.TriggerableWorkflow) :
    GithubRepository :=
  { Name := repository.FullName, Stars := repository.StargazersCount,
    Private := repository.Private, DefaultBranch := repository.DefaultBranch,
    TriggerableWorkflows :=
      workflows.map fun w => { ID := w.Id, Name := w.Name, State := w.State } }

/-- The enriched records of exactly the repositories whose fetch succeeds, in
input order. -/
def successes (fetch : Fetch) (repositories : List gr.GithubRepository) :
    List GithubRepository :=
  repositories.filterMap fun r =>
    match fetch r.FullName with
    | .ok workflows => some (enrich r workflows)
    | .error _ => none

/-- The value of an outcome received on the results channel. -/
def Outcome.result? : Outcome → Option GithubRepository
  | Outcome.result res => some res
  | Outcome.failure _ => none

/-- The value of an outcome received on the errors channel. -/
def Outcome.failure? : Outcome → Option String
  | Outcome.result _ => none
  | Outcome.failure err => some err

/-- The failure received last among the failures of a reception history. -/
def lastFailure (log : List Outcome) : GoError :=
  (log.filterMap Outcome.failure?).getLast?

/-- The jobs the workers are working on. -/
def workingJobs (ws : List Worker) : List gr.GithubRepository :=
  ws.filterMap fun w =>
    match w with
    | Worker.working r => some r
    | _ => none

/-- The number of workers that have not returned. -/
def activeWorkers (ws : List Worker) : Nat :=
  (ws.filter fun w => decide (w ≠ Worker.returned)).length

/-- The outcomes not yet received by the collecting loop: those of the jobs
not yet sent, queued or being worked on, and those waiting in the two outcome
channels. -/
def pending (fetch : Fetch) (s : State) : List Outcome :=
  (s.toSend ++ s.jobs ++ workingJobs s.workers).map (workerJob fetch)
    ++ s.results.map Outcome.result ++ s.errors.map Outcome.failure

/-- A bound on the number of steps the system can still take. -/
def stepsLeft (s : State) : Nat :=
  5 * s.toSend.length + (if s.closed then 0 else 1) + 4 * s.jobs.length
    + 3 * (workingJobs s.workers).length + 2 * (s.results.length + s.errors.length)
    + activeWorkers s.workers

/-- The invariant of the system started on `repositories`. -/
structure Inv (fetch : Fetch) (repositories : List gr.GithubRepository) (s : State) :
    Prop where
  conserve : (pending fetch s ++ s.received).Perm (repositories.map (workerJob fetch))
  count : s.remaining + s.received.length = repositories.length
  result_eq : s.result = s.received.filterMap Outcome.result?
  err_eq : s.resultErr = lastFailure s.received
  closed_sent : s.closed = true → s.toSend = []
  workers_len : s.workers.length = repositories.length
  returned_drained : Worker.returned ∈ s.workers → s.closed = true ∧ s.jobs = []

end usecase
end gama

namespace gama
namespace usecase

/-! ## Sample run -/

/-- A repository record with the given full name. -/
def sampleRepository (name : String) : gr.GithubRepository :=
  { FullName := name, StargazersCount := 3, Private := false, DefaultBranch := "main" }

/-- Five repositories. -/
def sampleRepositories : List gr.GithubRepository :=
  [sampleRepository "org/r1", sampleRepository "org/r2", sampleRepository "org/r3",
   sampleRepository "org/r4", sampleRepository "org/r5"]

/-- A fetch that fails for the second and the fourth repository. -/
def sampleFetch : Fetch := fun name =>
  if name = "org/r2" then .error "r2: not found"
  else if name = "org/r4" then .error "r4: timeout"
  else .ok [{ Id := 7, Name := "ci", State := "active" }]

/-- The enriched record the sample fetch gives. -/
def sampleEnriched (name : String) : GithubRepository :=
  { Name := name, Stars := 3, Private := false, DefaultBranch := "main",
    TriggerableWorkflows := [{ ID := 7, Name := "ci", State := "active" }] }

/-- A schedule in which the failure of r2 reaches the collector before the
failure of r4. -/
def scheduleR2First : List Action :=
  [Action.send, Action.send, Action.send, Action.send, Action.send, Action.close,
   Action.take 0, Action.take 1, Action.take 2, Action.take 3, Action.take 4,
   Action.finish 1, Action.finish 3, Action.finish 0, Action.finish 2, Action.finish 4,
   Action.recvResult, Action.recvError, Action.recvResult, Action.recvError,
   Action.recvResult]

/-- A schedule in which the failure of r4 reaches the collector before the
failure of r2, and the successes arrive as r5, r1, r3, with workers starting
while jobs are still being sent. -/
def scheduleR4First : List Action :=
  [Action.send, Action.take 2, Action.send, Action.send, Action.take 0, Action.send,
   Action.take 4, Action.send, Action.close, Action.take 1, Action.take 3,
   Action.finish 3, Action.finish 1, Action.finish 2, Action.finish 0, Action.finish 4,
   Action.recvError, Action.recvResult, Action.recvResult, Action.leave 0,
   Action.recvError, Action.recvResult]

/-- The state a schedule ends in on the sample run. -/
def sampleFinal (schedule : List Action) : State :=
  (exec sampleFetch 5 (start sampleRepositories) schedule).getD (start sampleRepositories)

end usecase
end gama

namespace gama
namespace usecase

/-- The schedule that sends every job, closes the channel and lets worker `i`
take job `i`. -/
def dispatchAll (n : Nat) : List Action :=
  List.replicate n Action.send ++ [Action.close]
    ++ (List.range' 0 n).map Action.take

end usecase
end gama

namespace gama
namespace workflow

/-! ## What the parsed model is compared with -/

/-- A raw field ParseWorkflow keeps: it has nested defaults, or its declared
type is one of choice, string, number, the empty type and boolean. -/
def recognised (value : py.WorkflowInput) : Prop :=
  value.JSONContent ≠ [] ∨ value.Type_ = "choice" ∨ value.Type_ = "string"
    ∨ value.Type_ = "number" ∨ value.Type_ = "" ∨ value.Type_ = "boolean"

instance (value : py.WorkflowInput) : Decidable (recognised value) :=
  inferInstanceAs (Decidable (value.JSONContent ≠ [] ∨ value.Type_ = "choice"
    ∨ value.Type_ = "string" ∨ value.Type_ = "number" ∨ value.Type_ = ""
    ∨ value.Type_ = "boolean"))

/-- A field of the model with exactly one variant: a non-empty group and
nothing else, or no group and one of choice, input value and boolean. -/
def OneVariant (c : Content) : Prop :=
  match c.KeyValue with
  | some entries => entries ≠ [] ∧ c.Choice = none ∧ c.Value = none ∧ c.Boolean = none
  | none =>
    (c.Choice.isSome ∧ c.Value = none ∧ c.Boolean = none)
      ∨ (c.Choice = none ∧ c.Value.isSome ∧ c.Boolean = none)
      ∨ (c.Choice = none ∧ c.Value = none ∧ c.Boolean.isSome)

/-- The default string of a boolean field as the declared default gives it:
"true" or "false" for a declared boolean, "false" for no default or a default
of another type. -/
def declaredBoolean : GoAny → String
  | GoAny.bool true => "true"
  | GoAny.bool false => "false"
  | _ => "false"

/-- A raw boolean field whose declared default is the string "true". -/
def sampleBooleanStringDefault : py.WorkflowInput :=
  { Description := "dry run", Type_ := "boolean", Required := false,
    Default := GoAny.str "true", Options := [], JSONContent := [] }

/-- A raw field of a declared type ParseWorkflow does not know. -/
def sampleUnsupportedInput : py.WorkflowInput :=
  { Description := "legacy", Type_ := "unsupported", Required := false,
    Default := GoAny.str "x", Options := [], JSONContent := [] }

/-- A raw workflow with a group field, a boolean field and a field of an
unknown type. -/
def sampleContentUnsupported : py.WorkflowContent :=
  { Inputs := [("matrix", sampleGroupInput), ("legacy", sampleUnsupportedInput),
               ("debug", sampleBooleanInput)] }

end workflow
end gama

namespace gama
namespace workflow

/-- The model that holds one boolean field `dry` with the given default. -/
def booleanModel (d : String) : Workflow :=
  { Content :=
      [("dry",
        { Description := "dry run", Type_ := "boolean", Required := false,
          KeyValue := none, Choice := none, Value := none,
          Boolean := some { Default := GoAny.str d, Value := GoAny.str "" } })] }

end workflow
end gama

namespace gama
namespace workflow

/-- The rows of the group `matrix` declared as os, then arch, after SetValue
on both rows, among the rows of other fields: a row of the group `env` that
stands between them, a choice row, an input row and a boolean row. -/
def matrixAmongRows : Pretty :=
  { Choices := [{ ID := 3, Key := "target", Value := "prod", Values := ["dev", "prod"],
                  Default := "dev" }],
    Inputs := [{ ID := 4, Key := "tag", Value := "v1", Default := "" }],
    Boolean := [{ ID := 5, Key := "dry", Value := "true", Default := "false" }],
    KeyVals :=
      [PrettyKeyValue.SetValue
         { ID := 0, Parent := some "matrix", Key := "os", Value := "", Default := "linux" }
         "linux",
       { ID := 1, Parent := some "env", Key := "stage", Value := "dev", Default := "dev" },
       PrettyKeyValue.SetValue
         { ID := 2, Parent := some "matrix", Key := "arch", Value := "", Default := "amd64" }
         "amd64"] }

/-- The rows of `matrixAmongRows` with the entries of `matrix` declared in the
other order: arch, then os. -/
def matrixAmongRowsSwapped : Pretty :=
  { matrixAmongRows with KeyVals := matrixAmongRows.KeyVals.reverse }

end workflow
end gama

namespace gama

/-! ## Go maps -/

theorem mapGet_mapSet_self {V : Type} (m : GoMap V) (k : String) (v : V) :
    mapGet (mapSet m k v) k = some v := by
  induction m with
  | nil => simp [mapSet, mapGet]
  | cons kv m ih =>
    obtain ⟨k', v'⟩ := kv
    by_cases h : k' = k
    · simp [mapSet, mapGet, h]
    · simp [mapSet, mapGet, h, ih]

theorem mapGet_mapSet_ne {V : Type} (m : GoMap V) (k k' : String) (v : V) (hne : k' ≠ k) :
    mapGet (mapSet m k v) k' = mapGet m k' := by
  induction m with
  | nil => simp [mapSet, mapGet, Ne.symm hne]
  | cons kv m ih =>
    obtain ⟨k0, v0⟩ := kv
    by_cases h : k0 = k
    · subst h
      simp [mapSet, mapGet, Ne.symm hne]
    · by_cases h' : k0 = k'
      · subst h'
        simp [mapSet, mapGet, h]
      · simp [mapSet, mapGet, h, h', ih]

namespace workflow

/-! ## ParseWorkflow: the loop -/

theorem parseKeyValues_eq (jsonContent : GoMap String) :
    parseKeyValues jsonContent
      = jsonContent.map fun kv => { Key := kv.1, Value := "", Default := kv.2 } := by
  have key : ∀ (l : GoMap String) (acc : List KeyValue),
      l.foldl (fun keyValue kv => keyValue ++ [{ Key := kv.1, Value := "", Default := kv.2 }]) acc
        = acc ++ l.map fun kv => { Key := kv.1, Value := "", Default := kv.2 } := by
    intro l
    induction l with
    | nil => intro acc; simp
    | cons a l ih => intro acc; simp [ih]
  simpa using key jsonContent []

theorem parseChoice_shape {w w' : Workflow} {key : String} {value value' : py.WorkflowInput}
    (h : parseChoice w key value = .ok (w', value')) :
    w' = w ∨ ∃ c, w'.Content = mapSet w.Content key c := by
  unfold parseChoice at h
  by_cases ht : value.Type_ = "choice"
  · rw [if_pos ht] at h
    right
    cases hd : value.Default <;> cases ho : value.Options <;>
      simp [hd, ho, bind, Except.bind, pure, Except.pure, throw, throwThe,
        MonadExceptOf.throw] at h <;>
      exact ⟨_, by rw [← h.1]⟩
  · rw [if_neg ht] at h
    simp only [pure, Except.pure, Except.ok.injEq, Prod.mk.injEq] at h
    exact Or.inl h.1.symm

theorem parseChoice_other {w w' : Workflow} {key : String} {value value' : py.WorkflowInput}
    (h : parseChoice w key value = .ok (w', value')) {k : String} (hk : k ≠ key) :
    mapGet w'.Content k = mapGet w.Content k := by
  rcases parseChoice_shape h with rfl | ⟨c, hc⟩
  · rfl
  · rw [hc]
    exact mapGet_mapSet_ne _ _ _ _ hk

theorem parseString_other (w : Workflow) (key : String) (value : py.WorkflowInput)
    {k : String} (hk : k ≠ key) :
    mapGet (parseString w key value).Content k = mapGet w.Content k := by
  unfold parseString
  split
  · exact mapGet_mapSet_ne _ _ _ _ hk
  · rfl

theorem parseBoolean_other (w : Workflow) (key : String) (value : py.WorkflowInput)
    {k : String} (hk : k ≠ key) :
    mapGet (parseBoolean w key value).Content k = mapGet w.Content k := by
  unfold parseBoolean
  split
  · exact mapGet_mapSet_ne _ _ _ _ hk
  · rfl

theorem parseInput_other {w w' : Workflow} {kv : String × py.WorkflowInput}
    (h : parseInput w kv = .ok w') {k : String} (hk : k ≠ kv.1) :
    mapGet w'.Content k = mapGet w.Content k := by
  unfold parseInput at h
  simp only at h
  split at h
  · simp only [pure, Except.pure, Except.ok.injEq] at h
    rw [← h]
    exact mapGet_mapSet_ne _ _ _ _ hk
  · simp only [bind, Except.bind] at h
    split at h
    · simp at h
    · rename_i r hr
      obtain ⟨w1, value1⟩ := r
      simp only [pure, Except.pure, Except.ok.injEq] at h
      rw [← h, parseBoolean_other _ _ _ hk, parseString_other _ _ _ hk]
      exact parseChoice_other hr hk

theorem foldlM_parseInput_other (l : GoMap py.WorkflowInput) (w w' : Workflow)
    (h : l.foldlM parseInput w = .ok w') {k : String} (hk : k ∉ l.map Prod.fst) :
    mapGet w'.Content k = mapGet w.Content k := by
  induction l generalizing w with
  | nil =>
    simp only [List.foldlM, pure, Except.pure, Except.ok.injEq] at h
    rw [h]
  | cons a l ih =>
    simp only [List.foldlM, bind, Except.bind] at h
    simp only [List.map_cons, List.mem_cons, not_or] at hk
    split at h
    · simp at h
    · rename_i w1 h1
      rw [ih w1 h hk.2]
      exact parseInput_other h1 hk.1

/-- The value the returned model holds under a field's name is the one written
by the loop iteration of that field. -/
theorem foldlM_parseInput_get (l : GoMap py.WorkflowInput) (hnd : NodupKeys l)
    (key : String) (value : py.WorkflowInput) (hmem : (key, value) ∈ l)
    (w w' : Workflow) (h : l.foldlM parseInput w = .ok w') :
    ∃ w0 w1, parseInput w0 (key, value) = .ok w1
      ∧ mapGet w'.Content key = mapGet w1.Content key := by
  induction l generalizing w with
  | nil => simp at hmem
  | cons a l ih =>
    simp only [List.foldlM, bind, Except.bind] at h
    unfold NodupKeys at hnd
    simp only [List.map_cons, List.nodup_cons] at hnd
    split at h
    · simp at h
    · rename_i w1 h1
      rcases List.mem_cons.1 hmem with heq | hin
      · subst heq
        exact ⟨w, w1, h1, foldlM_parseInput_other l w1 w' h hnd.1⟩
      · exact ih hnd.2 hin w1 h

theorem ParseWorkflow_get (content : py.WorkflowContent) (hnd : NodupKeys content.Inputs)
    (key : String) (value : py.WorkflowInput) (hmem : (key, value) ∈ content.Inputs)
    (w : Workflow) (err : GoError) (h : ParseWorkflow content = .ok (w, err)) :
    err = none ∧ ∃ w0 w1, parseInput w0 (key, value) = .ok w1
      ∧ mapGet w.Content key = mapGet w1.Content key := by
  unfold ParseWorkflow at h
  simp only [bind, Except.bind] at h
  split at h
  · simp at h
  · rename_i w' hw'
    simp only [pure, Except.pure, Except.ok.injEq, Prod.mk.injEq] at h
    obtain ⟨rfl, rfl⟩ := h
    exact ⟨rfl, foldlM_parseInput_get _ hnd key value hmem _ _ hw'⟩

/-- ParseWorkflow returns, with a nil error, whenever no loop iteration
panics. -/
theorem ParseWorkflow_returns (content : py.WorkflowContent)
    (h : ∀ kv ∈ content.Inputs, ∀ w0, ∃ w1, parseInput w0 kv = .ok w1) :
    ∃ w, ParseWorkflow content = .ok (w, none) := by
  have key : ∀ (l : GoMap py.WorkflowInput) (w0 : Workflow),
      (∀ kv ∈ l, ∀ w0, ∃ w1, parseInput w0 kv = .ok w1) →
      ∃ w, l.foldlM parseInput w0 = .ok w := by
    intro l
    induction l with
    | nil => intro w0 _; exact ⟨w0, rfl⟩
    | cons kv l ih =>
      intro w0 hl
      obtain ⟨w1, h1⟩ := hl kv (List.mem_cons_self _ _) w0
      obtain ⟨w, hw⟩ := ih w1 (fun x hx => hl x (List.mem_cons_of_mem _ hx))
      exact ⟨w, by simp only [List.foldlM, bind, Except.bind, h1]; exact hw⟩
  obtain ⟨w, hw⟩ := key content.Inputs { Content := [] } h
  exact ⟨w, by simp only [ParseWorkflow, bind, Except.bind, hw, pure, Except.pure]⟩

end workflow
end gama

namespace gama
namespace workflow

/-! ## ParseWorkflow: single fields -/

theorem parseInput_group (w : Workflow) (key : String) (value : py.WorkflowInput)
    (hjson : value.JSONContent ≠ []) :
    parseInput w (key, value) = .ok
      { Content := mapSet w.Content key
          { Description := value.Description, Type_ := "json", Required := value.Required,
            KeyValue := some (value.JSONContent.map fun kv =>
              { Key := kv.1, Default := kv.2, Value := "" }),
            Choice := none, Value := none, Boolean := none } } := by
  have hlen : value.JSONContent.length > 0 := List.length_pos.2 hjson
  simp only [parseInput, if_pos hlen, parseKeyValues_eq]
  rfl

theorem parseInput_choice (w : Workflow) (key : String) (value : py.WorkflowInput)
    (hjson : value.JSONContent = []) (htype : value.Type_ = "choice") (d : String)
    (hd : (value.Default = GoAny.nil ∧ value.Options.head? = some d)
      ∨ value.Default = GoAny.str d) :
    parseInput w (key, value) = .ok
      { Content := mapSet w.Content key
          { Description := value.Description, Type_ := "choice", Required := value.Required,
            KeyValue := none,
            Choice := some { Default := d, Options := value.Options, Value := "" },
            Value := none, Boolean := none } } := by
  rcases hd with ⟨hnil, hhead⟩ | hstr
  · cases ho : value.Options with
    | nil => simp [ho] at hhead
    | cons first rest =>
      simp only [ho, List.head?_cons, Option.some.injEq] at hhead
      subst hhead
      simp [parseInput, parseChoice, parseString, parseBoolean, hjson, htype, hnil, ho,
        bind, Except.bind, pure, Except.pure]
  · simp [parseInput, parseChoice, parseString, parseBoolean, hjson, htype, hstr,
      bind, Except.bind, pure, Except.pure]

end workflow
end gama

namespace gama
namespace workflow

/-! ## ParseWorkflow: the claims -/

/-- C4: for a raw field whose nested defaults are non-empty, whatever its
declared type, the loop iteration of ParseWorkflow stores under the field's
name a group field only (Type "json", the Choice, Value and Boolean variants
absent, and one KeyValue entry per nested key, with that key, the nested value
as Default and the empty Value), and that is what the model ParseWorkflow
returns holds under the field's name; ParseWorkflow returns, with a nil error,
whenever no loop iteration panics. -/
theorem parseWorkflow_group_field (content : py.WorkflowContent)
    (hnd : NodupKeys content.Inputs) (key : String) (value : py.WorkflowInput)
    (hmem : (key, value) ∈ content.Inputs) (hjson : value.JSONContent ≠ []) :
    (∀ w, parseInput w (key, value) = .ok
      { Content := mapSet w.Content key
          { Description := value.Description, Type_ := "json", Required := value.Required,
            KeyValue := some (value.JSONContent.map fun kv =>
              { Key := kv.1, Default := kv.2, Value := "" }),
            Choice := none, Value := none, Boolean := none } }) ∧
    (∀ w err, ParseWorkflow content = .ok (w, err) →
      mapGet w.Content key = some
        { Description := value.Description, Type_ := "json", Required := value.Required,
          KeyValue := some (value.JSONContent.map fun kv =>
            { Key := kv.1, Default := kv.2, Value := "" }),
          Choice := none, Value := none, Boolean := none })
    ∧ ((∀ kv ∈ content.Inputs, ∀ w0, ∃ w1, parseInput w0 kv = .ok w1) →
        ∃ w, ParseWorkflow content = .ok (w, none)) := by
  refine ⟨fun w => parseInput_group w key value hjson, fun w err h => ?_,
    ParseWorkflow_returns content⟩
  obtain ⟨_, w0, w1, h1, hget⟩ := ParseWorkflow_get content hnd key value hmem w err h
  rw [parseInput_group w0 key value hjson] at h1
  rw [hget, ← Except.ok.inj h1]
  exact mapGet_mapSet_self _ _ _

theorem parseWorkflow_group_field_witness :
    mapGet sampleModel.Content "matrix" = some
      { Description := "build matrix", Type_ := "json", Required := true,
        KeyValue := some [{ Key := "os", Default := "linux", Value := "" },
                          { Key := "arch", Default := "amd64", Value := "" }],
        Choice := none, Value := none, Boolean := none } :=
  (parseWorkflow_group_field sampleContent (by decide) "matrix" sampleGroupInput
    (by decide) (by decide)).2.1 sampleModel none (by decide)

/-- C5: for a choice field without nested defaults whose default is absent and
whose option list is non-empty, or whose default is a declared string, the
loop iteration of ParseWorkflow stores a choice field whose Default is the
first option (no default declared) or the declared string, with the declared
options unchanged and in order, and that is what the model ParseWorkflow
returns holds under the field's name; ParseWorkflow returns, with a nil error,
whenever no loop iteration panics. -/
theorem parseWorkflow_choice_default (content : py.WorkflowContent)
    (hnd : NodupKeys content.Inputs) (key : String) (value : py.WorkflowInput)
    (hmem : (key, value) ∈ content.Inputs) (hjson : value.JSONContent = [])
    (htype : value.Type_ = "choice") (d : String)
    (hd : (value.Default = GoAny.nil ∧ value.Options.head? = some d)
      ∨ value.Default = GoAny.str d) :
    (∀ w, parseInput w (key, value) = .ok
      { Content := mapSet w.Content key
          { Description := value.Description, Type_ := "choice", Required := value.Required,
            KeyValue := none,
            Choice := some { Default := d, Options := value.Options, Value := "" },
            Value := none, Boolean := none } }) ∧
    (∀ w err, ParseWorkflow content = .ok (w, err) →
      mapGet w.Content key = some
        { Description := value.Description, Type_ := "choice", Required := value.Required,
          KeyValue := none,
          Choice := some { Default := d, Options := value.Options, Value := "" },
          Value := none, Boolean := none })
    ∧ ((∀ kv ∈ content.Inputs, ∀ w0, ∃ w1, parseInput w0 kv = .ok w1) →
        ∃ w, ParseWorkflow content = .ok (w, none)) := by
  refine ⟨fun w => parseInput_choice w key value hjson htype d hd, fun w err h => ?_,
    ParseWorkflow_returns content⟩
  obtain ⟨_, w0, w1, h1, hget⟩ := ParseWorkflow_get content hnd key value hmem w err h
  rw [parseInput_choice w0 key value hjson htype d hd] at h1
  rw [hget, ← Except.ok.inj h1]
  exact mapGet_mapSet_self _ _ _

theorem parseWorkflow_choice_default_witness :
    ParseWorkflow { Inputs := [("letter", sampleChoiceInput)] } = .ok (choiceModel "a" ["a", "b"], none)
    ∧ mapGet (choiceModel "a" ["a", "b"]).Content "letter" = some
        { Description := "letter", Type_ := "choice", Required := false, KeyValue := none,
          Choice := some { Default := "a", Options := ["a", "b"], Value := "" },
          Value := none, Boolean := none }
    ∧ mapGet (choiceModel "b" ["a", "b"]).Content "letter" = some
        { Description := "letter", Type_ := "choice", Required := false, KeyValue := none,
          Choice := some { Default := "b", Options := ["a", "b"], Value := "" },
          Value := none, Boolean := none } :=
  ⟨by decide,
   (parseWorkflow_choice_default { Inputs := [("letter", sampleChoiceInput)] } (by decide)
      "letter" sampleChoiceInput (by decide) (by decide) (by decide) "a"
      (Or.inl ⟨by decide, by decide⟩)).2.1 (choiceModel "a" ["a", "b"]) none (by decide),
   (parseWorkflow_choice_default { Inputs := [("letter", sampleChoiceWithDefault)] } (by decide)
      "letter" sampleChoiceWithDefault (by decide) (by decide) (by decide) "b"
      (Or.inr (by decide))).2.1 (choiceModel "b" ["a", "b"]) none (by decide)⟩

/-- C6 (as stated, refuted): a choice field declared with zero options and a
string default is parsed with a nil error into a choice field whose option
list is empty, and with no default the call panics; in neither case is a
non-nil error returned. -/
theorem parseWorkflow_no_options_counterexample :
    ParseWorkflow { Inputs := [("target", sampleChoiceNoOptions)] } = .ok (noOptionsModel, none)
    ∧ ParseWorkflow { Inputs := [("target", sampleChoiceNoOptionsNoDefault)] }
        = .error Panic.indexOutOfRange := by
  constructor <;> decide

/-- C6 (amended): for a choice field without nested defaults, declared with
zero options and a string default, no error is surfaced: the loop iteration of
ParseWorkflow stores a choice field with the declared default and an empty
option list, and whenever ParseWorkflow returns, the error it returns is nil
and the model holds that choice field under the field's name. -/
theorem parseWorkflow_no_options (content : py.WorkflowContent)
    (hnd : NodupKeys content.Inputs) (key : String) (value : py.WorkflowInput)
    (hmem : (key, value) ∈ content.Inputs) (hjson : value.JSONContent = [])
    (htype : value.Type_ = "choice") (hopts : value.Options = []) (d : String)
    (hd : value.Default = GoAny.str d) :
    (∀ w, parseInput w (key, value) = .ok
      { Content := mapSet w.Content key
          { Description := value.Description, Type_ := "choice", Required := value.Required,
            KeyValue := none,
            Choice := some { Default := d, Options := [], Value := "" },
            Value := none, Boolean := none } }) ∧
    ∀ w err, ParseWorkflow content = .ok (w, err) →
      err = none ∧
      mapGet w.Content key = some
        { Description := value.Description, Type_ := "choice", Required := value.Required,
          KeyValue := none,
          Choice := some { Default := d, Options := [], Value := "" },
          Value := none, Boolean := none } := by
  have hev := fun w => parseInput_choice w key value hjson htype d (Or.inr hd)
  refine ⟨fun w => by rw [hev w, hopts], fun w err h => ?_⟩
  obtain ⟨herr, w0, w1, h1, hget⟩ := ParseWorkflow_get content hnd key value hmem w err h
  rw [hev w0] at h1
  refine ⟨herr, ?_⟩
  rw [hget, ← Except.ok.inj h1, hopts]
  exact mapGet_mapSet_self _ _ _

theorem parseWorkflow_no_options_witness :
    (none : GoError) = none ∧
    mapGet noOptionsModel.Content "target" = some
      { Description := "target", Type_ := "choice", Required := false, KeyValue := none,
        Choice := some { Default := "prod", Options := [], Value := "" },
        Value := none, Boolean := none } :=
  (parseWorkflow_no_options { Inputs := [("target", sampleChoiceNoOptions)] } (by decide)
    "target" sampleChoiceNoOptions (by decide) (by decide) (by decide) (by decide) "prod"
    (by decide)).2 noOptionsModel none (by decide)

/-- C7 (the code at the failing input): for a choice field with two options
whose declared default is the boolean true, ParseWorkflow does not return a
model and a nil error: the unchecked assertion of the default to a string
panics. -/
theorem parseWorkflow_choice_bool_default_panics :
    ParseWorkflow { Inputs := [("target", sampleChoiceBoolDefault)] }
      = .error Panic.typeAssertion := by
  decide

end workflow
end gama

namespace gama
namespace workflow

/-! ## ToPretty: closed form of the loop -/

theorem prettyKeyVals_eq (parent : String) (entries : List KeyValue) (st : Pretty × Nat) :
    prettyKeyVals parent entries st
      = ({ st.1 with KeyVals := st.1.KeyVals ++ keyValRows parent entries st.2 },
          st.2 + entries.length) := by
  unfold prettyKeyVals
  induction entries generalizing st with
  | nil => simp [keyValRows]
  | cons v rest ih =>
    rw [List.foldl_cons, ih]
    simp [keyValRows, Nat.add_assoc, Nat.add_comm 1]

theorem prettyField_eq (st : Pretty × Nat) (kv : String × Content) :
    prettyField st kv
      = ({ Choices := st.1.Choices ++ emittedChoices kv st.2,
           Inputs := st.1.Inputs ++ emittedInputs kv st.2,
           Boolean := st.1.Boolean ++ emittedBoolean kv st.2,
           KeyVals := st.1.KeyVals ++ emittedKeyVals kv st.2 },
          st.2 + fieldRows kv.2) := by
  obtain ⟨name, c⟩ := kv
  obtain ⟨p, id⟩ := st
  unfold prettyField emittedChoices emittedInputs emittedBoolean emittedKeyVals fieldRows kvRows
  cases hk : c.KeyValue <;> cases hc : c.Choice <;> cases hv : c.Value <;>
    cases hb : c.Boolean <;>
    simp [hk, hc, hv, hb, prettyKeyVals_eq, optRows, Nat.add_assoc]

end workflow
end gama

namespace gama
namespace workflow

theorem range'_add (s m n : Nat) :
    List.range' s (m + n) = List.range' s m ++ List.range' (s + m) n := by
  rw [List.range'_append_1, Nat.add_comm]

theorem keyValRows_ids (parent : String) (entries : List KeyValue) (first : Nat) :
    (keyValRows parent entries first).map PrettyKeyValue.ID
      = List.range' first entries.length := by
  induction entries generalizing first with
  | nil => simp [keyValRows]
  | cons v rest ih => simp [keyValRows, ih, List.range'_succ]

theorem keyValRows_mem (parent : String) (entries : List KeyValue) (first i : Nat)
    (hi : i < entries.length) :
    ({ ID := first + i, Parent := some parent, Key := (entries.get ⟨i, hi⟩).Key, Value := "",
       Default := (entries.get ⟨i, hi⟩).Default } : PrettyKeyValue)
      ∈ keyValRows parent entries first := by
  induction entries generalizing first i with
  | nil => simp at hi
  | cons v rest ih =>
    cases i with
    | zero => simp [keyValRows]
    | succ j =>
      simp only [keyValRows, List.mem_cons]
      right
      have hj : j < rest.length := by simpa using hi
      have := ih (first + 1) j hj
      simpa [Nat.add_assoc, Nat.add_comm 1 j] using this

theorem emitted_ids (kv : String × Content) (first : Nat) :
    (emittedKeyVals kv first).map PrettyKeyValue.ID
      ++ (emittedChoices kv first).map PrettyChoice.ID
      ++ (emittedInputs kv first).map PrettyInput.ID
      ++ (emittedBoolean kv first).map PrettyInput.ID
      = List.range' first (fieldRows kv.2) := by
  obtain ⟨name, c⟩ := kv
  have hsplit : ∀ a b c d : Nat, List.range' first (a + b + c + d)
      = List.range' first a ++ List.range' (first + a) b ++ List.range' (first + a + b) c
        ++ List.range' (first + a + b + c) d := by
    intro a b c d
    rw [range'_add, range'_add, range'_add]
    simp only [Nat.add_assoc]
  unfold fieldRows
  rw [hsplit]
  unfold emittedKeyVals emittedChoices emittedInputs emittedBoolean kvRows
  cases hk : c.KeyValue <;> cases hc : c.Choice <;> cases hv : c.Value <;>
    cases hb : c.Boolean <;>
    simp [hk, hc, hv, hb, optRows, keyValRows_ids, List.range'_succ]

theorem foldl_prettyField_snd (l : GoMap Content) (st : Pretty × Nat) :
    (l.foldl prettyField st).2 = st.2 + rowCount l := by
  induction l generalizing st with
  | nil => simp [rowCount]
  | cons kv l ih =>
    rw [List.foldl_cons, ih, prettyField_eq]
    simp [rowCount, Nat.add_assoc]

theorem allIds_prettyField (st : Pretty × Nat) (kv : String × Content) :
    (allIds (prettyField st kv).1).Perm (allIds st.1 ++ List.range' st.2 (fieldRows kv.2)) := by
  rw [prettyField_eq, ← emitted_ids]
  unfold allIds
  simp only [List.map_append]
  rw [List.perm_iff_count]
  intro a
  simp only [List.count_append]
  omega

theorem allIds_foldl (l : GoMap Content) (st : Pretty × Nat) :
    (allIds (l.foldl prettyField st).1).Perm (allIds st.1 ++ List.range' st.2 (rowCount l)) := by
  induction l generalizing st with
  | nil => simp [rowCount]
  | cons kv l ih =>
    rw [List.foldl_cons]
    refine (ih _).trans ?_
    have h1 := allIds_prettyField st kv
    have h2 : (prettyField st kv).2 = st.2 + fieldRows kv.2 := by rw [prettyField_eq]
    rw [h2]
    have h3 : rowCount (kv :: l) = fieldRows kv.2 + rowCount l := by simp [rowCount]
    rw [h3, range'_add, ← List.append_assoc]
    exact List.Perm.append_right _ h1

theorem allIds_length (p : Pretty) :
    (allIds p).length
      = p.KeyVals.length + p.Choices.length + p.Inputs.length + p.Boolean.length := by
  simp [allIds, Nat.add_assoc]

theorem rowCount_perm {m m' : GoMap Content} (h : m'.Perm m) : rowCount m' = rowCount m := by
  unfold rowCount
  exact (h.map _).sum_eq

theorem allIds_ToPretty (w : Workflow) :
    (allIds (ToPretty w)).Perm (List.range (rowCount w.Content)) := by
  have := allIds_foldl w.Content ({ Choices := [], Inputs := [], Boolean := [], KeyVals := [] }, 0)
  simpa [ToPretty, prettyRun, allIds, List.range_eq_range'] using this

end workflow
end gama

namespace gama
namespace workflow

theorem increase_append (old new : List Nat) (lo hi : Nat) (hle : lo ≤ hi)
    (hold : old.Pairwise (· < ·) ∧ ∀ i ∈ old, i < lo)
    (hnew : new.Pairwise (· < ·) ∧ ∀ i ∈ new, lo ≤ i ∧ i < hi) :
    (old ++ new).Pairwise (· < ·) ∧ ∀ i ∈ old ++ new, i < hi := by
  refine ⟨List.pairwise_append.2 ⟨hold.1, hnew.1, fun a ha b hb => ?_⟩, fun i hi => ?_⟩
  · exact Nat.lt_of_lt_of_le (hold.2 a ha) (hnew.2 b hb).1
  · rcases List.mem_append.1 hi with h | h
    · exact Nat.lt_of_lt_of_le (hold.2 i h) hle
    · exact (hnew.2 i h).2

theorem emittedKeyVals_ids (kv : String × Content) (first : Nat) :
    ((emittedKeyVals kv first).map PrettyKeyValue.ID).Pairwise (· < ·) ∧
    ∀ i ∈ (emittedKeyVals kv first).map PrettyKeyValue.ID,
      first ≤ i ∧ i < first + fieldRows kv.2 := by
  unfold emittedKeyVals fieldRows kvRows
  cases hk : kv.2.KeyValue with
  | none => simp
  | some entries =>
    simp only [keyValRows_ids]
    refine ⟨List.pairwise_lt_range' _ _, fun i hi => ?_⟩
    rw [List.mem_range'_1] at hi
    omega

theorem emittedChoices_ids (kv : String × Content) (first : Nat) :
    ((emittedChoices kv first).map PrettyChoice.ID).Pairwise (· < ·) ∧
    ∀ i ∈ (emittedChoices kv first).map PrettyChoice.ID,
      first ≤ i ∧ i < first + fieldRows kv.2 := by
  unfold emittedChoices fieldRows
  cases hc : kv.2.Choice with
  | none => simp
  | some c => simp [optRows]; omega

theorem emittedInputs_ids (kv : String × Content) (first : Nat) :
    ((emittedInputs kv first).map PrettyInput.ID).Pairwise (· < ·) ∧
    ∀ i ∈ (emittedInputs kv first).map PrettyInput.ID,
      first ≤ i ∧ i < first + fieldRows kv.2 := by
  unfold emittedInputs fieldRows
  cases hc : kv.2.Value with
  | none => simp
  | some c => simp [optRows]; omega

theorem emittedBoolean_ids (kv : String × Content) (first : Nat) :
    ((emittedBoolean kv first).map PrettyInput.ID).Pairwise (· < ·) ∧
    ∀ i ∈ (emittedBoolean kv first).map PrettyInput.ID,
      first ≤ i ∧ i < first + fieldRows kv.2 := by
  unfold emittedBoolean fieldRows
  cases hc : kv.2.Boolean with
  | none => simp
  | some c => simp [optRows]; omega

theorem idsIncreaseBelow_prettyField (st : Pretty × Nat) (kv : String × Content)
    (h : IdsIncreaseBelow st.1 st.2) :
    IdsIncreaseBelow (prettyField st kv).1 (prettyField st kv).2 := by
  rw [prettyField_eq]
  obtain ⟨h1, h2, h3, h4⟩ := h
  have hle : st.2 ≤ st.2 + fieldRows kv.2 := Nat.le_add_right _ _
  unfold IdsIncreaseBelow
  simp only [List.map_append]
  exact ⟨increase_append _ _ _ _ hle h1 (emittedKeyVals_ids kv st.2),
    increase_append _ _ _ _ hle h2 (emittedChoices_ids kv st.2),
    increase_append _ _ _ _ hle h3 (emittedInputs_ids kv st.2),
    increase_append _ _ _ _ hle h4 (emittedBoolean_ids kv st.2)⟩

theorem idsIncreaseBelow_foldl (l : GoMap Content) (st : Pretty × Nat)
    (h : IdsIncreaseBelow st.1 st.2) :
    IdsIncreaseBelow (l.foldl prettyField st).1 (l.foldl prettyField st).2 := by
  induction l generalizing st with
  | nil => simpa using h
  | cons kv l ih =>
    rw [List.foldl_cons]
    exact ih _ (idsIncreaseBelow_prettyField st kv h)

theorem foldl_prettyField_extends (l : GoMap Content) (st : Pretty × Nat) :
    (∃ e, (l.foldl prettyField st).1.KeyVals = st.1.KeyVals ++ e) ∧
    (∃ e, (l.foldl prettyField st).1.Choices = st.1.Choices ++ e) ∧
    (∃ e, (l.foldl prettyField st).1.Inputs = st.1.Inputs ++ e) ∧
    (∃ e, (l.foldl prettyField st).1.Boolean = st.1.Boolean ++ e) := by
  induction l generalizing st with
  | nil => exact ⟨⟨[], by simp⟩, ⟨[], by simp⟩, ⟨[], by simp⟩, ⟨[], by simp⟩⟩
  | cons kv l ih =>
    rw [List.foldl_cons]
    obtain ⟨⟨e1, h1⟩, ⟨e2, h2⟩, ⟨e3, h3⟩, ⟨e4, h4⟩⟩ := ih (prettyField st kv)
    rw [h1, h2, h3, h4, prettyField_eq]
    exact ⟨⟨_, List.append_assoc _ _ _⟩, ⟨_, List.append_assoc _ _ _⟩,
      ⟨_, List.append_assoc _ _ _⟩, ⟨_, List.append_assoc _ _ _⟩⟩

theorem foldl_prettyField_split (pre post : GoMap Content) (kv : String × Content)
    (st : Pretty × Nat) :
    (∃ e, ((pre ++ kv :: post).foldl prettyField st).1.KeyVals
      = (pre.foldl prettyField st).1.KeyVals
          ++ emittedKeyVals kv (pre.foldl prettyField st).2 ++ e) ∧
    (∃ e, ((pre ++ kv :: post).foldl prettyField st).1.Choices
      = (pre.foldl prettyField st).1.Choices
          ++ emittedChoices kv (pre.foldl prettyField st).2 ++ e) ∧
    (∃ e, ((pre ++ kv :: post).foldl prettyField st).1.Inputs
      = (pre.foldl prettyField st).1.Inputs
          ++ emittedInputs kv (pre.foldl prettyField st).2 ++ e) ∧
    (∃ e, ((pre ++ kv :: post).foldl prettyField st).1.Boolean
      = (pre.foldl prettyField st).1.Boolean
          ++ emittedBoolean kv (pre.foldl prettyField st).2 ++ e) := by
  rw [List.foldl_append, List.foldl_cons]
  obtain ⟨⟨e1, h1⟩, ⟨e2, h2⟩, ⟨e3, h3⟩, ⟨e4, h4⟩⟩ :=
    foldl_prettyField_extends post (prettyField (pre.foldl prettyField st) kv)
  refine ⟨⟨e1, ?_⟩, ⟨e2, ?_⟩, ⟨e3, ?_⟩, ⟨e4, ?_⟩⟩
  · rw [h1, prettyField_eq]
  · rw [h2, prettyField_eq]
  · rw [h3, prettyField_eq]
  · rw [h4, prettyField_eq]

theorem foldl_prettyField_lengths (l : GoMap Content) (st : Pretty × Nat) :
    (l.foldl prettyField st).1.KeyVals.length
        = st.1.KeyVals.length + (l.map fun kv => kvRows kv.2).sum ∧
    (l.foldl prettyField st).1.Choices.length
        = st.1.Choices.length + (l.map fun kv => optRows kv.2.Choice).sum ∧
    (l.foldl prettyField st).1.Inputs.length
        = st.1.Inputs.length + (l.map fun kv => optRows kv.2.Value).sum ∧
    (l.foldl prettyField st).1.Boolean.length
        = st.1.Boolean.length + (l.map fun kv => optRows kv.2.Boolean).sum := by
  induction l generalizing st with
  | nil => simp
  | cons kv l ih =>
    rw [List.foldl_cons]
    obtain ⟨h1, h2, h3, h4⟩ := ih (prettyField st kv)
    rw [h1, h2, h3, h4, prettyField_eq]
    have e1 : (emittedKeyVals kv st.2).length = kvRows kv.2 := by
      unfold emittedKeyVals kvRows
      cases kv.2.KeyValue with
      | none => rfl
      | some entries =>
        have := congrArg List.length (keyValRows_ids kv.1 entries st.2)
        simpa using this
    have e2 : (emittedChoices kv st.2).length = optRows kv.2.Choice := by
      unfold emittedChoices optRows
      cases kv.2.Choice <;> rfl
    have e3 : (emittedInputs kv st.2).length = optRows kv.2.Value := by
      unfold emittedInputs optRows
      cases kv.2.Value <;> rfl
    have e4 : (emittedBoolean kv st.2).length = optRows kv.2.Boolean := by
      unfold emittedBoolean optRows
      cases kv.2.Boolean <;> rfl
    simp only [List.length_append, List.map_cons, List.sum_cons, e1, e2, e3, e4]
    omega

end workflow
end gama

namespace gama
namespace workflow

/-! ## ToPretty: the claims -/

/-- C8 (as stated, refuted): the same model with the two input fields `a` and
`b` projects to different ids under its two iteration orders; when the loop
visits b before a, row b gets id 0 and row a gets id 1, which is not the order
of the sorted field names. -/
theorem toPretty_sorted_order_counterexample :
    baModel.Content.Perm abModel.Content
    ∧ (ToPretty abModel).Inputs
        = [{ ID := 0, Key := "a", Value := "", Default := "x" },
           { ID := 1, Key := "b", Value := "", Default := "y" }]
    ∧ (ToPretty baModel).Inputs
        = [{ ID := 0, Key := "b", Value := "", Default := "y" },
           { ID := 1, Key := "a", Value := "", Default := "x" }]
    ∧ ToPretty baModel ≠ ToPretty abModel := by
  refine ⟨List.Perm.swap _ _ _, by decide, by decide, by decide⟩

/-- C8 (amended): ToPretty orders the rows by the order in which the loop
visits the field map, then entry order inside a group. For a field visited
after the fields `pre` and before the fields `post`, its rows are numbered
from the number of rows of `pre` (entries in their order, then choice, input
and boolean row) and stand together in their row lists, and the ids of each
row list increase strictly along the list. -/
theorem toPretty_ids_follow_iteration (pre post : GoMap Content) (name : String)
    (c : Content) :
    emittedKeyVals (name, c) (rowCount pre)
        <:+: (ToPretty { Content := pre ++ (name, c) :: post }).KeyVals
    ∧ emittedChoices (name, c) (rowCount pre)
        <:+: (ToPretty { Content := pre ++ (name, c) :: post }).Choices
    ∧ emittedInputs (name, c) (rowCount pre)
        <:+: (ToPretty { Content := pre ++ (name, c) :: post }).Inputs
    ∧ emittedBoolean (name, c) (rowCount pre)
        <:+: (ToPretty { Content := pre ++ (name, c) :: post }).Boolean
    ∧ IdsIncreaseBelow (ToPretty { Content := pre ++ (name, c) :: post })
        (rowCount (pre ++ (name, c) :: post)) := by
  have hsnd := foldl_prettyField_snd pre
    ({ Choices := [], Inputs := [], Boolean := [], KeyVals := [] }, 0)
  simp only [Nat.zero_add] at hsnd
  obtain ⟨⟨e1, h1⟩, ⟨e2, h2⟩, ⟨e3, h3⟩, ⟨e4, h4⟩⟩ := foldl_prettyField_split pre post (name, c)
    ({ Choices := [], Inputs := [], Boolean := [], KeyVals := [] }, 0)
  rw [hsnd] at h1 h2 h3 h4
  refine ⟨⟨_, e1, h1.symm⟩, ⟨_, e2, h2.symm⟩, ⟨_, e3, h3.symm⟩, ⟨_, e4, h4.symm⟩, ?_⟩
  have hinit : IdsIncreaseBelow
      (({ Choices := [], Inputs := [], Boolean := [], KeyVals := [] }, 0) : Pretty × Nat).1
      (({ Choices := [], Inputs := [], Boolean := [], KeyVals := [] }, 0) : Pretty × Nat).2 := by
    simp [IdsIncreaseBelow]
  have := idsIncreaseBelow_foldl (pre ++ (name, c) :: post) _ hinit
  rw [foldl_prettyField_snd] at this
  simpa [ToPretty, prettyRun] using this

/-- C9: under every iteration order of a model's fields, the ids ToPretty
assigns over the four row lists are pairwise distinct and are exactly
0, 1, ..., n-1, where n is the number of emitted rows: one per entry of each
group field and one per choice, input and boolean field; a model with zero
fields projects to zero rows. -/
theorem toPretty_ids_are_range (w w' : Workflow) (horder : w'.Content.Perm w.Content) :
    (allIds (ToPretty w')).Perm (List.range (rowCount w.Content))
    ∧ (allIds (ToPretty w')).Nodup
    ∧ (ToPretty w').KeyVals.length + (ToPretty w').Choices.length
        + (ToPretty w').Inputs.length + (ToPretty w').Boolean.length = rowCount w.Content
    ∧ (ToPretty w').KeyVals.length = (w.Content.map fun kv => kvRows kv.2).sum
    ∧ (ToPretty w').Choices.length = (w.Content.map fun kv => optRows kv.2.Choice).sum
    ∧ (ToPretty w').Inputs.length = (w.Content.map fun kv => optRows kv.2.Value).sum
    ∧ (ToPretty w').Boolean.length = (w.Content.map fun kv => optRows kv.2.Boolean).sum
    ∧ ToPretty { Content := [] } = { Choices := [], Inputs := [], Boolean := [], KeyVals := [] } := by
  have hperm := allIds_ToPretty w'
  rw [rowCount_perm horder] at hperm
  obtain ⟨l1, l2, l3, l4⟩ := foldl_prettyField_lengths w'.Content
    ({ Choices := [], Inputs := [], Boolean := [], KeyVals := [] }, 0)
  simp only [List.length_nil, Nat.zero_add] at l1 l2 l3 l4
  refine ⟨hperm, hperm.nodup_iff.2 (List.nodup_range _), ?_, ?_, ?_, ?_, ?_, rfl⟩
  · rw [← allIds_length, hperm.length_eq, List.length_range]
  · rw [ToPretty, prettyRun, l1]; exact ((horder.map _).sum_eq)
  · rw [ToPretty, prettyRun, l2]; exact ((horder.map _).sum_eq)
  · rw [ToPretty, prettyRun, l3]; exact ((horder.map _).sum_eq)
  · rw [ToPretty, prettyRun, l4]; exact ((horder.map _).sum_eq)

theorem toPretty_ids_are_range_witness :
    (allIds (ToPretty { Content := sampleModel.Content.reverse })).Perm
      (List.range (rowCount sampleModel.Content))
    ∧ rowCount sampleModel.Content = 3
    ∧ allIds (ToPretty { Content := sampleModel.Content.reverse }) = [1, 2, 0] :=
  ⟨(toPretty_ids_are_range sampleModel { Content := sampleModel.Content.reverse }
      (List.reverse_perm _)).1, by decide, by decide⟩

end workflow
end gama

namespace gama

theorem mem_keys_mapSet {V : Type} (m : GoMap V) (k : String) (v : V) (k0 : String) :
    k0 ∈ (mapSet m k v).map Prod.fst ↔ k0 = k ∨ k0 ∈ m.map Prod.fst := by
  induction m with
  | nil => simp [mapSet]
  | cons kv m ih =>
    obtain ⟨k1, v1⟩ := kv
    by_cases hk1 : k1 = k
    · subst hk1
      simp only [mapSet, if_true, List.map_cons, List.mem_cons]
      tauto
    · simp only [mapSet, if_neg hk1, List.map_cons, List.mem_cons, ih]
      tauto

theorem nodupKeys_mapSet {V : Type} (m : GoMap V) (k : String) (v : V) (h : NodupKeys m) :
    NodupKeys (mapSet m k v) := by
  unfold NodupKeys at *
  induction m with
  | nil => simp [mapSet]
  | cons kv m ih =>
    obtain ⟨k0, v0⟩ := kv
    simp only [List.map_cons, List.nodup_cons] at h
    by_cases hk : k0 = k
    · subst hk
      simpa [mapSet] using h
    · simp only [mapSet, if_neg hk, List.map_cons, List.nodup_cons]
      refine ⟨?_, ih h.2⟩
      intro hmem
      rcases (mem_keys_mapSet m k v k0).1 hmem with h' | h'
      · exact hk h'
      · exact h.1 h'

theorem mapGet_map {V W : Type} (f : V → W) (m : GoMap V) (k : String) :
    mapGet (m.map fun kv => (kv.1, f kv.2)) k = (mapGet m k).map f := by
  induction m with
  | nil => simp [mapGet]
  | cons kv m ih =>
    obtain ⟨k0, v0⟩ := kv
    by_cases h : k0 = k
    · simp [mapGet, h]
    · simp [mapGet, h, ih]

theorem nodupKeys_map {V W : Type} (f : V → W) (m : GoMap V) (h : NodupKeys m) :
    NodupKeys (m.map fun kv => (kv.1, f kv.2)) := by
  unfold NodupKeys at *
  simpa [List.map_map, Function.comp_def] using h

theorem foldl_mapSet_get {α V : Type} (key : α → String) (val : α → V) (l : List α)
    (R : GoMap V) (q : String) (hq : ∀ x ∈ l, key x ≠ q) :
    mapGet (l.foldl (fun r x => mapSet r (key x) (val x)) R) q = mapGet R q := by
  induction l generalizing R with
  | nil => rfl
  | cons x l ih =>
    rw [List.foldl_cons, ih _ (fun y hy => hq y (List.mem_cons_of_mem _ hy))]
    exact mapGet_mapSet_ne _ _ _ _ (fun h => hq x (List.mem_cons_self _ _) h.symm)

theorem foldl_mapSet_nodup {α V : Type} (key : α → String) (val : α → V) (l : List α)
    (R : GoMap V) (h : NodupKeys R) :
    NodupKeys (l.foldl (fun r x => mapSet r (key x) (val x)) R) := by
  induction l generalizing R with
  | nil => exact h
  | cons x l ih =>
    rw [List.foldl_cons]
    exact ih _ (nodupKeys_mapSet _ _ _ h)

end gama

namespace gama

/-! ## encoding/json -/

theorem orderedInsert_map {V W : Type} (f : V → W) (a : String × V) (l : GoMap V) :
    List.orderedInsert entryLE (a.1, f a.2) (l.map fun kv => (kv.1, f kv.2))
      = (List.orderedInsert entryLE a l).map fun kv => (kv.1, f kv.2) := by
  induction l with
  | nil => simp
  | cons b l ih =>
    by_cases h : entryLE a b
    · have h' : entryLE (a.1, f a.2) (b.1, f b.2) := h
      simp [List.orderedInsert, h, h']
    · have h' : ¬ entryLE (a.1, f a.2) (b.1, f b.2) := h
      simp only [List.map_cons, List.orderedInsert, if_neg h, if_neg h', ih]

theorem sortKeys_map {V W : Type} (f : V → W) (m : GoMap V) :
    sortKeys (m.map fun kv => (kv.1, f kv.2)) = (sortKeys m).map fun kv => (kv.1, f kv.2) := by
  unfold sortKeys
  induction m with
  | nil => simp
  | cons a m ih =>
    simp only [List.map_cons, List.insertionSort, ih]
    exact orderedInsert_map f a _

theorem marshalObject_map {V W : Type} (enc : W → String) (f : V → W) (m : GoMap V) :
    marshalObject enc (m.map fun kv => (kv.1, f kv.2)) = marshalObject (fun v => enc (f v)) m := by
  unfold marshalObject
  rw [sortKeys_map, List.map_map]
  rfl

namespace workflow

/-! ## ToJson: closed form -/

theorem convertJsonToString_eq (R : GoMap JAny) :
    convertJsonToString R = .ok (R.map fun kv => (kv.1, JAny.str (stringify kv.2))) := by
  induction R with
  | nil => rfl
  | cons kv R ih =>
    obtain ⟨k, v⟩ := kv
    cases v with
    | str s => simp [convertJsonToString, ih, stringify, bind, Except.bind, pure, Except.pure]
    | obj m =>
      simp [convertJsonToString, ih, stringify, jsonMarshalAny, marshalAny, bind, Except.bind,
        pure, Except.pure]

/-- The result map just before `convertJsonToString`, given the map the
key/value loop ends with. -/
theorem ToJson_eq (p : Pretty) (R : GoMap JAny) (h : p.KeyVals.foldlM jsonKeyVal [] = .ok R) :
    ToJson p = .ok (marshalObject marshalString
      (((p.Boolean.foldl (fun r b => mapSet r b.Key (JAny.str b.Value))
          (p.Inputs.foldl (fun r i => mapSet r i.Key (JAny.str i.Value))
            (p.Choices.foldl (fun r c => mapSet r c.Key (JAny.str c.Value)) R)))).map
        fun kv => (kv.1, stringify kv.2)), none) := by
  unfold ToJson
  simp only [h, bind, Except.bind, convertJsonToString_eq, jsonMarshal, pure, Except.pure]
  rw [marshalObject_map marshalAny (fun v => JAny.str (stringify v)),
    marshalObject_map marshalString stringify]
  rfl

end workflow
end gama

namespace gama
namespace workflow

/-! ## ToJson: the key/value loop -/

theorem jsonKeyVal_step (P : String → Prop) (R : GoMap JAny)
    (acc : String → Option (GoMap String))
    (hinv : ∀ q, P q → mapGet R q = (acc q).map JAny.obj) (hnd : NodupKeys R)
    (kv : PrettyKeyValue) (htop : kv.Parent = none → ¬ P kv.Key)
    (hpar : ∀ q, kv.Parent = some q → P q) :
    ∃ R', jsonKeyVal R kv = .ok R' ∧ NodupKeys R'
      ∧ ∀ q, P q → mapGet R' q = (groupStep q (acc q) kv).map JAny.obj := by
  cases hp : kv.Parent with
  | none =>
    refine ⟨mapSet R kv.Key (JAny.str kv.Value), by simp [jsonKeyVal, hp, pure, Except.pure],
      nodupKeys_mapSet _ _ _ hnd, fun q hq => ?_⟩
    have hne : q ≠ kv.Key := fun h => htop hp (h ▸ hq)
    rw [mapGet_mapSet_ne _ _ _ _ hne, hinv q hq]
    simp [groupStep, hp]
  | some parent =>
    have hP : P parent := hpar parent hp
    have hget := hinv parent hP
    cases hacc : acc parent with
    | none =>
      rw [hacc] at hget
      simp only [Option.map_none'] at hget
      refine ⟨mapSet (mapSet R parent (JAny.obj [])) parent
          (JAny.obj (mapSet [] kv.Key kv.Value)), ?_, ?_, fun q hq => ?_⟩
      · simp [jsonKeyVal, hp, hget, mapGet_mapSet_self, pure, Except.pure]
      · exact nodupKeys_mapSet _ _ _ (nodupKeys_mapSet _ _ _ hnd)
      · by_cases hqp : q = parent
        · subst hqp
          simp [mapGet_mapSet_self, groupStep, hp, hacc]
        · rw [mapGet_mapSet_ne _ _ _ _ hqp, mapGet_mapSet_ne _ _ _ _ hqp, hinv q hq]
          have : ¬ (some parent = some q) := fun h => hqp (Option.some.inj h).symm
          simp [groupStep, hp, this]
    | some m =>
      rw [hacc] at hget
      simp only [Option.map_some'] at hget
      refine ⟨mapSet R parent (JAny.obj (mapSet m kv.Key kv.Value)), ?_, ?_, fun q hq => ?_⟩
      · simp [jsonKeyVal, hp, hget, pure, Except.pure]
      · exact nodupKeys_mapSet _ _ _ hnd
      · by_cases hqp : q = parent
        · subst hqp
          simp [mapGet_mapSet_self, groupStep, hp, hacc]
        · rw [mapGet_mapSet_ne _ _ _ _ hqp, hinv q hq]
          have : ¬ (some parent = some q) := fun h => hqp (Option.some.inj h).symm
          simp [groupStep, hp, this]

theorem jsonKeyVal_loop (P : String → Prop) (rows : List PrettyKeyValue) (R : GoMap JAny)
    (acc : String → Option (GoMap String))
    (hinv : ∀ q, P q → mapGet R q = (acc q).map JAny.obj) (hnd : NodupKeys R)
    (htop : ∀ kv ∈ rows, kv.Parent = none → ¬ P kv.Key)
    (hpar : ∀ kv ∈ rows, ∀ q, kv.Parent = some q → P q) :
    ∃ R', rows.foldlM jsonKeyVal R = .ok R' ∧ NodupKeys R'
      ∧ ∀ q, P q → mapGet R' q = (rows.foldl (groupStep q) (acc q)).map JAny.obj := by
  induction rows generalizing R acc with
  | nil => exact ⟨R, rfl, hnd, hinv⟩
  | cons kv rows ih =>
    obtain ⟨R1, h1, hnd1, hinv1⟩ := jsonKeyVal_step P R acc hinv hnd kv
      (htop kv (List.mem_cons_self _ _)) (hpar kv (List.mem_cons_self _ _))
    obtain ⟨R', h', hnd', hinv'⟩ := ih R1 (fun q => groupStep q (acc q) kv) hinv1 hnd1
      (fun x hx => htop x (List.mem_cons_of_mem _ hx))
      (fun x hx => hpar x (List.mem_cons_of_mem _ hx))
    refine ⟨R', ?_, hnd', hinv'⟩
    simp only [List.foldlM, bind, Except.bind, h1]
    exact h'

/-! ## The nested map of one parent -/

theorem groupOf_concat (parent : String) (rows : List PrettyKeyValue) (kv : PrettyKeyValue) :
    groupOf parent (rows ++ [kv]) = groupStep parent (groupOf parent rows) kv := by
  simp [groupOf, List.foldl_append]

theorem nestedValue_concat (rows : List PrettyKeyValue) (kv : PrettyKeyValue)
    (parent k : String) :
    nestedValue (rows ++ [kv]) parent k
      = if kv.Parent = some parent ∧ kv.Key = k then some kv.Value
        else nestedValue rows parent k := by
  unfold nestedValue
  by_cases h : kv.Parent = some parent ∧ kv.Key = k
  · simp [List.filter_append, h]
  · simp [List.filter_append, h]

theorem groupOf_spec (parent : String) (rows : List PrettyKeyValue) :
    NodupKeys ((groupOf parent rows).getD [])
      ∧ ∀ k, mapGet ((groupOf parent rows).getD []) k = nestedValue rows parent k := by
  induction rows using List.reverseRecOn with
  | nil => exact ⟨by simp [groupOf, NodupKeys], fun k => by simp [groupOf, nestedValue, mapGet]⟩
  | append_singleton rows kv ih =>
    rw [groupOf_concat]
    by_cases hp : kv.Parent = some parent
    · simp only [groupStep, if_pos hp, Option.getD_some]
      refine ⟨nodupKeys_mapSet _ _ _ ih.1, fun k => ?_⟩
      rw [nestedValue_concat]
      by_cases hk : kv.Key = k
      · subst hk
        simp [hp, mapGet_mapSet_self]
      · rw [mapGet_mapSet_ne _ _ _ _ (Ne.symm hk), ih.2 k]
        simp [hk]
    · simp only [groupStep, if_neg hp]
      refine ⟨ih.1, fun k => ?_⟩
      rw [nestedValue_concat, ih.2 k]
      simp [hp]

theorem groupOf_isSome (parent : String) (rows : List PrettyKeyValue)
    (h : parent ∈ rows.filterMap PrettyKeyValue.Parent) : (groupOf parent rows).isSome := by
  induction rows using List.reverseRecOn with
  | nil => simp at h
  | append_singleton rows kv ih =>
    rw [groupOf_concat]
    by_cases hp : kv.Parent = some parent
    · simp [groupStep, hp]
    · simp only [groupStep, if_neg hp]
      apply ih
      simp only [List.filterMap_append, List.mem_append, List.mem_filterMap] at h ⊢
      rcases h with h | ⟨a, ha, hpa⟩
      · exact h
      · simp only [List.mem_singleton] at ha
        subst ha
        exact absurd hpa hp

end workflow
end gama

namespace gama
namespace workflow

/-! ## ToJson: the claims -/

/-- C1 (as stated, refuted): for the row set made of the group row
matrix/os = linux and an input row named matrix with value x, ToJson returns
the object that maps matrix to the string x, so the rows sharing the parent
matrix are not stored under it; and for a row without parent named matrix
followed by a row with parent matrix, ToJson panics and returns no object. -/
theorem toJson_every_row_set_counterexample :
    ToJson shadowedRows = .ok ("\x7b\"matrix\":\"x\"\x7d", none)
    ∧ ToJson orphanThenGroupRows = .error Panic.typeAssertion := by
  constructor <;> decide

/-- C1 (amended): for every row set in which no top-level key (the key of a
key/value row without parent, of a choice, input or boolean row) is the parent
name of a key/value row, ToJson returns, with a nil error, the encoding of an
object whose values are all strings; under each parent name it holds the JSON
encoding, as a string, of one object that maps every nested key of the rows
sharing that parent to its current value. -/
theorem toJson_groups (p : Pretty) (hsep : ∀ k ∈ topLevelKeys p, k ∉ parentNames p) :
    ∃ result : GoMap String,
      ToJson p = .ok (marshalObject marshalString result, none) ∧ NodupKeys result ∧
      ∀ parent ∈ parentNames p, ∃ group : GoMap String,
        mapGet result parent = some (marshalObject marshalString group) ∧ NodupKeys group ∧
        ∀ k, mapGet group k = nestedValue p.KeyVals parent k := by
  have htop : ∀ kv ∈ p.KeyVals, kv.Parent = none → ¬ (kv.Key ∈ parentNames p) := by
    intro kv hkv hnone
    apply hsep
    simp only [topLevelKeys, List.mem_append, List.mem_map, List.mem_filter]
    exact Or.inl (Or.inl (Or.inl ⟨kv, ⟨hkv, by simp [hnone]⟩, rfl⟩))
  have hpar : ∀ kv ∈ p.KeyVals, ∀ q, kv.Parent = some q → q ∈ parentNames p := by
    intro kv hkv q hq
    exact List.mem_filterMap.2 ⟨kv, hkv, hq⟩
  obtain ⟨R, hR, hndR, hinv⟩ := jsonKeyVal_loop (fun q => q ∈ parentNames p) p.KeyVals []
    (fun _ => none) (fun q _ => by simp [mapGet]) (by simp [NodupKeys]) htop hpar
  refine ⟨_, ToJson_eq p R hR, ?_, fun parent hparent => ?_⟩
  · exact nodupKeys_map _ _ (foldl_mapSet_nodup _ _ _ _ (foldl_mapSet_nodup _ _ _ _
      (foldl_mapSet_nodup _ _ _ _ hndR)))
  · have hc : ∀ c ∈ p.Choices, c.Key ≠ parent := by
      intro c hc h
      apply hsep c.Key _ (h ▸ hparent)
      simp only [topLevelKeys, List.mem_append, List.mem_map]
      exact Or.inl (Or.inl (Or.inr ⟨c, hc, rfl⟩))
    have hi : ∀ i ∈ p.Inputs, i.Key ≠ parent := by
      intro i hi h
      apply hsep i.Key _ (h ▸ hparent)
      simp only [topLevelKeys, List.mem_append, List.mem_map]
      exact Or.inl (Or.inr ⟨i, hi, rfl⟩)
    have hb : ∀ b ∈ p.Boolean, b.Key ≠ parent := by
      intro b hb h
      apply hsep b.Key _ (h ▸ hparent)
      simp only [topLevelKeys, List.mem_append, List.mem_map]
      exact Or.inr ⟨b, hb, rfl⟩
    have hsome := groupOf_isSome parent p.KeyVals hparent
    obtain ⟨group, hgroup⟩ := Option.isSome_iff_exists.1 hsome
    have hspec := groupOf_spec parent p.KeyVals
    rw [hgroup] at hspec
    refine ⟨group, ?_, hspec.1, hspec.2⟩
    rw [mapGet_map, foldl_mapSet_get _ _ _ _ _ hb, foldl_mapSet_get _ _ _ _ _ hi,
      foldl_mapSet_get _ _ _ _ _ hc, hinv parent hparent]
    have : List.foldl (groupStep parent) none p.KeyVals = some group := hgroup
    simp [this, stringify]

theorem toJson_groups_witness :
    (∃ result : GoMap String,
      ToJson matrixRows = .ok (marshalObject marshalString result, none) ∧ NodupKeys result ∧
      ∀ parent ∈ parentNames matrixRows, ∃ group : GoMap String,
        mapGet result parent = some (marshalObject marshalString group) ∧ NodupKeys group ∧
        ∀ k, mapGet group k = nestedValue matrixRows.KeyVals parent k)
    ∧ ToJson matrixRows
        = .ok ("\x7b\"matrix\":\"\x7b\\\"os\\\":\\\"linux\\\"\x7d\"\x7d", none) :=
  ⟨toJson_groups matrixRows (by decide), by decide⟩

end workflow
end gama

namespace gama

/-! ## The key order of json.Marshal -/

theorem leChars_total (a b : List Char) : leChars a b = true ∨ leChars b a = true := by
  induction a generalizing b with
  | nil => simp [leChars]
  | cons x a ih =>
    cases b with
    | nil => simp [leChars]
    | cons y b =>
      simp only [leChars]
      by_cases h1 : x.toNat < y.toNat
      · simp [h1]
      · by_cases h2 : y.toNat < x.toNat
        · simp [h2]
        · simp only [if_neg h1, if_neg h2]
          exact ih b

theorem leChars_trans (a b c : List Char) (hab : leChars a b = true)
    (hbc : leChars b c = true) : leChars a c = true := by
  induction a generalizing b c with
  | nil => simp [leChars]
  | cons x a ih =>
    cases b with
    | nil => simp [leChars] at hab
    | cons y b =>
      cases c with
      | nil => simp [leChars] at hbc
      | cons z c =>
        simp only [leChars] at hab hbc ⊢
        by_cases hxy : x.toNat < y.toNat
        · by_cases hyz : y.toNat < z.toNat
          · have : x.toNat < z.toNat := by omega
            simp [this]
          · by_cases hzy : z.toNat < y.toNat
            · simp [hyz, hzy] at hbc
            · have : x.toNat < z.toNat := by omega
              simp [this]
        · by_cases hyx : y.toNat < x.toNat
          · simp [hxy, hyx] at hab
          · simp only [if_neg hxy, if_neg hyx] at hab
            by_cases hyz : y.toNat < z.toNat
            · have : x.toNat < z.toNat := by omega
              simp [this]
            · by_cases hzy : z.toNat < y.toNat
              · simp [hyz, hzy] at hbc
              · simp only [if_neg hyz, if_neg hzy] at hbc
                have h1 : ¬ x.toNat < z.toNat := by omega
                have h2 : ¬ z.toNat < x.toNat := by omega
                simp only [if_neg h1, if_neg h2]
                exact ih b c hab hbc

theorem leChars_antisymm (a b : List Char) (hab : leChars a b = true)
    (hba : leChars b a = true) : a = b := by
  induction a generalizing b with
  | nil =>
    cases b with
    | nil => rfl
    | cons y b => simp [leChars] at hba
  | cons x a ih =>
    cases b with
    | nil => simp [leChars] at hab
    | cons y b =>
      simp only [leChars] at hab hba
      by_cases hxy : x.toNat < y.toNat
      · have : ¬ y.toNat < x.toNat := by omega
        simp [hxy, this] at hba
      · by_cases hyx : y.toNat < x.toNat
        · simp [hxy, hyx] at hab
        · simp only [if_neg hxy, if_neg hyx] at hab hba
          have hc : x = y := Char.ext (UInt32.ext (by
            show x.toNat = y.toNat
            omega))
          rw [hc, ih b hab hba]

theorem keyLE_antisymm (a b : String) (hab : keyLE a b) (hba : keyLE b a) : a = b :=
  String.ext (leChars_antisymm _ _ hab hba)

theorem sortKeys_perm {V : Type} (m : GoMap V) : (sortKeys m).Perm m :=
  List.perm_insertionSort _ _

theorem sortKeys_sorted {V : Type} (m : GoMap V) : (sortKeys m).Pairwise entryLE := by
  haveI : IsTotal (String × V) entryLE := ⟨fun a b => leChars_total a.1.data b.1.data⟩
  haveI : IsTrans (String × V) entryLE :=
    ⟨fun a b c hab hbc => leChars_trans a.1.data b.1.data c.1.data hab hbc⟩
  exact List.sorted_insertionSort _ _

theorem sortKeys_nodup {V : Type} (m : GoMap V) (h : NodupKeys m) : NodupKeys (sortKeys m) := by
  unfold NodupKeys at *
  exact ((sortKeys_perm m).map _).nodup_iff.2 h

theorem sortKeys_strict {V : Type} (m : GoMap V) (h : NodupKeys m) :
    ((sortKeys m).map Prod.fst).Pairwise keyLT := by
  have h1 : (sortKeys m).Pairwise (fun a b => keyLE a.1 b.1) := sortKeys_sorted m
  have h2 : (sortKeys m).Pairwise (fun a b => a.1 ≠ b.1) := by
    have := sortKeys_nodup m h
    unfold NodupKeys List.Nodup at this
    exact List.pairwise_map.1 this
  rw [List.pairwise_map]
  exact h1.and h2

theorem sortKeys_congr {V : Type} (m m' : GoMap V) (hperm : m'.Perm m) (h : NodupKeys m) :
    sortKeys m' = sortKeys m := by
  have h' : NodupKeys m' := by
    unfold NodupKeys at *
    exact (hperm.map _).nodup_iff.2 h
  have hp : (sortKeys m').Perm (sortKeys m) :=
    ((sortKeys_perm m').trans hperm).trans (sortKeys_perm m).symm
  have strict : ∀ l : GoMap V, NodupKeys l →
      (sortKeys l).Pairwise (fun a b => keyLT a.1 b.1) := fun l hl =>
    List.pairwise_map.1 (sortKeys_strict l hl)
  haveI : IsAntisymm (String × V) (fun a b => keyLT a.1 b.1) :=
    ⟨fun a b hab hba => absurd (keyLE_antisymm _ _ hab.1 hba.1) hab.2⟩
  exact List.eq_of_perm_of_sorted hp (strict m' h') (strict m h)

theorem marshalObject_congr {V : Type} (enc : V → String) (m m' : GoMap V)
    (hperm : m'.Perm m) (h : NodupKeys m) : marshalObject enc m' = marshalObject enc m := by
  unfold marshalObject
  rw [sortKeys_congr m m' hperm h]

end gama

namespace gama

theorem mapSet_fresh {V : Type} (m : GoMap V) (k : String) (v : V)
    (h : k ∉ m.map Prod.fst) : mapSet m k v = m ++ [(k, v)] := by
  induction m with
  | nil => rfl
  | cons kv m ih =>
    obtain ⟨k0, v0⟩ := kv
    simp only [List.map_cons, List.mem_cons, not_or] at h
    simp [mapSet, Ne.symm h.1, ih h.2]

theorem marshalObject_single {V : Type} (enc : V → String) (k : String) (v : V) :
    marshalObject enc [(k, v)] = "\x7b" ++ (marshalString k ++ ":" ++ enc v) ++ "\x7d" := by
  simp [marshalObject, sortKeys, String.intercalate, String.intercalate.go]

namespace workflow

/-! ## ToJson on the rows of one group -/

theorem foldl_mapSet_fresh (rows : List PrettyKeyValue) (m : GoMap String)
    (hnd : (rows.map PrettyKeyValue.Key).Nodup)
    (hfresh : ∀ kv ∈ rows, kv.Key ∉ m.map Prod.fst) :
    rows.foldl (fun m kv => mapSet m kv.Key kv.Value) m
      = m ++ rows.map fun kv => (kv.Key, kv.Value) := by
  induction rows generalizing m with
  | nil => simp
  | cons kv rows ih =>
    simp only [List.map_cons, List.nodup_cons] at hnd
    rw [List.foldl_cons, mapSet_fresh m _ _ (hfresh kv (List.mem_cons_self _ _)), ih _ hnd.2]
    · simp
    · intro x hx
      simp only [List.map_append, List.map_cons, List.map_nil, List.mem_append,
        List.mem_singleton, not_or]
      refine ⟨hfresh x (List.mem_cons_of_mem _ hx), fun h => hnd.1 ?_⟩
      rw [← h]
      exact List.mem_map_of_mem _ hx

theorem jsonKeyVal_group_loop (parent : String) (rows : List PrettyKeyValue)
    (m : GoMap String) (hparent : ∀ kv ∈ rows, kv.Parent = some parent) :
    rows.foldlM jsonKeyVal [(parent, JAny.obj m)]
      = .ok [(parent, JAny.obj (rows.foldl (fun m kv => mapSet m kv.Key kv.Value) m))] := by
  induction rows generalizing m with
  | nil => rfl
  | cons kv rows ih =>
    have hp := hparent kv (List.mem_cons_self _ _)
    have hstep : jsonKeyVal [(parent, JAny.obj m)] kv
        = .ok [(parent, JAny.obj (mapSet m kv.Key kv.Value))] := by
      simp [jsonKeyVal, hp, mapGet, mapSet, pure, Except.pure]
    simp only [List.foldlM, bind, Except.bind, hstep, List.foldl_cons]
    exact ih _ (fun x hx => hparent x (List.mem_cons_of_mem _ hx))

theorem jsonKeyVal_group (parent : String) (rows : List PrettyKeyValue) (hne : rows ≠ [])
    (hparent : ∀ kv ∈ rows, kv.Parent = some parent) :
    rows.foldlM jsonKeyVal []
      = .ok [(parent, JAny.obj (rows.foldl (fun m kv => mapSet m kv.Key kv.Value) []))] := by
  cases rows with
  | nil => exact absurd rfl hne
  | cons kv rows =>
    have hp := hparent kv (List.mem_cons_self _ _)
    have hstep : jsonKeyVal [] kv = .ok [(parent, JAny.obj (mapSet [] kv.Key kv.Value))] := by
      simp [jsonKeyVal, hp, mapGet, mapSet, pure, Except.pure]
    simp only [List.foldlM, bind, Except.bind, hstep, List.foldl_cons]
    exact jsonKeyVal_group_loop parent rows _ (fun x hx => hparent x (List.mem_cons_of_mem _ hx))

theorem ToJson_group (parent : String) (rows : List PrettyKeyValue) (hne : rows ≠ [])
    (hparent : ∀ kv ∈ rows, kv.Parent = some parent)
    (hkeys : (rows.map PrettyKeyValue.Key).Nodup) :
    ToJson { Choices := [], Inputs := [], Boolean := [], KeyVals := rows }
      = .ok ("\x7b" ++ (marshalString parent ++ ":" ++ marshalString
          (marshalObject marshalString (rows.map fun kv => (kv.Key, kv.Value)))) ++ "\x7d",
          none) := by
  rw [ToJson_eq _ _ (jsonKeyVal_group parent rows hne hparent)]
  rw [foldl_mapSet_fresh rows [] hkeys (by simp)]
  simp only [List.foldl_nil, List.map_cons, List.map_nil, List.nil_append, stringify]
  rw [marshalObject_single]

end workflow
end gama

namespace gama
namespace usecase

/-! ## ListRepositories: the invariant -/

theorem workers_split (ws : List Worker) (w : Nat) (a : Worker) (h : ws.get? w = some a)
    (b : Worker) : ∃ pre post, ws = pre ++ a :: post ∧ ws.set w b = pre ++ b :: post := by
  induction ws generalizing w with
  | nil => simp at h
  | cons x ws ih =>
    cases w with
    | zero =>
      simp only [List.get?_cons_zero, Option.some.injEq] at h
      subst h
      exact ⟨[], ws, rfl, rfl⟩
    | succ n =>
      simp only [List.get?_cons_succ] at h
      obtain ⟨pre, post, h1, h2⟩ := ih n h
      exact ⟨x :: pre, post, by rw [h1]; rfl, by rw [List.set_cons_succ, h2]; rfl⟩

theorem workerJob_eq (fetch : Fetch) (r : gr.GithubRepository) :
    workerJob fetch r
      = match fetch r.FullName with
        | .ok workflows => Outcome.result (enrich r workflows)
        | .error err => Outcome.failure err := by
  unfold workerJob enrich
  cases fetch r.FullName with
  | error e => rfl
  | ok ws =>
    have key : ∀ (l : List gr.TriggerableWorkflow) (acc : List Workflow),
        l.foldl (fun workflows workflow =>
            workflows ++ [{ ID := workflow.Id, Name := workflow.Name, State := workflow.State }])
          acc
          = acc ++ l.map fun w => { ID := w.Id, Name := w.Name, State := w.State } := by
      intro l
      induction l with
      | nil => intro acc; simp
      | cons a l ih => intro acc; simp [ih]
    simp [key]

theorem inv_start (fetch : Fetch) (repositories : List gr.GithubRepository) :
    Inv fetch repositories (start repositories) where
  conserve := by
    have : workingJobs (List.replicate repositories.length Worker.waiting) = [] := by
      simp [workingJobs, List.filterMap_eq_nil_iff, List.mem_replicate]
    simp [pending, start, this]
  count := by simp [start]
  result_eq := by simp [start]
  err_eq := by simp [start, lastFailure]
  closed_sent := by simp [start]
  workers_len := by simp [start]
  returned_drained := by
    intro h
    simp [start, List.mem_replicate] at h

theorem lastFailure_concat_result (log : List Outcome) (res : GithubRepository) :
    lastFailure (log ++ [Outcome.result res]) = lastFailure log := by
  simp [lastFailure, List.filterMap_append, Outcome.failure?]

theorem lastFailure_concat_failure (log : List Outcome) (err : String) :
    lastFailure (log ++ [Outcome.failure err]) = some err := by
  simp [lastFailure, List.filterMap_append, Outcome.failure?]

theorem inv_step (fetch : Fetch) (repositories : List gr.GithubRepository) (s s' : State)
    (a : Action) (hinv : Inv fetch repositories s)
    (h : step fetch repositories.length s a = some s') : Inv fetch repositories s' := by
  obtain ⟨hcons, hcount, hres, herr, hclosed, hlen, hret⟩ := hinv
  cases a with
  | send =>
    simp only [step] at h
    split at h
    · rename_i repository rest hsend
      split at h
      · simp only [Option.some.injEq] at h
        subst h
        have hcl : s.closed = false := by
          cases hc : s.closed with
          | false => rfl
          | true => rw [hclosed hc] at hsend; simp at hsend
        refine ⟨?_, hcount, hres, herr, ?_, hlen, ?_⟩
        · refine List.Perm.trans ?_ hcons
          rw [List.perm_iff_count]
          intro x
          simp only [pending, hsend, List.map_append, List.map_cons, List.map_nil,
            List.count_append, List.count_cons, List.count_nil, List.cons_append]
          omega
        · intro hc
          simp only [hcl] at hc
          exact absurd hc (by simp)
        · intro hr
          have := (hret hr).1
          rw [hcl] at this
          exact absurd this (by simp)
      · simp at h
    · simp at h
  | close =>
    simp only [step] at h
    split at h
    · rename_i hc
      simp only [Option.some.injEq] at h
      subst h
      refine ⟨?_, hcount, hres, herr, fun _ => hc.1, hlen, ?_⟩
      · exact hcons
      · intro hr
        have := (hret hr).1
        rw [hc.2] at this
        exact absurd this (by simp)
    · simp at h
  | take w =>
    simp only [step] at h
    split at h
    · rename_i repository rest hw hjobs
      simp only [Option.some.injEq] at h
      subst h
      obtain ⟨pre, post, h1, h2⟩ := workers_split s.workers w _ hw (Worker.working repository)
      refine ⟨?_, hcount, hres, herr, hclosed, ?_, ?_⟩
      · refine List.Perm.trans ?_ hcons
        rw [List.perm_iff_count]
        intro x
        simp only [pending]
        rw [h2, h1]
        simp only [hjobs, workingJobs, List.filterMap_append,
          List.filterMap_cons, List.map_append, List.map_cons, List.map_nil,
          List.count_append, List.count_cons, List.count_nil, List.cons_append]
        omega
      · simp only [List.length_set]
        exact hlen
      · intro hr
        simp only [h2, List.mem_append, List.mem_cons] at hr
        have hr' : Worker.returned ∈ s.workers := by
          rw [h1]
          simp only [List.mem_append, List.mem_cons]
          rcases hr with hr | hr | hr
          · exact Or.inl hr
          · exact absurd hr (by simp)
          · exact Or.inr (Or.inr hr)
        have := (hret hr').2
        rw [hjobs] at this
        exact absurd this (by simp)
    · simp at h
  | finish w =>
    simp only [step] at h
    split at h
    · rename_i repository hw
      obtain ⟨pre, post, h1, h2⟩ := workers_split s.workers w _ hw Worker.waiting
      have hmem : ∀ st : State, st.workers = s.workers.set w Worker.waiting →
          st.closed = s.closed → st.jobs = s.jobs →
          Worker.returned ∈ st.workers → st.closed = true ∧ st.jobs = [] := by
        intro st hst hc hj hr
        rw [hc, hj]
        apply hret
        rw [hst, h2] at hr
        rw [h1]
        simp only [List.mem_append, List.mem_cons] at hr ⊢
        rcases hr with hr | hr | hr
        · exact Or.inl hr
        · exact absurd hr (by simp)
        · exact Or.inr (Or.inr hr)
      split at h
      · rename_i err hjob
        split at h
        · simp only [Option.some.injEq] at h
          subst h
          refine ⟨?_, hcount, hres, herr, hclosed, ?_, hmem _ rfl rfl rfl⟩
          · refine List.Perm.trans ?_ hcons
            rw [List.perm_iff_count]
            intro x
            simp only [pending]
            rw [h2, h1]
            simp only [hjob, workingJobs, List.filterMap_append,
              List.filterMap_cons, List.map_append, List.map_cons, List.map_nil,
              List.count_append, List.count_cons, List.count_nil, List.cons_append]
            omega
          · simp only [List.length_set]
            exact hlen
        · simp at h
      · rename_i res hjob
        split at h
        · simp only [Option.some.injEq] at h
          subst h
          refine ⟨?_, hcount, hres, herr, hclosed, ?_, hmem _ rfl rfl rfl⟩
          · refine List.Perm.trans ?_ hcons
            rw [List.perm_iff_count]
            intro x
            simp only [pending]
            rw [h2, h1]
            simp only [hjob, workingJobs, List.filterMap_append,
              List.filterMap_cons, List.map_append, List.map_cons, List.map_nil,
              List.count_append, List.count_cons, List.count_nil, List.cons_append]
            omega
          · simp only [List.length_set]
            exact hlen
        · simp at h
    · simp at h
  | leave w =>
    simp only [step] at h
    split at h
    · rename_i hw
      split at h
      · rename_i hc
        simp only [Option.some.injEq] at h
        subst h
        obtain ⟨pre, post, h1, h2⟩ := workers_split s.workers w _ hw Worker.returned
        refine ⟨?_, hcount, hres, herr, hclosed, ?_, fun _ => ⟨hc.2, hc.1⟩⟩
        · refine List.Perm.trans ?_ hcons
          rw [List.perm_iff_count]
          intro x
          simp only [pending]
          rw [h2, h1]
          simp only [workingJobs, List.filterMap_append,
            List.filterMap_cons, List.map_append, List.map_cons, List.map_nil,
            List.count_append, List.count_cons, List.count_nil, List.cons_append]
        · simp only [List.length_set]
          exact hlen
      · simp at h
    · simp at h
  | recvResult =>
    simp only [step] at h
    split at h
    · rename_i hc
      split at h
      · rename_i res rest hresults
        simp only [Option.some.injEq] at h
        subst h
        refine ⟨?_, ?_, ?_, ?_, hclosed, hlen, hret⟩
        · refine List.Perm.trans ?_ hcons
          rw [List.perm_iff_count]
          intro x
          simp only [pending, hresults, List.map_append, List.map_cons, List.map_nil,
            List.count_append, List.count_cons, List.count_nil, List.cons_append]
          omega
        · simp only [List.length_append, List.length_singleton]
          omega
        · simp [hres, List.filterMap_append, Outcome.result?]
        · simp only [lastFailure_concat_result]
          exact herr
      · simp at h
    · simp at h
  | recvError =>
    simp only [step] at h
    split at h
    · rename_i hc
      split at h
      · rename_i err rest herrors
        simp only [Option.some.injEq] at h
        subst h
        refine ⟨?_, ?_, ?_, ?_, hclosed, hlen, hret⟩
        · refine List.Perm.trans ?_ hcons
          rw [List.perm_iff_count]
          intro x
          simp only [pending, herrors, List.map_append, List.map_cons, List.map_nil,
            List.count_append, List.count_cons, List.count_nil, List.cons_append]
          omega
        · simp only [List.length_append, List.length_singleton]
          omega
        · simp [hres, List.filterMap_append, Outcome.result?]
        · simp only [lastFailure_concat_failure]
      · simp at h
    · simp at h

theorem inv_exec (fetch : Fetch) (repositories : List gr.GithubRepository)
    (schedule : List Action) (s s' : State) (hinv : Inv fetch repositories s)
    (h : exec fetch repositories.length s schedule = some s') : Inv fetch repositories s' := by
  induction schedule generalizing s with
  | nil =>
    simp only [exec, Option.some.injEq] at h
    exact h ▸ hinv
  | cons a schedule ih =>
    simp only [exec] at h
    split at h
    · rename_i s1 h1
      exact ih s1 (inv_step fetch repositories s s1 a hinv h1) h
    · simp at h

end usecase
end gama

namespace gama
namespace usecase

/-! ## ListRepositories: what the invariant gives at the return -/

theorem successes_eq (fetch : Fetch) (repositories : List gr.GithubRepository) :
    (repositories.map (workerJob fetch)).filterMap Outcome.result?
      = successes fetch repositories := by
  unfold successes
  rw [List.filterMap_map]
  congr 1
  funext r
  simp only [Function.comp, workerJob_eq]
  cases fetch r.FullName <;> rfl

theorem pending_nil_of_done (fetch : Fetch) (repositories : List gr.GithubRepository)
    (s : State) (hinv : Inv fetch repositories s) (hdone : s.done = true) :
    s.received.Perm (repositories.map (workerJob fetch)) := by
  have hrem : s.remaining = 0 := by
    simp only [State.done, Bool.and_eq_true, decide_eq_true_eq] at hdone
    exact hdone.2
  have hlen := hinv.conserve.length_eq
  have hcount := hinv.count
  simp only [List.length_append, List.length_map] at hlen
  have hp : (pending fetch s).length = 0 := by omega
  have hnil : pending fetch s = [] := List.length_eq_zero.1 hp
  have := hinv.conserve
  rwa [hnil, List.nil_append] at this

theorem lastFailure_ne_none_iff (log : List Outcome) :
    lastFailure log ≠ none ↔ ∃ err, Outcome.failure err ∈ log := by
  unfold lastFailure
  rw [Ne, List.getLast?_eq_none_iff, List.filterMap_eq_nil_iff]
  constructor
  · intro h
    by_contra hno
    apply h
    intro o ho
    cases o with
    | result res => rfl
    | failure err => exact absurd ⟨err, ho⟩ hno
  · rintro ⟨err, herr⟩ h
    have := h _ herr
    simp [Outcome.failure?] at this

theorem failure_mem_iff (fetch : Fetch) (repositories : List gr.GithubRepository) :
    (∃ err, Outcome.failure err ∈ repositories.map (workerJob fetch))
      ↔ ∃ r ∈ repositories, ∃ err, fetch r.FullName = .error err := by
  constructor
  · rintro ⟨err, h⟩
    obtain ⟨r, hr, hjob⟩ := List.mem_map.1 h
    refine ⟨r, hr, ?_⟩
    rw [workerJob_eq] at hjob
    cases hf : fetch r.FullName with
    | error e => exact ⟨e, rfl⟩
    | ok ws => rw [hf] at hjob; simp at hjob
  · rintro ⟨r, hr, err, hf⟩
    refine ⟨err, List.mem_map.2 ⟨r, hr, ?_⟩⟩
    rw [workerJob_eq, hf]

theorem done_spec (fetch : Fetch) (repositories : List gr.GithubRepository)
    (s : State) (hinv : Inv fetch repositories s) (hdone : s.done = true) :
    s.result.Perm (successes fetch repositories)
      ∧ (s.resultErr ≠ none ↔ ∃ r ∈ repositories, ∃ err, fetch r.FullName = .error err) := by
  have hperm := pending_nil_of_done fetch repositories s hinv hdone
  constructor
  · rw [hinv.result_eq, ← successes_eq]
    exact hperm.filterMap _
  · rw [hinv.err_eq, lastFailure_ne_none_iff, ← failure_mem_iff]
    constructor
    · rintro ⟨err, h⟩
      exact ⟨err, hperm.subset h⟩
    · rintro ⟨err, h⟩
      exact ⟨err, hperm.symm.subset h⟩

/-! ## ListRepositories: no deadlock -/

theorem exists_working (ws : List Worker) (h : workingJobs ws ≠ []) :
    ∃ w r, ws.get? w = some (Worker.working r) := by
  induction ws with
  | nil => simp [workingJobs] at h
  | cons x ws ih =>
    cases x with
    | working r => exact ⟨0, r, rfl⟩
    | waiting =>
      have : workingJobs ws ≠ [] := by simpa [workingJobs] using h
      obtain ⟨w, r, hw⟩ := ih this
      exact ⟨w + 1, r, hw⟩
    | returned =>
      have : workingJobs ws ≠ [] := by simpa [workingJobs] using h
      obtain ⟨w, r, hw⟩ := ih this
      exact ⟨w + 1, r, hw⟩

theorem head_waiting (ws : List Worker) (hlen : 0 < ws.length)
    (hwork : workingJobs ws = []) (hret : Worker.returned ∉ ws) :
    ws.get? 0 = some Worker.waiting := by
  cases ws with
  | nil => simp at hlen
  | cons x ws =>
    cases x with
    | waiting => rfl
    | working r => simp [workingJobs] at hwork
    | returned => simp at hret

theorem progress (fetch : Fetch) (repositories : List gr.GithubRepository) (s : State)
    (hinv : Inv fetch repositories s) (hdone : s.done = false) :
    ∃ a s', step fetch repositories.length s a = some s' := by
  have hlen := hinv.conserve.length_eq
  have hcount := hinv.count
  simp only [pending, List.length_append, List.length_map] at hlen
  cases hsend : s.toSend with
  | cons r rest =>
    rw [hsend] at hlen
    simp only [List.length_cons] at hlen
    have hcap : s.jobs.length < repositories.length := by omega
    exact ⟨Action.send, _, by simp only [step, hsend, if_pos hcap]; rfl⟩
  | nil =>
    cases hcl : s.closed with
    | false => exact ⟨Action.close, _, by simp [step, hsend, hcl]; rfl⟩
    | true =>
      have hrem : 0 < s.remaining := by
        simp only [State.done, hsend, hcl, decide_True, Bool.true_and,
          decide_eq_false_iff_not] at hdone
        omega
      have hguard : s.toSend = [] ∧ s.closed = true ∧ 0 < s.remaining := ⟨hsend, hcl, hrem⟩
      cases hres : s.results with
      | cons res rest => exact ⟨Action.recvResult, _, by simp only [step, if_pos hguard, hres]; rfl⟩
      | nil =>
        cases herrs : s.errors with
        | cons err rest => exact ⟨Action.recvError, _, by simp only [step, if_pos hguard, herrs]; rfl⟩
        | nil =>
          have hn : 0 < repositories.length := by omega
          by_cases hwork : workingJobs s.workers = []
          · rw [hsend, hres, herrs, hwork] at hlen
            simp only [List.length_nil, Nat.zero_add, Nat.add_zero] at hlen
            cases hjobs : s.jobs with
            | nil =>
              rw [hjobs] at hlen
              simp only [List.length_nil] at hlen
              omega
            | cons r rest =>
              have hnoret : Worker.returned ∉ s.workers := by
                intro hr
                have := (hinv.returned_drained hr).2
                rw [hjobs] at this
                exact absurd this (by simp)
              have hw := head_waiting s.workers (by rw [hinv.workers_len]; exact hn) hwork hnoret
              exact ⟨Action.take 0, _, by simp only [step, hw, hjobs]; rfl⟩
          · obtain ⟨w, r, hw⟩ := exists_working s.workers hwork
            cases hjob : workerJob fetch r with
            | failure err =>
              have hcap : s.errors.length < repositories.length := by rw [herrs]; exact hn
              exact ⟨Action.finish w, _, by simp only [step, hw, hjob, if_pos hcap]; rfl⟩
            | result res =>
              have hcap : s.results.length < repositories.length := by rw [hres]; exact hn
              exact ⟨Action.finish w, _, by simp only [step, hw, hjob, if_pos hcap]; rfl⟩

end usecase
end gama

namespace gama
namespace usecase

/-! ## ListRepositories: termination -/

theorem stepsLeft_step (fetch : Fetch) (cap : Nat) (s s' : State) (a : Action)
    (h : step fetch cap s a = some s') : stepsLeft s' + 1 ≤ stepsLeft s := by
  cases a with
  | send =>
    simp only [step] at h
    split at h
    · rename_i repository rest hsend
      split at h
      · simp only [Option.some.injEq] at h
        subst h
        simp only [stepsLeft, hsend, List.length_cons, List.length_append, List.length_nil]
        omega
      · simp at h
    · simp at h
  | close =>
    simp only [step] at h
    split at h
    · rename_i hc
      simp only [Option.some.injEq] at h
      subst h
      simp [stepsLeft, hc.2]
      omega
    · simp at h
  | take w =>
    simp only [step] at h
    split at h
    · rename_i repository rest hw hjobs
      simp only [Option.some.injEq] at h
      subst h
      obtain ⟨pre, post, h1, h2⟩ := workers_split s.workers w _ hw (Worker.working repository)
      simp only [stepsLeft]
      rw [h2, h1]
      simp only [hjobs, workingJobs, activeWorkers, List.filterMap_append, List.filterMap_cons,
        List.filter_append, List.filter_cons, List.length_append, List.length_cons]
      simp
      omega
    · simp at h
  | finish w =>
    simp only [step] at h
    split at h
    · rename_i repository hw
      obtain ⟨pre, post, h1, h2⟩ := workers_split s.workers w _ hw Worker.waiting
      split at h
      · split at h
        · simp only [Option.some.injEq] at h
          subst h
          simp only [stepsLeft]
          rw [h2, h1]
          simp only [workingJobs, activeWorkers, List.filterMap_append, List.filterMap_cons,
            List.filter_append, List.filter_cons, List.length_append, List.length_cons]
          simp
          omega
        · simp at h
      · split at h
        · simp only [Option.some.injEq] at h
          subst h
          simp only [stepsLeft]
          rw [h2, h1]
          simp only [workingJobs, activeWorkers, List.filterMap_append, List.filterMap_cons,
            List.filter_append, List.filter_cons, List.length_append, List.length_cons]
          simp
          omega
        · simp at h
    · simp at h
  | leave w =>
    simp only [step] at h
    split at h
    · rename_i hw
      split at h
      · simp only [Option.some.injEq] at h
        subst h
        obtain ⟨pre, post, h1, h2⟩ := workers_split s.workers w _ hw Worker.returned
        simp only [stepsLeft]
        rw [h2, h1]
        simp only [workingJobs, activeWorkers, List.filterMap_append, List.filterMap_cons,
          List.filter_append, List.filter_cons, List.length_append, List.length_cons]
        simp
        omega
      · simp at h
    · simp at h
  | recvResult =>
    simp only [step] at h
    split at h
    · split at h
      · rename_i res rest hresults
        simp only [Option.some.injEq] at h
        subst h
        simp only [stepsLeft, hresults, List.length_cons]
        omega
      · simp at h
    · simp at h
  | recvError =>
    simp only [step] at h
    split at h
    · split at h
      · rename_i err rest herrors
        simp only [Option.some.injEq] at h
        subst h
        simp only [stepsLeft, herrors, List.length_cons]
        omega
      · simp at h
    · simp at h

theorem stepsLeft_exec (fetch : Fetch) (cap : Nat) (schedule : List Action) (s s' : State)
    (h : exec fetch cap s schedule = some s') : schedule.length + stepsLeft s' ≤ stepsLeft s := by
  induction schedule generalizing s with
  | nil =>
    simp only [exec, Option.some.injEq] at h
    subst h
    simp
  | cons a schedule ih =>
    simp only [exec] at h
    split at h
    · rename_i s1 h1
      have := ih s1 h
      have := stepsLeft_step fetch cap s s1 a h1
      simp only [List.length_cons]
      omega
    · simp at h

theorem stepsLeft_start (repositories : List gr.GithubRepository) :
    stepsLeft (start repositories) = 6 * repositories.length + 1 := by
  have h1 : workingJobs (List.replicate repositories.length Worker.waiting) = [] := by
    simp [workingJobs, List.filterMap_eq_nil_iff, List.mem_replicate]
  have h2 : activeWorkers (List.replicate repositories.length Worker.waiting)
      = repositories.length := by
    unfold activeWorkers
    rw [List.filter_eq_self.2]
    · simp
    · intro a ha
      rw [List.eq_of_mem_replicate ha]
      decide
  simp only [stepsLeft, start, h1, h2]
  simp
  omega

theorem exec_append (fetch : Fetch) (cap : Nat) (l1 l2 : List Action) (s : State) :
    exec fetch cap s (l1 ++ l2)
      = match exec fetch cap s l1 with
        | some s1 => exec fetch cap s1 l2
        | none => none := by
  induction l1 generalizing s with
  | nil => rfl
  | cons a l1 ih =>
    simp only [List.cons_append, exec]
    cases step fetch cap s a with
    | none => rfl
    | some s1 => exact ih s1

/-- From every state the invariant holds in, some schedule brings the main
goroutine to its return. -/
theorem completes (fetch : Fetch) (repositories : List gr.GithubRepository) (n : Nat) :
    ∀ s : State, stepsLeft s ≤ n → Inv fetch repositories s →
      ∃ rest s', exec fetch repositories.length s rest = some s' ∧ s'.done = true := by
  induction n with
  | zero =>
    intro s hn hinv
    cases hd : s.done with
    | true => exact ⟨[], s, rfl, hd⟩
    | false =>
      obtain ⟨a, s1, h1⟩ := progress fetch repositories s hinv hd
      have := stepsLeft_step fetch _ s s1 a h1
      omega
  | succ n ih =>
    intro s hn hinv
    cases hd : s.done with
    | true => exact ⟨[], s, rfl, hd⟩
    | false =>
      obtain ⟨a, s1, h1⟩ := progress fetch repositories s hinv hd
      have hlt := stepsLeft_step fetch _ s s1 a h1
      obtain ⟨rest, s', h', hdone⟩ := ih s1 (by omega) (inv_step fetch repositories s s1 a hinv h1)
      exact ⟨a :: rest, s', by simp only [exec, h1]; exact h', hdone⟩

end usecase
end gama

namespace gama
namespace usecase

/-! ## ListRepositories: every arrival order occurs -/

theorem exec_sends (fetch : Fetch) (cap : Nat) (l : List gr.GithubRepository) (s : State)
    (hs : s.toSend = l) (hcap : s.jobs.length + l.length ≤ cap) :
    exec fetch cap s (List.replicate l.length Action.send)
      = some { s with toSend := [], jobs := s.jobs ++ l } := by
  induction l generalizing s with
  | nil =>
    simp only [List.length_nil, List.replicate_zero, exec, List.append_nil]
    rw [← hs]
  | cons r l ih =>
    simp only [List.length_cons] at hcap
    have hlt : s.jobs.length < cap := by omega
    simp only [List.length_cons, List.replicate_succ, exec, step, hs, if_pos hlt]
    rw [ih _ rfl (by simp only [List.length_append, List.length_singleton]; omega)]
    simp

theorem get?_middle {α : Type} (A B : List α) (x : α) :
    (A ++ x :: B).get? A.length = some x := by
  induction A with
  | nil => rfl
  | cons a A ih => simpa using ih

theorem set_middle {α : Type} (A B : List α) (x y : α) :
    (A ++ x :: B).set A.length y = A ++ y :: B := by
  induction A with
  | nil => rfl
  | cons a A ih => simp [ih]

theorem exec_takes (fetch : Fetch) (cap : Nat) (l : List gr.GithubRepository)
    (A : List Worker) (s : State)
    (hw : s.workers = A ++ List.replicate l.length Worker.waiting) (hj : s.jobs = l) :
    exec fetch cap s ((List.range' A.length l.length).map Action.take)
      = some { s with jobs := [], workers := A ++ l.map Worker.working } := by
  induction l generalizing A s with
  | nil =>
    simp only [List.length_nil, List.range'_zero, List.map_nil, exec, List.append_nil]
    simp only [List.length_nil, List.replicate_zero, List.append_nil] at hw
    rw [← hw, ← hj]
  | cons r l ih =>
    have hget : s.workers.get? A.length = some Worker.waiting := by
      rw [hw, List.length_cons, List.replicate_succ]
      exact get?_middle _ _ _
    have hset : s.workers.set A.length (Worker.working r)
        = (A ++ [Worker.working r]) ++ List.replicate l.length Worker.waiting := by
      rw [hw, List.length_cons, List.replicate_succ, set_middle]
      simp
    simp only [List.length_cons, List.range'_succ, List.map_cons, exec, step, hget, hj]
    have := ih (A ++ [Worker.working r])
      { s with jobs := l, workers := s.workers.set A.length (Worker.working r) } hset rfl
    simp only [List.length_append, List.length_singleton] at this
    rw [this]
    simp

theorem exec_dispatchAll (fetch : Fetch) (repositories : List gr.GithubRepository) :
    exec fetch repositories.length (start repositories) (dispatchAll repositories.length)
      = some { start repositories with
          toSend := [], closed := true, jobs := [],
          workers := repositories.map Worker.working } := by
  unfold dispatchAll
  rw [exec_append, exec_append,
    exec_sends fetch _ repositories (start repositories) rfl (by simp [start])]
  simp only [exec, step, start, List.nil_append, and_self, if_true]
  have := exec_takes fetch repositories.length repositories []
    { start repositories with toSend := [], closed := true, jobs := repositories }
    (by simp [start]) rfl
  simp only [List.length_nil, List.nil_append, start] at this
  rw [this]

theorem workingJobs_working (l : List gr.GithubRepository) :
    workingJobs (l.map Worker.working) = l := by
  induction l with
  | nil => rfl
  | cons r l ih => simp [workingJobs] at ih ⊢; exact ih

theorem exists_working_of_mem (ws : List Worker) (r : gr.GithubRepository)
    (h : r ∈ workingJobs ws) : ∃ w, ws.get? w = some (Worker.working r) := by
  induction ws with
  | nil => simp [workingJobs] at h
  | cons x ws ih =>
    cases x with
    | working r' =>
      simp only [workingJobs, List.filterMap_cons, List.mem_cons] at h
      rcases h with h | h
      · subst h
        exact ⟨0, rfl⟩
      · obtain ⟨w, hw⟩ := ih h
        exact ⟨w + 1, hw⟩
    | waiting =>
      have : r ∈ workingJobs ws := by simpa [workingJobs] using h
      obtain ⟨w, hw⟩ := ih this
      exact ⟨w + 1, hw⟩
    | returned =>
      have : r ∈ workingJobs ws := by simpa [workingJobs] using h
      obtain ⟨w, hw⟩ := ih this
      exact ⟨w + 1, hw⟩

/-- With every job in the hands of a worker and the channels empty, the
outcomes can reach the collector in any order. -/
theorem exec_drain (fetch : Fetch) (cap : Nat) (arrival : List Outcome) :
    ∀ s : State, s.toSend = [] → s.closed = true → s.results = [] → s.errors = [] →
      s.remaining = arrival.length → arrival.length ≤ cap →
      arrival.Perm ((workingJobs s.workers).map (workerJob fetch)) →
      ∃ schedule s', exec fetch cap s schedule = some s' ∧ s'.done = true
        ∧ s'.received = s.received ++ arrival := by
  induction arrival with
  | nil =>
    intro s hsend hcl _ _ hrem _ _
    refine ⟨[], s, rfl, ?_, by simp⟩
    simp [State.done, hsend, hcl, hrem]
  | cons o arrival ih =>
    intro s hsend hcl hres herrs hrem hcap hperm
    have hmem : o ∈ (workingJobs s.workers).map (workerJob fetch) :=
      hperm.subset (List.mem_cons_self _ _)
    obtain ⟨r, hr, hjob⟩ := List.mem_map.1 hmem
    obtain ⟨w, hw⟩ := exists_working_of_mem s.workers r hr
    obtain ⟨pre, post, h1, h2⟩ := workers_split s.workers w _ hw Worker.waiting
    have hrest : arrival.Perm
        ((workingJobs (s.workers.set w Worker.waiting)).map (workerJob fetch)) := by
      rw [h2]
      rw [h1] at hperm
      simp only [workingJobs, List.filterMap_append, List.filterMap_cons, List.map_append,
        List.map_cons, hjob] at hperm ⊢
      exact (hperm.trans List.perm_middle).cons_inv
    simp only [List.length_cons] at hrem hcap
    have hpos : 0 < cap := by omega
    have hguard : s.toSend = [] ∧ s.closed = true ∧ 0 < s.remaining :=
      ⟨hsend, hcl, by omega⟩
    cases o with
    | result res =>
      obtain ⟨schedule, s', hex, hdone, hrec⟩ := ih
        { s with workers := s.workers.set w Worker.waiting, results := [],
                 remaining := s.remaining - 1, result := s.result ++ [res],
                 received := s.received ++ [Outcome.result res] }
        hsend hcl rfl herrs (by simp only [hrem]; omega) (by omega) hrest
      refine ⟨Action.finish w :: Action.recvResult :: schedule, s', ?_, hdone, ?_⟩
      · have h1 : step fetch cap s (Action.finish w)
            = some { s with results := [res], workers := s.workers.set w Worker.waiting } := by
          simp only [step, hw, hjob]
          simp [hres, hpos]
        have h2 : step fetch cap
              { s with results := [res], workers := s.workers.set w Worker.waiting }
              Action.recvResult
            = some { s with workers := s.workers.set w Worker.waiting, results := [],
                            remaining := s.remaining - 1, result := s.result ++ [res],
                            received := s.received ++ [Outcome.result res] } := by
          simp [step, hguard]
        simp only [exec, h1, h2]
        exact hex
      · rw [hrec]
        simp
    | failure err =>
      obtain ⟨schedule, s', hex, hdone, hrec⟩ := ih
        { s with workers := s.workers.set w Worker.waiting, errors := [],
                 remaining := s.remaining - 1, resultErr := some err,
                 received := s.received ++ [Outcome.failure err] }
        hsend hcl hres rfl (by simp only [hrem]; omega) (by omega) hrest
      refine ⟨Action.finish w :: Action.recvError :: schedule, s', ?_, hdone, ?_⟩
      · have h1 : step fetch cap s (Action.finish w)
            = some { s with errors := [err], workers := s.workers.set w Worker.waiting } := by
          simp only [step, hw, hjob]
          simp [herrs, hpos]
        have h2 : step fetch cap
              { s with errors := [err], workers := s.workers.set w Worker.waiting }
              Action.recvError
            = some { s with workers := s.workers.set w Worker.waiting, errors := [],
                            remaining := s.remaining - 1, resultErr := some err,
                            received := s.received ++ [Outcome.failure err] } := by
          simp [step, hguard]
        simp only [exec, h1, h2]
        exact hex
      · rw [hrec]
        simp

theorem every_arrival_order (fetch : Fetch) (repositories : List gr.GithubRepository)
    (arrival : List Outcome) (hperm : arrival.Perm (repositories.map (workerJob fetch))) :
    ∃ schedule s, exec fetch repositories.length (start repositories) schedule = some s
      ∧ s.done = true ∧ s.received = arrival := by
  have hlen : arrival.length = repositories.length := by
    simpa using hperm.length_eq
  obtain ⟨schedule, s', hex, hdone, hrec⟩ := exec_drain fetch repositories.length arrival
    { start repositories with
        toSend := [], closed := true, jobs := [],
        workers := repositories.map Worker.working }
    rfl rfl rfl rfl (by simp [start, hlen]) (by omega)
    (by simpa [workingJobs_working] using hperm)
  refine ⟨dispatchAll repositories.length ++ schedule, s', ?_, hdone, ?_⟩
  · rw [exec_append, exec_dispatchAll]
    exact hex
  · simpa [start] using hrec

end usecase
end gama

namespace gama
namespace usecase

/-! ## ListRepositories: the claims -/

/-- C2: for every list of repositories, every fetch and every schedule of the
goroutines, whenever ListRepositories returns it returns a permutation of the
enriched records of exactly the repositories whose fetch succeeded, and its
error is non-nil if and only if at least one fetch failed; it does return
(every run is at most 6n+1 steps long and can be continued to the return); and
every order of the outcomes is the order of arrival at the collector in some
run. -/
theorem listRepositories_partial_failure (fetch : Fetch)
    (repositories : List gr.GithubRepository) :
    (∀ schedule out err,
        ListRepositories (.ok repositories) fetch schedule = some (out, err) →
        ∃ result, out = some { Repositories := result }
          ∧ result.Perm (successes fetch repositories)
          ∧ (err ≠ none ↔ ∃ r ∈ repositories, ∃ e, fetch r.FullName = .error e))
    ∧ (∀ schedule s,
        exec fetch repositories.length (start repositories) schedule = some s →
        schedule.length ≤ 6 * repositories.length + 1
          ∧ ∃ rest, (ListRepositories (.ok repositories) fetch (schedule ++ rest)).isSome)
    ∧ (∀ arrival : List Outcome, arrival.Perm (repositories.map (workerJob fetch)) →
        ∃ schedule s,
          exec fetch repositories.length (start repositories) schedule = some s
            ∧ s.done = true ∧ s.received = arrival) := by
  refine ⟨?_, ?_, every_arrival_order fetch repositories⟩
  · intro schedule out err h
    simp only [ListRepositories] at h
    split at h
    · rename_i s hs
      split at h
      · rename_i hdone
        simp only [Option.some.injEq, Prod.mk.injEq] at h
        obtain ⟨rfl, rfl⟩ := h
        have hinv := inv_exec fetch repositories schedule _ s (inv_start fetch repositories) hs
        obtain ⟨h1, h2⟩ := done_spec fetch repositories s hinv hdone
        exact ⟨s.result, rfl, h1, h2⟩
      · simp at h
    · simp at h
  · intro schedule s hs
    have hinv := inv_exec fetch repositories schedule _ s (inv_start fetch repositories) hs
    constructor
    · have := stepsLeft_exec fetch _ schedule _ s hs
      rw [stepsLeft_start] at this
      omega
    · obtain ⟨rest, s', h', hdone⟩ := completes fetch repositories (stepsLeft s) s (le_refl _) hinv
      refine ⟨rest, ?_⟩
      simp only [ListRepositories, exec_append, hs, h', hdone, if_true, Option.isSome_some]

theorem listRepositories_partial_failure_witness :
    ListRepositories (.ok sampleRepositories) sampleFetch scheduleR4First
      = some (some { Repositories := [sampleEnriched "org/r5", sampleEnriched "org/r1",
                                       sampleEnriched "org/r3"] }, some "r2: not found")
    ∧ ∃ result,
        some ({ Repositories := [sampleEnriched "org/r5", sampleEnriched "org/r1",
                                  sampleEnriched "org/r3"] } : ListRepositoriesOutput)
          = some { Repositories := result }
        ∧ result.Perm (successes sampleFetch sampleRepositories)
        ∧ ((some "r2: not found" : GoError) ≠ none
            ↔ ∃ r ∈ sampleRepositories, ∃ e, sampleFetch r.FullName = .error e) :=
  ⟨by decide,
   (listRepositories_partial_failure sampleFetch sampleRepositories).1 scheduleR4First
      (some { Repositories := [sampleEnriched "org/r5", sampleEnriched "org/r1",
                               sampleEnriched "org/r3"] })
      (some "r2: not found") (by decide)⟩

/-- C3: in every run of ListRepositories that reaches the return, the error
returned is exactly the failure the collector received last among the
failures it received, and the collector received every outcome exactly once;
and for every order in which the successes and failures can arrive there is a
run in which they arrive so, which returns the last failure of that order. -/
theorem listRepositories_last_error_wins (fetch : Fetch)
    (repositories : List gr.GithubRepository) :
    (∀ schedule s,
        exec fetch repositories.length (start repositories) schedule = some s →
        s.done = true →
        ListRepositories (.ok repositories) fetch schedule
            = some (some { Repositories := s.result }, lastFailure s.received)
          ∧ s.received.Perm (repositories.map (workerJob fetch)))
    ∧ (∀ arrival : List Outcome, arrival.Perm (repositories.map (workerJob fetch)) →
        ∃ schedule s,
          exec fetch repositories.length (start repositories) schedule = some s
            ∧ s.received = arrival
            ∧ ListRepositories (.ok repositories) fetch schedule
                = some (some { Repositories := arrival.filterMap Outcome.result? },
                    lastFailure arrival)) := by
  have key : ∀ schedule s,
      exec fetch repositories.length (start repositories) schedule = some s →
      s.done = true →
      ListRepositories (.ok repositories) fetch schedule
          = some (some { Repositories := s.result }, lastFailure s.received)
        ∧ s.received.Perm (repositories.map (workerJob fetch)) := by
    intro schedule s hrun hdone
    have hinv := inv_exec fetch repositories schedule _ s (inv_start fetch repositories) hrun
    refine ⟨?_, pending_nil_of_done fetch repositories s hinv hdone⟩
    simp only [ListRepositories, hrun, hdone, if_true, hinv.err_eq]
  refine ⟨key, fun arrival hperm => ?_⟩
  obtain ⟨schedule, s, hrun, hdone, hrec⟩ := every_arrival_order fetch repositories arrival hperm
  have hinv := inv_exec fetch repositories schedule _ s (inv_start fetch repositories) hrun
  refine ⟨schedule, s, hrun, hrec, ?_⟩
  rw [(key schedule s hrun hdone).1, hinv.result_eq, hrec]

theorem listRepositories_last_error_wins_witness :
    (ListRepositories (.ok sampleRepositories) sampleFetch scheduleR2First
        = some (some { Repositories := (sampleFinal scheduleR2First).result },
            lastFailure (sampleFinal scheduleR2First).received)
      ∧ (sampleFinal scheduleR2First).received.Perm
          (sampleRepositories.map (workerJob sampleFetch)))
    ∧ (sampleFinal scheduleR2First).received.filterMap Outcome.failure?
        = ["r2: not found", "r4: timeout"]
    ∧ lastFailure (sampleFinal scheduleR2First).received = some "r4: timeout"
    ∧ (sampleFinal scheduleR4First).received.filterMap Outcome.failure?
        = ["r4: timeout", "r2: not found"]
    ∧ lastFailure (sampleFinal scheduleR4First).received = some "r2: not found" :=
  ⟨(listRepositories_last_error_wins sampleFetch sampleRepositories).1 scheduleR2First
      (sampleFinal scheduleR2First) (by decide) (by decide),
   by decide, by decide, by decide, by decide⟩

end usecase
end gama

namespace gama

theorem mem_mapSet {V : Type} (m : GoMap V) (k : String) (v : V) (x : String × V)
    (h : x ∈ mapSet m k v) : x = (k, v) ∨ x ∈ m := by
  induction m with
  | nil => simpa [mapSet] using h
  | cons kv m ih =>
    obtain ⟨k0, v0⟩ := kv
    by_cases hk : k0 = k
    · simp only [mapSet, if_pos hk, List.mem_cons] at h
      rcases h with h | h
      · exact Or.inl h
      · exact Or.inr (List.mem_cons_of_mem _ h)
    · simp only [mapSet, if_neg hk, List.mem_cons] at h
      rcases h with h | h
      · exact Or.inr (h ▸ List.mem_cons_self _ _)
      · rcases ih h with h' | h'
        · exact Or.inl h'
        · exact Or.inr (List.mem_cons_of_mem _ h')

theorem mapGet_eq_some_of_mem {V : Type} (m : GoMap V) (h : NodupKeys m) (k : String)
    (v : V) (hmem : (k, v) ∈ m) : mapGet m k = some v := by
  unfold NodupKeys at h
  induction m with
  | nil => simp at hmem
  | cons kv m ih =>
    obtain ⟨k0, v0⟩ := kv
    simp only [List.map_cons, List.nodup_cons] at h
    rcases List.mem_cons.1 hmem with heq | hin
    · simp only [Prod.mk.injEq] at heq
      simp [mapGet, heq.1, heq.2]
    · have hne : k0 ≠ k := by
        intro hk
        apply h.1
        rw [hk]
        exact List.mem_map.2 ⟨(k, v), hin, rfl⟩
      simp only [mapGet, if_neg hne]
      exact ih h.2 hin

theorem mem_of_mapGet_eq_some {V : Type} (m : GoMap V) (k : String) (v : V)
    (h : mapGet m k = some v) : (k, v) ∈ m := by
  induction m with
  | nil => simp [mapGet] at h
  | cons kv m ih =>
    obtain ⟨k0, v0⟩ := kv
    by_cases hk : k0 = k
    · simp only [mapGet, if_pos hk, Option.some.injEq] at h
      rw [hk, h]
      exact List.mem_cons_self _ _
    · simp only [mapGet, if_neg hk] at h
      exact List.mem_cons_of_mem _ (ih h)

namespace workflow

/-! ## ParseWorkflow: what one iteration does to the model -/

theorem parseInput_effect (w w' : Workflow) (kv : String × py.WorkflowInput)
    (h : parseInput w kv = .ok w') :
    (recognised kv.2 ∧ ∃ c, OneVariant c ∧ w'.Content = mapSet w.Content kv.1 c)
      ∨ (¬ recognised kv.2 ∧ w' = w) := by
  obtain ⟨key, value⟩ := kv
  by_cases hjson : value.JSONContent = []
  · by_cases hc : value.Type_ = "choice"
    · left
      refine ⟨Or.inr (Or.inl hc), ?_⟩
      cases hd : value.Default <;> cases ho : value.Options <;>
        simp [parseInput, parseChoice, parseString, parseBoolean, hjson, hc, hd, ho, bind,
          Except.bind, pure, Except.pure, throw, throwThe, MonadExceptOf.throw] at h <;>
        (subst h; exact ⟨_, by simp [OneVariant], rfl⟩)
    · by_cases hs : value.Type_ = "string" ∨ value.Type_ = "number" ∨ value.Type_ = ""
      · left
        have hb : value.Type_ ≠ "boolean" := by
          rcases hs with hs | hs | hs <;> rw [hs] <;> decide
        refine ⟨by unfold recognised; tauto, ?_⟩
        simp only [parseInput, parseChoice, parseString, parseBoolean, hjson, hc, hb,
          List.length_nil, gt_iff_lt, Nat.lt_irrefl, if_false, if_pos hs, bind, Except.bind,
          pure, Except.pure, Except.ok.injEq] at h
        subst h
        exact ⟨_, by simp [OneVariant], rfl⟩
      · by_cases hb : value.Type_ = "boolean"
        · left
          refine ⟨by unfold recognised; tauto, ?_⟩
          simp only [parseInput, parseChoice, parseString, parseBoolean, hjson, hc, hs,
            List.length_nil, gt_iff_lt, Nat.lt_irrefl, if_false, if_pos hb, bind, Except.bind,
            pure, Except.pure, Except.ok.injEq] at h
          subst h
          exact ⟨_, by simp [OneVariant], rfl⟩
        · right
          refine ⟨by unfold recognised; tauto, ?_⟩
          simp only [parseInput, parseChoice, parseString, parseBoolean, hjson, hc, hs, hb,
            List.length_nil, gt_iff_lt, Nat.lt_irrefl, if_false, bind, Except.bind,
            pure, Except.pure, Except.ok.injEq] at h
          exact h.symm
  · left
    refine ⟨Or.inl hjson, ?_⟩
    rw [parseInput_group w key value hjson] at h
    have h' := Except.ok.inj h
    subst h'
    refine ⟨_, ?_, rfl⟩
    simp only [OneVariant]
    exact ⟨by simpa using hjson, trivial, trivial, trivial⟩

theorem parseInput_model (w w' : Workflow) (kv : String × py.WorkflowInput)
    (h : parseInput w kv = .ok w') (hnd : NodupKeys w.Content)
    (hwf : ∀ kc ∈ w.Content, OneVariant kc.2) :
    NodupKeys w'.Content ∧ (∀ kc ∈ w'.Content, OneVariant kc.2)
      ∧ ∀ k, k ∈ w'.Content.map Prod.fst
          ↔ k ∈ w.Content.map Prod.fst ∨ (k = kv.1 ∧ recognised kv.2) := by
  rcases parseInput_effect w w' kv h with ⟨hrec, c, hc, hw'⟩ | ⟨hrec, hw'⟩
  · rw [hw']
    refine ⟨nodupKeys_mapSet _ _ _ hnd, fun kc hkc => ?_, fun k => ?_⟩
    · rcases mem_mapSet _ _ _ _ hkc with h1 | h1
      · rw [h1]
        exact hc
      · exact hwf kc h1
    · rw [mem_keys_mapSet]
      constructor
      · rintro (h1 | h1)
        · exact Or.inr ⟨h1, hrec⟩
        · exact Or.inl h1
      · rintro (h1 | ⟨h1, _⟩)
        · exact Or.inr h1
        · exact Or.inl h1
  · rw [hw']
    refine ⟨hnd, hwf, fun k => ?_⟩
    constructor
    · exact Or.inl
    · rintro (h1 | ⟨_, h1⟩)
      · exact h1
      · exact absurd h1 hrec

theorem foldlM_parseInput_model (l : GoMap py.WorkflowInput) (w w' : Workflow)
    (h : l.foldlM parseInput w = .ok w') (hnd : NodupKeys w.Content)
    (hwf : ∀ kc ∈ w.Content, OneVariant kc.2) :
    NodupKeys w'.Content ∧ (∀ kc ∈ w'.Content, OneVariant kc.2)
      ∧ ∀ k, k ∈ w'.Content.map Prod.fst
          ↔ k ∈ w.Content.map Prod.fst ∨ ∃ value, (k, value) ∈ l ∧ recognised value := by
  induction l generalizing w with
  | nil =>
    simp only [List.foldlM, pure, Except.pure, Except.ok.injEq] at h
    subst h
    exact ⟨hnd, hwf, fun k => by simp⟩
  | cons kv l ih =>
    simp only [List.foldlM, bind, Except.bind] at h
    split at h
    · simp at h
    · rename_i w1 h1
      obtain ⟨hnd1, hwf1, hk1⟩ := parseInput_model w w1 kv h1 hnd hwf
      obtain ⟨hnd', hwf', hk'⟩ := ih w1 h hnd1 hwf1
      refine ⟨hnd', hwf', fun k => ?_⟩
      rw [hk', hk1]
      constructor
      · rintro ((h2 | ⟨h2, h3⟩) | ⟨value, h2, h3⟩)
        · exact Or.inl h2
        · exact Or.inr ⟨kv.2, by rw [h2]; exact List.mem_cons_self _ _, h3⟩
        · exact Or.inr ⟨value, List.mem_cons_of_mem _ h2, h3⟩
      · rintro (h2 | ⟨value, h2, h3⟩)
        · exact Or.inl (Or.inl h2)
        · rcases List.mem_cons.1 h2 with h4 | h4
          · refine Or.inl (Or.inr ⟨?_, ?_⟩)
            · rw [← h4]
            · rw [← h4]
              exact h3
          · exact Or.inr ⟨value, h4, h3⟩

/-- The model ParseWorkflow returns: a nil error, distinct field names, one
variant per field, and exactly the names of the recognised raw fields. -/
theorem ParseWorkflow_model (content : py.WorkflowContent) (w : Workflow) (err : GoError)
    (h : ParseWorkflow content = .ok (w, err)) :
    err = none ∧ NodupKeys w.Content ∧ (∀ kc ∈ w.Content, OneVariant kc.2)
      ∧ ∀ k, k ∈ w.Content.map Prod.fst
          ↔ ∃ value, (k, value) ∈ content.Inputs ∧ recognised value := by
  unfold ParseWorkflow at h
  simp only [bind, Except.bind] at h
  split at h
  · simp at h
  · rename_i w' hw'
    simp only [pure, Except.pure, Except.ok.injEq, Prod.mk.injEq] at h
    obtain ⟨rfl, rfl⟩ := h
    obtain ⟨h1, h2, h3⟩ := foldlM_parseInput_model _ _ _ hw' (by simp [NodupKeys])
      (by simp)
    exact ⟨rfl, h1, h2, fun k => by simpa using h3 k⟩

theorem parseInput_unrecognised (w : Workflow) (key : String) (value : py.WorkflowInput)
    (h : ¬ recognised value) : parseInput w (key, value) = .ok w := by
  unfold recognised at h
  simp only [not_or, ne_eq, not_not] at h
  obtain ⟨hjson, hc, hs, hn, he, hb⟩ := h
  simp [parseInput, parseChoice, parseString, parseBoolean, hjson, hc, hs, hn, he, hb, bind,
    Except.bind, pure, Except.pure]

theorem parseInput_boolean (w : Workflow) (key : String) (value : py.WorkflowInput)
    (hjson : value.JSONContent = []) (htype : value.Type_ = "boolean") :
    parseInput w (key, value) = .ok
      { Content := mapSet w.Content key
          { Description := value.Description, Type_ := "boolean", Required := value.Required,
            KeyValue := none, Choice := none, Value := none,
            Boolean := some { Default := GoAny.str (declaredBoolean value.Default),
                              Value := GoAny.str "" } } } := by
  have hd : (match value.Default with
      | GoAny.bool b => FormatBool b
      | _ => "false") = declaredBoolean value.Default := by
    cases value.Default with
    | bool b => cases b <;> rfl
    | nil => rfl
    | str s => rfl
    | int i => rfl
    | float m e => rfl
  simp [parseInput, parseChoice, parseString, parseBoolean, hjson, htype, hd, bind,
    Except.bind, pure, Except.pure]

end workflow
end gama

namespace gama
namespace workflow

/-! ## ToPretty: where the rows come from -/

theorem keyValRows_origin (parent : String) (entries : List KeyValue) (first : Nat)
    (r : PrettyKeyValue) (h : r ∈ keyValRows parent entries first) :
    r.Parent = some parent ∧ r.Value = ""
      ∧ ∃ e ∈ entries, r.Key = e.Key ∧ r.Default = e.Default := by
  induction entries generalizing first with
  | nil => simp [keyValRows] at h
  | cons v rest ih =>
    simp only [keyValRows, List.mem_cons] at h
    rcases h with h | h
    · subst h
      exact ⟨rfl, rfl, v, List.mem_cons_self _ _, rfl, rfl⟩
    · obtain ⟨h1, h2, e, he, h3⟩ := ih (first + 1) h
      exact ⟨h1, h2, e, List.mem_cons_of_mem _ he, h3⟩

theorem keyValRows_present (parent : String) (entries : List KeyValue) (first : Nat)
    (e : KeyValue) (he : e ∈ entries) :
    ∃ r ∈ keyValRows parent entries first,
      r.Parent = some parent ∧ r.Key = e.Key ∧ r.Value = "" ∧ r.Default = e.Default := by
  induction entries generalizing first with
  | nil => simp at he
  | cons v rest ih =>
    rcases List.mem_cons.1 he with h | h
    · subst h
      exact ⟨_, List.mem_cons_self _ _, rfl, rfl, rfl, rfl⟩
    · obtain ⟨r, hr, h1⟩ := ih (first + 1) h
      exact ⟨r, List.mem_cons_of_mem _ hr, h1⟩

theorem foldl_prettyField_origin (l : GoMap Content) (st : Pretty × Nat) :
    (∀ r ∈ (l.foldl prettyField st).1.KeyVals,
      r ∈ st.1.KeyVals ∨ ∃ kv ∈ l, ∃ first, r ∈ emittedKeyVals kv first) ∧
    (∀ r ∈ (l.foldl prettyField st).1.Choices,
      r ∈ st.1.Choices ∨ ∃ kv ∈ l, ∃ first, r ∈ emittedChoices kv first) ∧
    (∀ r ∈ (l.foldl prettyField st).1.Inputs,
      r ∈ st.1.Inputs ∨ ∃ kv ∈ l, ∃ first, r ∈ emittedInputs kv first) ∧
    (∀ r ∈ (l.foldl prettyField st).1.Boolean,
      r ∈ st.1.Boolean ∨ ∃ kv ∈ l, ∃ first, r ∈ emittedBoolean kv first) := by
  induction l generalizing st with
  | nil => simp
  | cons kv l ih =>
    rw [List.foldl_cons]
    obtain ⟨h1, h2, h3, h4⟩ := ih (prettyField st kv)
    rw [prettyField_eq] at h1 h2 h3 h4
    refine ⟨fun r hr => ?_, fun r hr => ?_, fun r hr => ?_, fun r hr => ?_⟩
    · rcases h1 r (by rw [prettyField_eq] at hr; exact hr) with h | ⟨x, hx, f, hf⟩
      · rcases List.mem_append.1 h with h | h
        · exact Or.inl h
        · exact Or.inr ⟨kv, List.mem_cons_self _ _, _, h⟩
      · exact Or.inr ⟨x, List.mem_cons_of_mem _ hx, f, hf⟩
    · rcases h2 r (by rw [prettyField_eq] at hr; exact hr) with h | ⟨x, hx, f, hf⟩
      · rcases List.mem_append.1 h with h | h
        · exact Or.inl h
        · exact Or.inr ⟨kv, List.mem_cons_self _ _, _, h⟩
      · exact Or.inr ⟨x, List.mem_cons_of_mem _ hx, f, hf⟩
    · rcases h3 r (by rw [prettyField_eq] at hr; exact hr) with h | ⟨x, hx, f, hf⟩
      · rcases List.mem_append.1 h with h | h
        · exact Or.inl h
        · exact Or.inr ⟨kv, List.mem_cons_self _ _, _, h⟩
      · exact Or.inr ⟨x, List.mem_cons_of_mem _ hx, f, hf⟩
    · rcases h4 r (by rw [prettyField_eq] at hr; exact hr) with h | ⟨x, hx, f, hf⟩
      · rcases List.mem_append.1 h with h | h
        · exact Or.inl h
        · exact Or.inr ⟨kv, List.mem_cons_self _ _, _, h⟩
      · exact Or.inr ⟨x, List.mem_cons_of_mem _ hx, f, hf⟩

/-- Every row of the projection is a row of some field of the model. -/
theorem ToPretty_origin (w : Workflow) :
    (∀ r ∈ (ToPretty w).KeyVals, ∃ kv ∈ w.Content, ∃ first, r ∈ emittedKeyVals kv first) ∧
    (∀ r ∈ (ToPretty w).Choices, ∃ kv ∈ w.Content, ∃ first, r ∈ emittedChoices kv first) ∧
    (∀ r ∈ (ToPretty w).Inputs, ∃ kv ∈ w.Content, ∃ first, r ∈ emittedInputs kv first) ∧
    (∀ r ∈ (ToPretty w).Boolean, ∃ kv ∈ w.Content, ∃ first, r ∈ emittedBoolean kv first) := by
  obtain ⟨h1, h2, h3, h4⟩ := foldl_prettyField_origin w.Content
    ({ Choices := [], Inputs := [], Boolean := [], KeyVals := [] }, 0)
  refine ⟨fun r hr => ?_, fun r hr => ?_, fun r hr => ?_, fun r hr => ?_⟩
  · rcases h1 r hr with h | h
    · simp at h
    · exact h
  · rcases h2 r hr with h | h
    · simp at h
    · exact h
  · rcases h3 r hr with h | h
    · simp at h
    · exact h
  · rcases h4 r hr with h | h
    · simp at h
    · exact h

/-- Every field of the model has its rows in the projection. -/
theorem ToPretty_present (w : Workflow) (kv : String × Content) (hkv : kv ∈ w.Content) :
    ∃ first,
      (∀ r ∈ emittedKeyVals kv first, r ∈ (ToPretty w).KeyVals) ∧
      (∀ r ∈ emittedChoices kv first, r ∈ (ToPretty w).Choices) ∧
      (∀ r ∈ emittedInputs kv first, r ∈ (ToPretty w).Inputs) ∧
      (∀ r ∈ emittedBoolean kv first, r ∈ (ToPretty w).Boolean) := by
  obtain ⟨pre, post, hsplit⟩ := List.append_of_mem hkv
  obtain ⟨⟨e1, h1⟩, ⟨e2, h2⟩, ⟨e3, h3⟩, ⟨e4, h4⟩⟩ := foldl_prettyField_split pre post kv
    ({ Choices := [], Inputs := [], Boolean := [], KeyVals := [] }, 0)
  rw [← hsplit] at h1 h2 h3 h4
  refine ⟨(pre.foldl prettyField
    ({ Choices := [], Inputs := [], Boolean := [], KeyVals := [] }, 0)).2,
    fun r hr => ?_, fun r hr => ?_, fun r hr => ?_, fun r hr => ?_⟩
  · rw [ToPretty, prettyRun, h1]
    exact List.mem_append_left _ (List.mem_append_right _ hr)
  · rw [ToPretty, prettyRun, h2]
    exact List.mem_append_left _ (List.mem_append_right _ hr)
  · rw [ToPretty, prettyRun, h3]
    exact List.mem_append_left _ (List.mem_append_right _ hr)
  · rw [ToPretty, prettyRun, h4]
    exact List.mem_append_left _ (List.mem_append_right _ hr)

end workflow
end gama

namespace gama

theorem mapGet_eq_none_of_not_mem {V : Type} (m : GoMap V) (k : String)
    (h : k ∉ m.map Prod.fst) : mapGet m k = none := by
  induction m with
  | nil => rfl
  | cons kv m ih =>
    obtain ⟨k0, v0⟩ := kv
    simp only [List.map_cons, List.mem_cons, not_or] at h
    simp only [mapGet, if_neg (Ne.symm h.1)]
    exact ih h.2

theorem value_unique {V : Type} (m : GoMap V) (h : NodupKeys m) (k : String) (v v' : V)
    (hv : (k, v) ∈ m) (hv' : (k, v') ∈ m) : v = v' := by
  have h1 := mapGet_eq_some_of_mem m h k v hv
  have h2 := mapGet_eq_some_of_mem m h k v' hv'
  rw [h1] at h2
  exact Option.some.inj h2

namespace workflow

theorem emittedKeyVals_origin (kv : String × Content) (first : Nat) (r : PrettyKeyValue)
    (h : r ∈ emittedKeyVals kv first) :
    ∃ entries, kv.2.KeyValue = some entries ∧ r.Parent = some kv.1 ∧ r.Value = ""
      ∧ ∃ e ∈ entries, r.Key = e.Key ∧ r.Default = e.Default := by
  unfold emittedKeyVals at h
  cases hk : kv.2.KeyValue with
  | none => simp [hk] at h
  | some entries =>
    simp only [hk] at h
    exact ⟨entries, rfl, keyValRows_origin _ _ _ _ h⟩

theorem emittedChoices_origin (kv : String × Content) (first : Nat) (r : PrettyChoice)
    (h : r ∈ emittedChoices kv first) :
    ∃ c, kv.2.Choice = some c ∧ r.Key = kv.1 ∧ r.Value = "" ∧ r.Default = c.Default
      ∧ r.Values = c.Options := by
  unfold emittedChoices at h
  cases hk : kv.2.Choice with
  | none => simp [hk] at h
  | some c =>
    simp only [hk, List.mem_singleton] at h
    subst h
    exact ⟨c, rfl, rfl, rfl, rfl, rfl⟩

theorem emittedInputs_origin (kv : String × Content) (first : Nat) (r : PrettyInput)
    (h : r ∈ emittedInputs kv first) :
    ∃ v, kv.2.Value = some v ∧ r.Key = kv.1 ∧ r.Value = ""
      ∧ r.Default = defaultString v.Default := by
  unfold emittedInputs at h
  cases hk : kv.2.Value with
  | none => simp [hk] at h
  | some v =>
    simp only [hk, List.mem_singleton] at h
    subst h
    exact ⟨v, rfl, rfl, rfl, rfl⟩

theorem emittedBoolean_origin (kv : String × Content) (first : Nat) (r : PrettyInput)
    (h : r ∈ emittedBoolean kv first) :
    ∃ b, kv.2.Boolean = some b ∧ r.Key = kv.1 ∧ r.Value = ""
      ∧ r.Default = defaultString b.Default := by
  unfold emittedBoolean at h
  cases hk : kv.2.Boolean with
  | none => simp [hk] at h
  | some b =>
    simp only [hk, List.mem_singleton] at h
    subst h
    exact ⟨b, rfl, rfl, rfl, rfl⟩

/-- The rows of a projection name only fields of the model. -/
theorem ToPretty_names (w : Workflow) :
    (∀ r ∈ (ToPretty w).KeyVals, ∃ k ∈ w.Content.map Prod.fst, r.Parent = some k) ∧
    (∀ r ∈ (ToPretty w).Choices, r.Key ∈ w.Content.map Prod.fst) ∧
    (∀ r ∈ (ToPretty w).Inputs, r.Key ∈ w.Content.map Prod.fst) ∧
    (∀ r ∈ (ToPretty w).Boolean, r.Key ∈ w.Content.map Prod.fst) := by
  obtain ⟨h1, h2, h3, h4⟩ := ToPretty_origin w
  refine ⟨fun r hr => ?_, fun r hr => ?_, fun r hr => ?_, fun r hr => ?_⟩
  · obtain ⟨kv, hkv, first, hf⟩ := h1 r hr
    obtain ⟨_, _, hp, _⟩ := emittedKeyVals_origin kv first r hf
    exact ⟨kv.1, List.mem_map_of_mem _ hkv, hp⟩
  · obtain ⟨kv, hkv, first, hf⟩ := h2 r hr
    obtain ⟨_, _, hp, _⟩ := emittedChoices_origin kv first r hf
    rw [hp]
    exact List.mem_map_of_mem _ hkv
  · obtain ⟨kv, hkv, first, hf⟩ := h3 r hr
    obtain ⟨_, _, hp, _⟩ := emittedInputs_origin kv first r hf
    rw [hp]
    exact List.mem_map_of_mem _ hkv
  · obtain ⟨kv, hkv, first, hf⟩ := h4 r hr
    obtain ⟨_, _, hp, _⟩ := emittedBoolean_origin kv first r hf
    rw [hp]
    exact List.mem_map_of_mem _ hkv

end workflow
end gama

namespace gama
namespace workflow

/-! ## ParseWorkflow and ToPretty: kept and dropped fields -/

/-- C11: the key set of every model ParseWorkflow returns is exactly the set
of raw field names that have non-empty nested defaults or a declared type
among "", "string", "number", "boolean" and "choice", and the returned error
is nil; every other field causes no error (its loop iteration leaves the model
as it is), is absent from the model, and has no row in the projection under
any iteration order; ParseWorkflow returns whenever no loop iteration
panics. -/
theorem parseWorkflow_key_set (content : py.WorkflowContent)
    (hnd : NodupKeys content.Inputs) :
    (∀ w err, ParseWorkflow content = .ok (w, err) →
      err = none ∧
      ∀ k, k ∈ w.Content.map Prod.fst
        ↔ ∃ value, (k, value) ∈ content.Inputs ∧
            (value.JSONContent ≠ [] ∨ value.Type_ = "" ∨ value.Type_ = "string"
              ∨ value.Type_ = "number" ∨ value.Type_ = "boolean"
              ∨ value.Type_ = "choice"))
    ∧ (∀ key value, (key, value) ∈ content.Inputs →
        ¬ (value.JSONContent ≠ [] ∨ value.Type_ = "" ∨ value.Type_ = "string"
              ∨ value.Type_ = "number" ∨ value.Type_ = "boolean"
              ∨ value.Type_ = "choice") →
        (∀ w, parseInput w (key, value) = .ok w) ∧
        ∀ w err, ParseWorkflow content = .ok (w, err) →
          mapGet w.Content key = none ∧
          ∀ w' : Workflow, w'.Content.Perm w.Content →
            (∀ r ∈ (ToPretty w').KeyVals, r.Parent ≠ some key) ∧
            (∀ r ∈ (ToPretty w').Choices, r.Key ≠ key) ∧
            (∀ r ∈ (ToPretty w').Inputs, r.Key ≠ key) ∧
            (∀ r ∈ (ToPretty w').Boolean, r.Key ≠ key))
    ∧ ((∀ kv ∈ content.Inputs, ∀ w0, ∃ w1, parseInput w0 kv = .ok w1) →
        ∃ w, ParseWorkflow content = .ok (w, none)) := by
  have hrec : ∀ value : py.WorkflowInput,
      (value.JSONContent ≠ [] ∨ value.Type_ = "" ∨ value.Type_ = "string"
        ∨ value.Type_ = "number" ∨ value.Type_ = "boolean" ∨ value.Type_ = "choice")
      ↔ recognised value := by
    intro value
    unfold recognised
    tauto
  refine ⟨fun w err h => ?_, fun key value hmem hun => ?_, ParseWorkflow_returns content⟩
  · obtain ⟨herr, _, _, hkeys⟩ := ParseWorkflow_model content w err h
    refine ⟨herr, fun k => ?_⟩
    rw [hkeys]
    constructor
    · rintro ⟨value, h1, h2⟩
      exact ⟨value, h1, (hrec value).2 h2⟩
    · rintro ⟨value, h1, h2⟩
      exact ⟨value, h1, (hrec value).1 h2⟩
  · have hun' : ¬ recognised value := fun h => hun ((hrec value).2 h)
    refine ⟨fun w => parseInput_unrecognised w key value hun', fun w err h => ?_⟩
    obtain ⟨_, _, _, hkeys⟩ := ParseWorkflow_model content w err h
    have habsent : key ∉ w.Content.map Prod.fst := by
      intro hk
      obtain ⟨value', h1, h2⟩ := (hkeys key).1 hk
      have := value_unique content.Inputs hnd key value value' hmem h1
      exact hun' (this ▸ h2)
    refine ⟨mapGet_eq_none_of_not_mem _ _ habsent, fun w' hperm => ?_⟩
    have habsent' : key ∉ w'.Content.map Prod.fst := fun hk =>
      habsent ((hperm.map Prod.fst).subset hk)
    obtain ⟨h1, h2, h3, h4⟩ := ToPretty_names w'
    refine ⟨fun r hr hp => ?_, fun r hr hp => ?_, fun r hr hp => ?_, fun r hr hp => ?_⟩
    · obtain ⟨k, hk, hpk⟩ := h1 r hr
      rw [hp] at hpk
      exact habsent' ((Option.some.inj hpk) ▸ hk)
    · exact habsent' (hp ▸ h2 r hr)
    · exact habsent' (hp ▸ h3 r hr)
    · exact habsent' (hp ▸ h4 r hr)

theorem parseWorkflow_key_set_witness :
    ParseWorkflow sampleContentUnsupported = .ok (sampleModel, none)
    ∧ ((none : GoError) = none ∧
        ∀ k, k ∈ sampleModel.Content.map Prod.fst
          ↔ ∃ value, (k, value) ∈ sampleContentUnsupported.Inputs ∧
              (value.JSONContent ≠ [] ∨ value.Type_ = "" ∨ value.Type_ = "string"
                ∨ value.Type_ = "number" ∨ value.Type_ = "boolean"
                ∨ value.Type_ = "choice"))
    ∧ sampleModel.Content.map Prod.fst = ["matrix", "debug"]
    ∧ mapGet sampleModel.Content "legacy" = none :=
  ⟨by decide,
   (parseWorkflow_key_set sampleContentUnsupported (by decide)).1 sampleModel none (by decide),
   by decide,
   (((parseWorkflow_key_set sampleContentUnsupported (by decide)).2.1 "legacy"
      sampleUnsupportedInput (by decide) (by decide)).2 sampleModel none (by decide)).1⟩

/-- C12: for a boolean field without nested defaults, the loop iteration of
ParseWorkflow stores a boolean field whose Default is the string "true" or
"false" of the declared default when that is a boolean, and "false" when
there is no default or a default of another type; in every model ParseWorkflow
returns the field is that boolean field, and under every iteration order
ToPretty has a boolean row of that name, every such row carrying the same
default string and an empty value; ParseWorkflow returns whenever no loop
iteration panics. -/
theorem parseWorkflow_boolean_default (content : py.WorkflowContent)
    (hnd : NodupKeys content.Inputs) (key : String) (value : py.WorkflowInput)
    (hmem : (key, value) ∈ content.Inputs) (hjson : value.JSONContent = [])
    (htype : value.Type_ = "boolean") :
    (∀ w, parseInput w (key, value) = .ok
      { Content := mapSet w.Content key
          { Description := value.Description, Type_ := "boolean", Required := value.Required,
            KeyValue := none, Choice := none, Value := none,
            Boolean := some { Default := GoAny.str (declaredBoolean value.Default),
                              Value := GoAny.str "" } } }) ∧
    (∀ w err, ParseWorkflow content = .ok (w, err) →
      mapGet w.Content key = some
        { Description := value.Description, Type_ := "boolean", Required := value.Required,
          KeyValue := none, Choice := none, Value := none,
          Boolean := some { Default := GoAny.str (declaredBoolean value.Default),
                            Value := GoAny.str "" } } ∧
      ∀ w' : Workflow, w'.Content.Perm w.Content →
        (∃ id, ({ ID := id, Key := key, Value := "",
                  Default := declaredBoolean value.Default } : PrettyInput)
            ∈ (ToPretty w').Boolean) ∧
        ∀ r ∈ (ToPretty w').Boolean, r.Key = key →
          r.Default = declaredBoolean value.Default ∧ r.Value = "")
    ∧ ((∀ kv ∈ content.Inputs, ∀ w0, ∃ w1, parseInput w0 kv = .ok w1) →
        ∃ w, ParseWorkflow content = .ok (w, none)) := by
  refine ⟨fun w => parseInput_boolean w key value hjson htype, fun w err h => ?_,
    ParseWorkflow_returns content⟩
  obtain ⟨_, w0, w1, h1, hget⟩ := ParseWorkflow_get content hnd key value hmem w err h
  rw [parseInput_boolean w0 key value hjson htype] at h1
  have hstored : mapGet w.Content key = some
      { Description := value.Description, Type_ := "boolean", Required := value.Required,
        KeyValue := none, Choice := none, Value := none,
        Boolean := some { Default := GoAny.str (declaredBoolean value.Default),
                          Value := GoAny.str "" } } := by
    rw [hget, ← Except.ok.inj h1]
    exact mapGet_mapSet_self _ _ _
  refine ⟨hstored, fun w' hperm => ?_⟩
  obtain ⟨_, hndw, _, _⟩ := ParseWorkflow_model content w err h
  have hndw' : NodupKeys w'.Content := by
    unfold NodupKeys at *
    exact (hperm.map _).nodup_iff.2 hndw
  have hin : (key, _) ∈ w'.Content := hperm.symm.subset (mem_of_mapGet_eq_some _ _ _ hstored)
  constructor
  · obtain ⟨first, _, _, _, hb⟩ := ToPretty_present w' _ hin
    exact ⟨_, hb _ (List.mem_singleton.2 rfl)⟩
  · intro r hr hkey
    obtain ⟨kv, hkv, first, hf⟩ := (ToPretty_origin w').2.2.2 r hr
    obtain ⟨b, hb, hk, hv, hd⟩ := emittedBoolean_origin kv first r hf
    have hkv' : (key, kv.2) ∈ w'.Content := by
      rw [← hkey, hk]
      exact hkv
    have := value_unique w'.Content hndw' key _ _ hkv' hin
    rw [this] at hb
    simp only [Option.some.injEq] at hb
    rw [hd, ← hb]
    exact ⟨rfl, hv⟩

theorem parseWorkflow_boolean_default_witness :
    ParseWorkflow { Inputs := [("dry", sampleBooleanStringDefault)] }
      = .ok (booleanModel "false", none)
    ∧ (∃ id, ({ ID := id, Key := "dry", Value := "",
                Default := declaredBoolean (GoAny.str "true") } : PrettyInput)
          ∈ (ToPretty (booleanModel "false")).Boolean)
    ∧ (ToPretty (booleanModel "false")).Boolean
        = [{ ID := 0, Key := "dry", Value := "", Default := "false" }]
    ∧ ParseWorkflow sampleContent = .ok (sampleModel, none)
    ∧ (∃ id, ({ ID := id, Key := "debug", Value := "",
                Default := declaredBoolean (GoAny.bool true) } : PrettyInput)
          ∈ (ToPretty sampleModel).Boolean)
    ∧ (ToPretty sampleModel).Boolean
        = [{ ID := 2, Key := "debug", Value := "", Default := "true" }] :=
  ⟨by decide,
   (((parseWorkflow_boolean_default { Inputs := [("dry", sampleBooleanStringDefault)] }
      (by decide) "dry" sampleBooleanStringDefault (by decide) (by decide) (by decide)).2.1
      (booleanModel "false") none (by decide)).2 (booleanModel "false")
      (List.Perm.refl _)).1,
   by decide, by decide,
   (((parseWorkflow_boolean_default sampleContent (by decide) "debug" sampleBooleanInput
      (by decide) (by decide) (by decide)).2.1 sampleModel none (by decide)).2 sampleModel
      (List.Perm.refl _)).1,
   by decide⟩

end workflow
end gama

namespace gama

theorem foldl_mapSet_keys {α V : Type} (key : α → String) (val : α → V) (l : List α)
    (R : GoMap V) (k : String) :
    k ∈ (l.foldl (fun r x => mapSet r (key x) (val x)) R).map Prod.fst
      ↔ k ∈ R.map Prod.fst ∨ ∃ x ∈ l, key x = k := by
  induction l generalizing R with
  | nil => simp
  | cons x l ih =>
    rw [List.foldl_cons, ih, mem_keys_mapSet]
    constructor
    · rintro ((h | h) | ⟨y, hy, h⟩)
      · exact Or.inr ⟨x, List.mem_cons_self _ _, h.symm⟩
      · exact Or.inl h
      · exact Or.inr ⟨y, List.mem_cons_of_mem _ hy, h⟩
    · rintro (h | ⟨y, hy, h⟩)
      · exact Or.inl (Or.inr h)
      · rcases List.mem_cons.1 hy with h1 | h1
        · exact Or.inl (Or.inl (by rw [← h, h1]))
        · exact Or.inr ⟨y, h1, h⟩

theorem foldl_mapSet_const {α V : Type} (key : α → String) (val : α → V) (l : List α)
    (R : GoMap V) (k : String) (v0 : V) (hval : ∀ x ∈ l, val x = v0)
    (hk : ∃ x ∈ l, key x = k) :
    mapGet (l.foldl (fun r x => mapSet r (key x) (val x)) R) k = some v0 := by
  induction l generalizing R with
  | nil => simp at hk
  | cons x l ih =>
    rw [List.foldl_cons]
    by_cases hl : ∃ y ∈ l, key y = k
    · exact ih _ (fun y hy => hval y (List.mem_cons_of_mem _ hy)) hl
    · rw [foldl_mapSet_get _ _ _ _ _ (fun y hy h => hl ⟨y, hy, h⟩)]
      obtain ⟨y, hy, hyk⟩ := hk
      rcases List.mem_cons.1 hy with h1 | h1
      · rw [← hyk, h1, hval x (List.mem_cons_self _ _)]
        exact mapGet_mapSet_self _ _ _
      · exact absurd ⟨y, h1, hyk⟩ hl

namespace workflow

/-! ## ToJson: key set and values for rows that all have a parent -/

theorem jsonKeyVal_keys (R R' : GoMap JAny) (kv : PrettyKeyValue) (parent : String)
    (hp : kv.Parent = some parent) (h : jsonKeyVal R kv = .ok R') (k : String) :
    k ∈ R'.map Prod.fst ↔ k ∈ R.map Prod.fst ∨ k = parent := by
  unfold jsonKeyVal at h
  simp only [hp] at h
  cases hget : mapGet R parent with
  | none =>
    simp only [hget, mapGet_mapSet_self, pure, Except.pure, Except.ok.injEq] at h
    rw [← h, mem_keys_mapSet, mem_keys_mapSet]
    tauto
  | some v =>
    cases v with
    | str s => simp [hget, throw, throwThe, MonadExceptOf.throw] at h
    | obj m =>
      simp only [hget, pure, Except.pure, Except.ok.injEq] at h
      rw [← h, mem_keys_mapSet]
      tauto

theorem jsonKeyVal_loop_keys (rows : List PrettyKeyValue) (R R' : GoMap JAny)
    (hpar : ∀ r ∈ rows, ∃ q, r.Parent = some q)
    (h : rows.foldlM jsonKeyVal R = .ok R') (k : String) :
    k ∈ R'.map Prod.fst ↔ k ∈ R.map Prod.fst ∨ ∃ r ∈ rows, r.Parent = some k := by
  induction rows generalizing R with
  | nil =>
    simp only [List.foldlM, pure, Except.pure, Except.ok.injEq] at h
    subst h
    simp
  | cons kv rows ih =>
    simp only [List.foldlM, bind, Except.bind] at h
    split at h
    · simp at h
    · rename_i R1 h1
      obtain ⟨q, hq⟩ := hpar kv (List.mem_cons_self _ _)
      rw [ih R1 (fun r hr => hpar r (List.mem_cons_of_mem _ hr)) h,
        jsonKeyVal_keys R R1 kv q hq h1]
      constructor
      · rintro ((h2 | h2) | ⟨r, hr, h2⟩)
        · exact Or.inl h2
        · exact Or.inr ⟨kv, List.mem_cons_self _ _, by rw [hq, h2]⟩
        · exact Or.inr ⟨r, List.mem_cons_of_mem _ hr, h2⟩
      · rintro (h2 | ⟨r, hr, h2⟩)
        · exact Or.inl (Or.inl h2)
        · rcases List.mem_cons.1 hr with h3 | h3
          · rw [h3, hq] at h2
            exact Or.inl (Or.inr (Option.some.inj h2).symm)
          · exact Or.inr ⟨r, h3, h2⟩

theorem nestedValue_unedited (rows : List PrettyKeyValue) (parent k : String)
    (hval : ∀ r ∈ rows, r.Value = "") :
    ((∃ r ∈ rows, r.Parent = some parent ∧ r.Key = k) →
        nestedValue rows parent k = some "")
    ∧ ((¬ ∃ r ∈ rows, r.Parent = some parent ∧ r.Key = k) →
        nestedValue rows parent k = none) := by
  unfold nestedValue
  constructor
  · rintro ⟨r, hr, h1, h2⟩
    have hne : rows.filter (fun kv => kv.Parent = some parent ∧ kv.Key = k) ≠ [] := by
      intro hnil
      have : r ∈ rows.filter (fun kv => kv.Parent = some parent ∧ kv.Key = k) :=
        List.mem_filter.2 ⟨hr, by simp [h1, h2]⟩
      rw [hnil] at this
      simp at this
    cases hl : (rows.filter fun kv => kv.Parent = some parent ∧ kv.Key = k).getLast? with
    | none => exact absurd (List.getLast?_eq_none_iff.1 hl) hne
    | some x =>
      have hx := List.mem_of_getLast?_eq_some hl
      simp only [Option.map_some', Option.some.injEq]
      exact hval x (List.mem_filter.1 hx).1
  · intro hno
    have hnil : rows.filter (fun kv => kv.Parent = some parent ∧ kv.Key = k) = [] := by
      rw [List.filter_eq_nil_iff]
      intro r hr hc
      exact hno ⟨r, hr, by simpa using hc⟩
    rw [hnil]
    rfl

end workflow
end gama

namespace gama
namespace workflow

/-- ToJson on rows that all have a parent, hold the empty value and keep
group names and top-level names apart. -/
theorem ToJson_unedited (p : Pretty)
    (hpar : ∀ r ∈ p.KeyVals, ∃ q, r.Parent = some q)
    (hc : ∀ r ∈ p.Choices, r.Value = "") (hi : ∀ r ∈ p.Inputs, r.Value = "")
    (hb : ∀ r ∈ p.Boolean, r.Value = "")
    (hsep : ∀ k, (k ∈ p.Choices.map PrettyChoice.Key ∨ k ∈ p.Inputs.map PrettyInput.Key
        ∨ k ∈ p.Boolean.map PrettyInput.Key) → ¬ ∃ r ∈ p.KeyVals, r.Parent = some k) :
    ∃ result : GoMap String,
      ToJson p = .ok (marshalObject marshalString result, none) ∧ NodupKeys result ∧
      (∀ k, k ∈ result.map Prod.fst
        ↔ (∃ r ∈ p.KeyVals, r.Parent = some k) ∨ k ∈ p.Choices.map PrettyChoice.Key
            ∨ k ∈ p.Inputs.map PrettyInput.Key ∨ k ∈ p.Boolean.map PrettyInput.Key) ∧
      (∀ k, (k ∈ p.Choices.map PrettyChoice.Key ∨ k ∈ p.Inputs.map PrettyInput.Key
          ∨ k ∈ p.Boolean.map PrettyInput.Key) → mapGet result k = some "") ∧
      (∀ q, (∃ r ∈ p.KeyVals, r.Parent = some q) →
        ∃ group : GoMap String,
          mapGet result q = some (marshalObject marshalString group) ∧ NodupKeys group ∧
          ∀ nk, mapGet group nk = nestedValue p.KeyVals q nk) := by
  obtain ⟨R, hR, hndR, hinv⟩ := jsonKeyVal_loop
    (fun q => ∃ r ∈ p.KeyVals, r.Parent = some q) p.KeyVals [] (fun _ => none)
    (fun q _ => by simp [mapGet]) (by simp [NodupKeys])
    (fun kv hkv hnone => by
      obtain ⟨q, hq⟩ := hpar kv hkv
      rw [hnone] at hq
      simp at hq)
    (fun kv hkv q hq => ⟨kv, hkv, hq⟩)
  have hkeysR := jsonKeyVal_loop_keys p.KeyVals [] R hpar hR
  have hmemC : ∀ k, k ∈ p.Choices.map PrettyChoice.Key ↔ ∃ x ∈ p.Choices, x.Key = k :=
    fun k => by simp [List.mem_map]
  have hmemI : ∀ k, k ∈ p.Inputs.map PrettyInput.Key ↔ ∃ x ∈ p.Inputs, x.Key = k :=
    fun k => by simp [List.mem_map]
  have hmemB : ∀ k, k ∈ p.Boolean.map PrettyInput.Key ↔ ∃ x ∈ p.Boolean, x.Key = k :=
    fun k => by simp [List.mem_map]
  refine ⟨_, ToJson_eq p R hR, ?_, fun k => ?_, fun k hk => ?_, fun q hq => ?_⟩
  · exact nodupKeys_map _ _ (foldl_mapSet_nodup _ _ _ _ (foldl_mapSet_nodup _ _ _ _
      (foldl_mapSet_nodup _ _ _ _ hndR)))
  · rw [List.map_map]
    have : (Prod.fst ∘ fun kv : String × JAny => (kv.1, stringify kv.2)) = Prod.fst := rfl
    rw [this, foldl_mapSet_keys, foldl_mapSet_keys, foldl_mapSet_keys, hkeysR, hmemC, hmemI,
      hmemB]
    simp only [List.map_nil, List.not_mem_nil, false_or]
    constructor
    · rintro (((h | h) | h) | h)
      exacts [Or.inl h, Or.inr (Or.inl h), Or.inr (Or.inr (Or.inl h)),
        Or.inr (Or.inr (Or.inr h))]
    · rintro (h | h | h | h)
      exacts [Or.inl (Or.inl (Or.inl h)), Or.inl (Or.inl (Or.inr h)), Or.inl (Or.inr h),
        Or.inr h]
  · rw [mapGet_map]
    by_cases h3 : ∃ x ∈ p.Boolean, x.Key = k
    · rw [foldl_mapSet_const _ _ _ _ k (JAny.str "") (fun x hx => by rw [hb x hx]) h3]
      rfl
    · rw [foldl_mapSet_get _ _ _ _ _ (fun x hx h => h3 ⟨x, hx, h⟩)]
      by_cases h2 : ∃ x ∈ p.Inputs, x.Key = k
      · rw [foldl_mapSet_const _ _ _ _ k (JAny.str "") (fun x hx => by rw [hi x hx]) h2]
        rfl
      · rw [foldl_mapSet_get _ _ _ _ _ (fun x hx h => h2 ⟨x, hx, h⟩)]
        have h1 : ∃ x ∈ p.Choices, x.Key = k := by
          rcases hk with hk | hk | hk
          · exact (hmemC k).1 hk
          · exact absurd ((hmemI k).1 hk) h2
          · exact absurd ((hmemB k).1 hk) h3
        rw [foldl_mapSet_const _ _ _ _ k (JAny.str "") (fun x hx => by rw [hc x hx]) h1]
        rfl
  · have hnc : ∀ c ∈ p.Choices, c.Key ≠ q := fun c hcm h =>
      hsep q (Or.inl ((hmemC q).2 ⟨c, hcm, h⟩)) hq
    have hni : ∀ i ∈ p.Inputs, i.Key ≠ q := fun i him h =>
      hsep q (Or.inr (Or.inl ((hmemI q).2 ⟨i, him, h⟩))) hq
    have hnb : ∀ b ∈ p.Boolean, b.Key ≠ q := fun b hbm h =>
      hsep q (Or.inr (Or.inr ((hmemB q).2 ⟨b, hbm, h⟩))) hq
    have hparent : q ∈ p.KeyVals.filterMap PrettyKeyValue.Parent := by
      obtain ⟨r, hr, hrq⟩ := hq
      exact List.mem_filterMap.2 ⟨r, hr, hrq⟩
    have hsome := groupOf_isSome q p.KeyVals hparent
    obtain ⟨group, hgroup⟩ := Option.isSome_iff_exists.1 hsome
    have hspec := groupOf_spec q p.KeyVals
    rw [hgroup] at hspec
    refine ⟨group, ?_, hspec.1, hspec.2⟩
    rw [mapGet_map, foldl_mapSet_get _ _ _ _ _ hnb, foldl_mapSet_get _ _ _ _ _ hni,
      foldl_mapSet_get _ _ _ _ _ hnc, hinv q hq]
    have : List.foldl (groupStep q) none p.KeyVals = some group := hgroup
    simp [this, stringify]

end workflow
end gama

namespace gama
namespace workflow

/-! ## The projection of a model with one variant per field -/

theorem oneVariant_group (c : Content) (h : OneVariant c) (entries : List KeyValue)
    (hk : c.KeyValue = some entries) :
    entries ≠ [] ∧ c.Choice = none ∧ c.Value = none ∧ c.Boolean = none := by
  unfold OneVariant at h
  rw [hk] at h
  exact h

theorem oneVariant_top (c : Content) (h : OneVariant c) (hk : c.KeyValue = none) :
    c.Choice.isSome ∨ c.Value.isSome ∨ c.Boolean.isSome := by
  unfold OneVariant at h
  rw [hk] at h
  rcases h with h | h | h
  · exact Or.inl h.1
  · exact Or.inr (Or.inl h.2.1)
  · exact Or.inr (Or.inr h.2.2)

theorem proj_parent_origin (w : Workflow) (k : String)
    (h : ∃ r ∈ (ToPretty w).KeyVals, r.Parent = some k) :
    ∃ c entries, (k, c) ∈ w.Content ∧ c.KeyValue = some entries := by
  obtain ⟨r, hr, hp⟩ := h
  obtain ⟨kv, hkv, first, hf⟩ := (ToPretty_origin w).1 r hr
  obtain ⟨entries, he, hpar, _⟩ := emittedKeyVals_origin kv first r hf
  rw [hp] at hpar
  have hk : k = kv.1 := Option.some.inj hpar
  exact ⟨kv.2, entries, by rw [hk]; exact hkv, he⟩

theorem proj_top_origin (w : Workflow) (k : String) :
    (k ∈ (ToPretty w).Choices.map PrettyChoice.Key →
      ∃ c, (k, c) ∈ w.Content ∧ c.Choice.isSome) ∧
    (k ∈ (ToPretty w).Inputs.map PrettyInput.Key →
      ∃ c, (k, c) ∈ w.Content ∧ c.Value.isSome) ∧
    (k ∈ (ToPretty w).Boolean.map PrettyInput.Key →
      ∃ c, (k, c) ∈ w.Content ∧ c.Boolean.isSome) := by
  obtain ⟨_, h2, h3, h4⟩ := ToPretty_origin w
  refine ⟨fun h => ?_, fun h => ?_, fun h => ?_⟩
  · obtain ⟨r, hr, hk⟩ := List.mem_map.1 h
    obtain ⟨kv, hkv, first, hf⟩ := h2 r hr
    obtain ⟨c, hc, hkey, _⟩ := emittedChoices_origin kv first r hf
    exact ⟨kv.2, by rw [← hk, hkey]; exact hkv, by rw [hc]; rfl⟩
  · obtain ⟨r, hr, hk⟩ := List.mem_map.1 h
    obtain ⟨kv, hkv, first, hf⟩ := h3 r hr
    obtain ⟨c, hc, hkey, _⟩ := emittedInputs_origin kv first r hf
    exact ⟨kv.2, by rw [← hk, hkey]; exact hkv, by rw [hc]; rfl⟩
  · obtain ⟨r, hr, hk⟩ := List.mem_map.1 h
    obtain ⟨kv, hkv, first, hf⟩ := h4 r hr
    obtain ⟨c, hc, hkey, _⟩ := emittedBoolean_origin kv first r hf
    exact ⟨kv.2, by rw [← hk, hkey]; exact hkv, by rw [hc]; rfl⟩

theorem proj_top_present (w : Workflow) (k : String) (c : Content)
    (hmem : (k, c) ∈ w.Content) :
    (c.Choice.isSome → k ∈ (ToPretty w).Choices.map PrettyChoice.Key) ∧
    (c.Value.isSome → k ∈ (ToPretty w).Inputs.map PrettyInput.Key) ∧
    (c.Boolean.isSome → k ∈ (ToPretty w).Boolean.map PrettyInput.Key) := by
  obtain ⟨first, _, h2, h3, h4⟩ := ToPretty_present w (k, c) hmem
  refine ⟨fun h => ?_, fun h => ?_, fun h => ?_⟩
  · obtain ⟨x, hx⟩ := Option.isSome_iff_exists.1 h
    have hrow : ({ ID := first + kvRows c, Key := k, Value := "", Values := x.Options,
                   Default := x.Default } : PrettyChoice)
        ∈ emittedChoices (k, c) first := by
      simp [emittedChoices, hx]
    exact List.mem_map.2 ⟨_, h2 _ hrow, rfl⟩
  · obtain ⟨x, hx⟩ := Option.isSome_iff_exists.1 h
    have hrow : ({ ID := first + kvRows c + optRows c.Choice, Key := k, Value := "",
                   Default := defaultString x.Default } : PrettyInput)
        ∈ emittedInputs (k, c) first := by
      simp [emittedInputs, hx]
    exact List.mem_map.2 ⟨_, h3 _ hrow, rfl⟩
  · obtain ⟨x, hx⟩ := Option.isSome_iff_exists.1 h
    have hrow : ({ ID := first + kvRows c + optRows c.Choice + optRows c.Value, Key := k,
                   Value := "", Default := defaultString x.Default } : PrettyInput)
        ∈ emittedBoolean (k, c) first := by
      simp [emittedBoolean, hx]
    exact List.mem_map.2 ⟨_, h4 _ hrow, rfl⟩

theorem proj_keyvals_iff (w : Workflow) (hnd : NodupKeys w.Content) (k : String)
    (c : Content) (entries : List KeyValue) (hmem : (k, c) ∈ w.Content)
    (hk : c.KeyValue = some entries) (nk : String) :
    (∃ r ∈ (ToPretty w).KeyVals, r.Parent = some k ∧ r.Key = nk)
      ↔ nk ∈ entries.map KeyValue.Key := by
  constructor
  · rintro ⟨r, hr, hp, hkey⟩
    obtain ⟨kv, hkv, first, hf⟩ := (ToPretty_origin w).1 r hr
    obtain ⟨entries', he', hpar, _, e, he, hek, _⟩ := emittedKeyVals_origin kv first r hf
    rw [hp] at hpar
    have hk1 : k = kv.1 := Option.some.inj hpar
    have hc : kv.2 = c := value_unique w.Content hnd k _ _ (by rw [hk1]; exact hkv) hmem
    rw [hc, hk] at he'
    simp only [Option.some.injEq] at he'
    rw [← hkey, hek]
    exact List.mem_map.2 ⟨e, he' ▸ he, rfl⟩
  · intro h
    obtain ⟨e, he, hek⟩ := List.mem_map.1 h
    obtain ⟨first, h1, _⟩ := ToPretty_present w (k, c) hmem
    obtain ⟨r, hr, hp, hkey, _⟩ := keyValRows_present k entries first e he
    refine ⟨r, h1 r ?_, hp, by rw [hkey, hek]⟩
    simp only [emittedKeyVals, hk]
    exact hr

end workflow
end gama

namespace gama
namespace workflow

/-- ToJson of the unedited projection of a model with distinct field names and
one variant per field. -/
theorem ToJson_ToPretty (w : Workflow) (hnd : NodupKeys w.Content)
    (hwf : ∀ kc ∈ w.Content, OneVariant kc.2) :
    ∃ result : GoMap String,
      ToJson (ToPretty w) = .ok (marshalObject marshalString result, none) ∧
      NodupKeys result ∧
      (∀ k, k ∈ result.map Prod.fst ↔ k ∈ w.Content.map Prod.fst) ∧
      (∀ k c, (k, c) ∈ w.Content → c.KeyValue = none → mapGet result k = some "") ∧
      (∀ k c entries, (k, c) ∈ w.Content → c.KeyValue = some entries →
        ∃ group : GoMap String,
          mapGet result k = some (marshalObject marshalString group) ∧ NodupKeys group ∧
          ∀ nk, (nk ∈ entries.map KeyValue.Key → mapGet group nk = some "")
            ∧ (nk ∉ entries.map KeyValue.Key → mapGet group nk = none)) := by
  have horigin := ToPretty_origin w
  have hpar : ∀ r ∈ (ToPretty w).KeyVals, ∃ q, r.Parent = some q := by
    intro r hr
    obtain ⟨kv, _, first, hf⟩ := horigin.1 r hr
    obtain ⟨_, _, hp, _⟩ := emittedKeyVals_origin kv first r hf
    exact ⟨kv.1, hp⟩
  have hkvval : ∀ r ∈ (ToPretty w).KeyVals, r.Value = "" := by
    intro r hr
    obtain ⟨kv, _, first, hf⟩ := horigin.1 r hr
    obtain ⟨_, _, _, hv, _⟩ := emittedKeyVals_origin kv first r hf
    exact hv
  have hc : ∀ r ∈ (ToPretty w).Choices, r.Value = "" := by
    intro r hr
    obtain ⟨kv, _, first, hf⟩ := horigin.2.1 r hr
    obtain ⟨_, _, _, hv, _⟩ := emittedChoices_origin kv first r hf
    exact hv
  have hi : ∀ r ∈ (ToPretty w).Inputs, r.Value = "" := by
    intro r hr
    obtain ⟨kv, _, first, hf⟩ := horigin.2.2.1 r hr
    obtain ⟨_, _, _, hv, _⟩ := emittedInputs_origin kv first r hf
    exact hv
  have hb : ∀ r ∈ (ToPretty w).Boolean, r.Value = "" := by
    intro r hr
    obtain ⟨kv, _, first, hf⟩ := horigin.2.2.2 r hr
    obtain ⟨_, _, _, hv, _⟩ := emittedBoolean_origin kv first r hf
    exact hv
  have htop : ∀ k, (k ∈ (ToPretty w).Choices.map PrettyChoice.Key
      ∨ k ∈ (ToPretty w).Inputs.map PrettyInput.Key
      ∨ k ∈ (ToPretty w).Boolean.map PrettyInput.Key) →
      ∃ c, (k, c) ∈ w.Content ∧ (c.Choice.isSome ∨ c.Value.isSome ∨ c.Boolean.isSome) := by
    intro k hk
    obtain ⟨t1, t2, t3⟩ := proj_top_origin w k
    rcases hk with hk | hk | hk
    · obtain ⟨c, h1, h2⟩ := t1 hk
      exact ⟨c, h1, Or.inl h2⟩
    · obtain ⟨c, h1, h2⟩ := t2 hk
      exact ⟨c, h1, Or.inr (Or.inl h2)⟩
    · obtain ⟨c, h1, h2⟩ := t3 hk
      exact ⟨c, h1, Or.inr (Or.inr h2)⟩
  have hsep : ∀ k, (k ∈ (ToPretty w).Choices.map PrettyChoice.Key
      ∨ k ∈ (ToPretty w).Inputs.map PrettyInput.Key
      ∨ k ∈ (ToPretty w).Boolean.map PrettyInput.Key) →
      ¬ ∃ r ∈ (ToPretty w).KeyVals, r.Parent = some k := by
    intro k hk hex
    obtain ⟨c, hcm, hsome⟩ := htop k hk
    obtain ⟨c', entries, hcm', hkv⟩ := proj_parent_origin w k hex
    have heq : c' = c := value_unique w.Content hnd k _ _ hcm' hcm
    rw [heq] at hkv
    obtain ⟨_, h1, h2, h3⟩ := oneVariant_group c (hwf _ hcm) entries hkv
    rw [h1, h2, h3] at hsome
    simp at hsome
  obtain ⟨result, hres, hndres, hkeys, htopval, hgroup⟩ :=
    ToJson_unedited (ToPretty w) hpar hc hi hb hsep
  refine ⟨result, hres, hndres, fun k => ?_, fun k c hmem hk => ?_,
    fun k c entries hmem hk => ?_⟩
  · rw [hkeys]
    constructor
    · rintro (h | h)
      · obtain ⟨c, _, hcm, _⟩ := proj_parent_origin w k h
        exact List.mem_map.2 ⟨(k, c), hcm, rfl⟩
      · obtain ⟨c, hcm, _⟩ := htop k h
        exact List.mem_map.2 ⟨(k, c), hcm, rfl⟩
    · intro h
      obtain ⟨kc, hkc, hk⟩ := List.mem_map.1 h
      obtain ⟨k', c⟩ := kc
      simp only at hk
      subst hk
      cases hkv : c.KeyValue with
      | some entries =>
        left
        obtain ⟨hne, _⟩ := oneVariant_group c (hwf _ hkc) entries hkv
        obtain ⟨e, he⟩ := List.exists_mem_of_ne_nil entries hne
        obtain ⟨r, hr, hp, _⟩ := (proj_keyvals_iff w hnd k' c entries hkc hkv e.Key).2
          (List.mem_map_of_mem _ he)
        exact ⟨r, hr, hp⟩
      | none =>
        right
        obtain ⟨p1, p2, p3⟩ := proj_top_present w k' c hkc
        rcases oneVariant_top c (hwf _ hkc) hkv with h1 | h1 | h1
        · exact Or.inl (p1 h1)
        · exact Or.inr (Or.inl (p2 h1))
        · exact Or.inr (Or.inr (p3 h1))
  · apply htopval
    obtain ⟨p1, p2, p3⟩ := proj_top_present w k c hmem
    rcases oneVariant_top c (hwf _ hmem) hk with h1 | h1 | h1
    · exact Or.inl (p1 h1)
    · exact Or.inr (Or.inl (p2 h1))
    · exact Or.inr (Or.inr (p3 h1))
  · obtain ⟨hne, _⟩ := oneVariant_group c (hwf _ hmem) entries hk
    obtain ⟨e, he⟩ := List.exists_mem_of_ne_nil entries hne
    obtain ⟨r, hr, hp, _⟩ := (proj_keyvals_iff w hnd k c entries hmem hk e.Key).2
      (List.mem_map_of_mem _ he)
    obtain ⟨group, hg, hndg, hspec⟩ := hgroup k ⟨r, hr, hp⟩
    refine ⟨group, hg, hndg, fun nk => ?_⟩
    obtain ⟨u1, u2⟩ := nestedValue_unedited (ToPretty w).KeyVals k nk hkvval
    rw [hspec nk]
    constructor
    · intro hin
      exact u1 ((proj_keyvals_iff w hnd k c entries hmem hk nk).2 hin)
    · intro hnot
      exact u2 (fun hex => hnot ((proj_keyvals_iff w hnd k c entries hmem hk nk).1 hex))

end workflow
end gama

namespace gama
namespace workflow

/-! ## ToJson of the unedited projection -/

/-- C13: for every model ParseWorkflow returns and every iteration order of
its fields, ToJson of the unedited projection returns, with a nil error, the
encoding of an object whose key set is exactly the model's field names; every
field is either an input, choice or boolean field, mapped to the empty string,
or a group field, mapped to the JSON encoding (as a string) of an object that
maps each of its nested keys, and nothing else, to the empty string; for a
model with zero fields the output is the empty object. -/
theorem toJson_unedited_projection (content : py.WorkflowContent) (w : Workflow)
    (err : GoError) (hparse : ParseWorkflow content = .ok (w, err)) (w' : Workflow)
    (horder : w'.Content.Perm w.Content) :
    ∃ result : GoMap String,
      ToJson (ToPretty w') = .ok (marshalObject marshalString result, none) ∧
      NodupKeys result ∧
      (∀ k, k ∈ result.map Prod.fst ↔ k ∈ w.Content.map Prod.fst) ∧
      (∀ k c, mapGet w.Content k = some c →
        (c.KeyValue = none ∧ (c.Choice.isSome ∨ c.Value.isSome ∨ c.Boolean.isSome)
          ∧ mapGet result k = some "")
        ∨ ∃ entries group,
            c.KeyValue = some entries
            ∧ mapGet result k = some (marshalObject marshalString group)
            ∧ NodupKeys group
            ∧ ∀ nk, (nk ∈ entries.map KeyValue.Key → mapGet group nk = some "")
                ∧ (nk ∉ entries.map KeyValue.Key → mapGet group nk = none)) ∧
      (w.Content = [] → ToJson (ToPretty w') = .ok ("\x7b\x7d", none)) := by
  obtain ⟨_, hnd, hwf, _⟩ := ParseWorkflow_model content w err hparse
  have hnd' : NodupKeys w'.Content := by
    unfold NodupKeys at *
    exact (horder.map _).nodup_iff.2 hnd
  have hwf' : ∀ kc ∈ w'.Content, OneVariant kc.2 := fun kc hkc => hwf kc (horder.subset hkc)
  obtain ⟨result, hres, hndres, hkeys, htop, hgroup⟩ := ToJson_ToPretty w' hnd' hwf'
  refine ⟨result, hres, hndres, fun k => ?_, fun k c hget => ?_, fun hempty => ?_⟩
  · rw [hkeys]
    exact (horder.map Prod.fst).mem_iff
  · have hmem : (k, c) ∈ w'.Content :=
      horder.symm.subset (mem_of_mapGet_eq_some _ _ _ hget)
    cases hkv : c.KeyValue with
    | none =>
      exact Or.inl ⟨rfl, oneVariant_top c (hwf' _ hmem) hkv, htop k c hmem hkv⟩
    | some entries =>
      obtain ⟨group, h1, h2, h3⟩ := hgroup k c entries hmem hkv
      exact Or.inr ⟨entries, group, rfl, h1, h2, h3⟩
  · have hnil : w'.Content = [] := by
      rw [hempty] at horder
      exact List.Perm.eq_nil horder
    have hw' : w' = { Content := [] } := by
      cases w'
      simp only at hnil
      rw [hnil]
    rw [hw']
    decide

theorem toJson_unedited_projection_witness :
    (∃ result : GoMap String,
      ToJson (ToPretty { Content := sampleModel.Content.reverse })
        = .ok (marshalObject marshalString result, none) ∧
      NodupKeys result ∧
      (∀ k, k ∈ result.map Prod.fst ↔ k ∈ sampleModel.Content.map Prod.fst) ∧
      (∀ k c, mapGet sampleModel.Content k = some c →
        (c.KeyValue = none ∧ (c.Choice.isSome ∨ c.Value.isSome ∨ c.Boolean.isSome)
          ∧ mapGet result k = some "")
        ∨ ∃ entries group,
            c.KeyValue = some entries
            ∧ mapGet result k = some (marshalObject marshalString group)
            ∧ NodupKeys group
            ∧ ∀ nk, (nk ∈ entries.map KeyValue.Key → mapGet group nk = some "")
                ∧ (nk ∉ entries.map KeyValue.Key → mapGet group nk = none)) ∧
      (sampleModel.Content = [] →
        ToJson (ToPretty { Content := sampleModel.Content.reverse })
          = .ok ("\x7b\x7d", none)))
    ∧ ToJson (ToPretty { Content := sampleModel.Content.reverse })
        = .ok ("\x7b\"debug\":\"\",\"matrix\":\"\x7b\\\"arch\\\":\\\"\\\",\\\"os\\\":\\\"\\\"\x7d\"\x7d",
            none)
    ∧ ToJson (ToPretty { Content := [] }) = .ok ("\x7b\x7d", none) :=
  ⟨toJson_unedited_projection sampleContent sampleModel none (by decide)
      { Content := sampleModel.Content.reverse } (List.reverse_perm _),
   by decide, by decide⟩

end workflow
end gama

namespace gama

theorem perm_of_mapGet_eq {V : Type} (m m' : GoMap V) (h : NodupKeys m) (h' : NodupKeys m')
    (heq : ∀ k, mapGet m' k = mapGet m k) : m'.Perm m := by
  have n : m.Nodup := List.Nodup.of_map Prod.fst h
  have n' : m'.Nodup := List.Nodup.of_map Prod.fst h'
  rw [List.perm_ext_iff_of_nodup n' n]
  rintro ⟨k, v⟩
  constructor
  · intro hm
    have := mapGet_eq_some_of_mem m' h' k v hm
    rw [heq] at this
    exact mem_of_mapGet_eq_some m k v this
  · intro hm
    have := mapGet_eq_some_of_mem m h k v hm
    rw [← heq] at this
    exact mem_of_mapGet_eq_some m' k v this

namespace workflow

/-! ## ToJson: one group among arbitrary other rows -/

theorem jsonKeyVal_step_at (R R' : GoMap JAny) (kv : PrettyKeyValue) (q : String)
    (acc : Option (GoMap String)) (h : jsonKeyVal R kv = .ok R')
    (hinv : mapGet R q = acc.map JAny.obj) (htop : kv.Parent = none → kv.Key ≠ q) :
    mapGet R' q = (groupStep q acc kv).map JAny.obj := by
  unfold jsonKeyVal at h
  cases hp : kv.Parent with
  | none =>
    simp only [hp, pure, Except.pure, Except.ok.injEq] at h
    rw [← h, mapGet_mapSet_ne _ _ _ _ (Ne.symm (htop hp)), hinv]
    simp [groupStep, hp]
  | some parent =>
    simp only [hp] at h
    by_cases hq : parent = q
    · subst hq
      cases hacc : acc with
      | none =>
        rw [hacc] at hinv
        simp only [Option.map_none'] at hinv
        simp only [hinv, mapGet_mapSet_self, pure, Except.pure, Except.ok.injEq] at h
        rw [← h]
        simp [mapGet_mapSet_self, groupStep, hp]
      | some m =>
        rw [hacc] at hinv
        simp only [Option.map_some'] at hinv
        simp only [hinv, pure, Except.pure, Except.ok.injEq] at h
        rw [← h]
        simp [mapGet_mapSet_self, groupStep, hp]
    · have hne : q ≠ parent := fun e => hq e.symm
      have hstep : groupStep q acc kv = acc := by
        have : ¬ (some parent = some q) := fun e => hq (Option.some.inj e)
        simp [groupStep, hp, this]
      rw [hstep, ← hinv]
      cases hget : mapGet R parent with
      | none =>
        simp only [hget, mapGet_mapSet_self, pure, Except.pure, Except.ok.injEq] at h
        rw [← h, mapGet_mapSet_ne _ _ _ _ hne, mapGet_mapSet_ne _ _ _ _ hne]
      | some v =>
        cases v with
        | str s => simp [hget, throw, throwThe, MonadExceptOf.throw] at h
        | obj m =>
          simp only [hget, pure, Except.pure, Except.ok.injEq] at h
          rw [← h, mapGet_mapSet_ne _ _ _ _ hne]

theorem jsonKeyVal_loop_at (rows : List PrettyKeyValue) (R R' : GoMap JAny) (q : String)
    (acc : Option (GoMap String)) (h : rows.foldlM jsonKeyVal R = .ok R')
    (hinv : mapGet R q = acc.map JAny.obj)
    (htop : ∀ kv ∈ rows, kv.Parent = none → kv.Key ≠ q) :
    mapGet R' q = (rows.foldl (groupStep q) acc).map JAny.obj := by
  induction rows generalizing R acc with
  | nil =>
    simp only [List.foldlM, pure, Except.pure, Except.ok.injEq] at h
    subst h
    exact hinv
  | cons kv rows ih =>
    simp only [List.foldlM, bind, Except.bind] at h
    split at h
    · simp at h
    · rename_i R1 h1
      exact ih R1 _ h
        (jsonKeyVal_step_at R R1 kv q acc h1 hinv (htop kv (List.mem_cons_self _ _)))
        (fun x hx => htop x (List.mem_cons_of_mem _ hx))

theorem jsonKeyVal_ok_nodup (R R' : GoMap JAny) (kv : PrettyKeyValue)
    (h : jsonKeyVal R kv = .ok R') (hnd : NodupKeys R) : NodupKeys R' := by
  unfold jsonKeyVal at h
  cases hp : kv.Parent with
  | none =>
    simp only [hp, pure, Except.pure, Except.ok.injEq] at h
    rw [← h]
    exact nodupKeys_mapSet _ _ _ hnd
  | some parent =>
    simp only [hp] at h
    cases hget : mapGet R parent with
    | none =>
      simp only [hget, mapGet_mapSet_self, pure, Except.pure, Except.ok.injEq] at h
      rw [← h]
      exact nodupKeys_mapSet _ _ _ (nodupKeys_mapSet _ _ _ hnd)
    | some v =>
      cases v with
      | str s => simp [hget, throw, throwThe, MonadExceptOf.throw] at h
      | obj m =>
        simp only [hget, pure, Except.pure, Except.ok.injEq] at h
        rw [← h]
        exact nodupKeys_mapSet _ _ _ hnd

theorem jsonKeyVal_loop_ok_nodup (rows : List PrettyKeyValue) (R R' : GoMap JAny)
    (h : rows.foldlM jsonKeyVal R = .ok R') (hnd : NodupKeys R) : NodupKeys R' := by
  induction rows generalizing R with
  | nil =>
    simp only [List.foldlM, pure, Except.pure, Except.ok.injEq] at h
    subst h
    exact hnd
  | cons kv rows ih =>
    simp only [List.foldlM, bind, Except.bind] at h
    split at h
    · simp at h
    · rename_i R1 h1
      exact ih R1 h (jsonKeyVal_ok_nodup R R1 kv h1 hnd)

theorem ToJson_ok_loop (p : Pretty) (out : String × GoError) (h : ToJson p = .ok out) :
    ∃ R, p.KeyVals.foldlM jsonKeyVal [] = .ok R := by
  cases hl : p.KeyVals.foldlM jsonKeyVal [] with
  | ok R => exact ⟨R, rfl⟩
  | error e =>
    unfold ToJson at h
    simp [hl, bind, Except.bind] at h

/-- ToJson returns whenever no top-level key is a parent name. -/
theorem ToJson_returns (p : Pretty) (hsep : ∀ k ∈ topLevelKeys p, k ∉ parentNames p) :
    ∃ out, ToJson p = .ok out := by
  have htop : ∀ kv ∈ p.KeyVals, kv.Parent = none → ¬ (kv.Key ∈ parentNames p) := by
    intro kv hkv hnone
    apply hsep
    simp only [topLevelKeys, List.mem_append, List.mem_map, List.mem_filter]
    exact Or.inl (Or.inl (Or.inl ⟨kv, ⟨hkv, by simp [hnone]⟩, rfl⟩))
  have hpar : ∀ kv ∈ p.KeyVals, ∀ q, kv.Parent = some q → q ∈ parentNames p :=
    fun kv hkv q hq => List.mem_filterMap.2 ⟨kv, hkv, hq⟩
  obtain ⟨R, hR, _, _⟩ := jsonKeyVal_loop (fun q => q ∈ parentNames p) p.KeyVals []
    (fun _ => none) (fun q _ => by simp [mapGet]) (by simp [NodupKeys]) htop hpar
  exact ⟨_, ToJson_eq p R hR⟩

/-- The value ToJson's output holds under a parent name that is not a
top-level key: the encoding of the nested map of that parent. -/
theorem ToJson_group_value (p : Pretty) (parent : String) (hgroup : parent ∈ parentNames p)
    (htop : parent ∉ topLevelKeys p) (out : String × GoError) (hret : ToJson p = .ok out) :
    ∃ (result group : GoMap String),
      out = (marshalObject marshalString result, none)
      ∧ NodupKeys result
      ∧ mapGet result parent = some (marshalObject marshalString group)
      ∧ NodupKeys group
      ∧ ∀ nk, mapGet group nk = nestedValue p.KeyVals parent nk := by
  obtain ⟨R, hR⟩ := ToJson_ok_loop p out hret
  have hout := ToJson_eq p R hR
  rw [hret] at hout
  have hkeys : ∀ k, k ∈ topLevelKeys p → k ≠ parent := fun k hk e => htop (e ▸ hk)
  have horph : ∀ kv ∈ p.KeyVals, kv.Parent = none → kv.Key ≠ parent := by
    intro kv hkv hnone
    apply hkeys
    simp only [topLevelKeys, List.mem_append, List.mem_map, List.mem_filter]
    exact Or.inl (Or.inl (Or.inl ⟨kv, ⟨hkv, by simp [hnone]⟩, rfl⟩))
  have hc : ∀ c ∈ p.Choices, c.Key ≠ parent := by
    intro c hcm
    apply hkeys
    simp only [topLevelKeys, List.mem_append, List.mem_map]
    exact Or.inl (Or.inl (Or.inr ⟨c, hcm, rfl⟩))
  have hi : ∀ i ∈ p.Inputs, i.Key ≠ parent := by
    intro i him
    apply hkeys
    simp only [topLevelKeys, List.mem_append, List.mem_map]
    exact Or.inl (Or.inr ⟨i, him, rfl⟩)
  have hb : ∀ b ∈ p.Boolean, b.Key ≠ parent := by
    intro b hbm
    apply hkeys
    simp only [topLevelKeys, List.mem_append, List.mem_map]
    exact Or.inr ⟨b, hbm, rfl⟩
  have hat := jsonKeyVal_loop_at p.KeyVals [] R parent none hR (by simp [mapGet]) horph
  have hsome := groupOf_isSome parent p.KeyVals hgroup
  obtain ⟨group, hg⟩ := Option.isSome_iff_exists.1 hsome
  have hspec := groupOf_spec parent p.KeyVals
  rw [hg] at hspec
  refine ⟨_, group, (Except.ok.inj hout), ?_, ?_, hspec.1, hspec.2⟩
  · exact nodupKeys_map _ _ (foldl_mapSet_nodup _ _ _ _ (foldl_mapSet_nodup _ _ _ _
      (foldl_mapSet_nodup _ _ _ _ (jsonKeyVal_loop_ok_nodup _ _ _ hR (by simp [NodupKeys])))))
  · rw [mapGet_map, foldl_mapSet_get _ _ _ _ _ hb, foldl_mapSet_get _ _ _ _ _ hi,
      foldl_mapSet_get _ _ _ _ _ hc, hat]
    have : List.foldl (groupStep parent) none p.KeyVals = some group := hg
    simp [this, stringify]

theorem nestedValue_distinct (rows : List PrettyKeyValue) (parent : String)
    (hd : ((rows.filter fun kv => kv.Parent = some parent).map PrettyKeyValue.Key).Nodup)
    (nk v : String) :
    nestedValue rows parent nk = some v
      ↔ ∃ r ∈ rows, r.Parent = some parent ∧ r.Key = nk ∧ r.Value = v := by
  have hL : ∀ x, x ∈ rows.filter (fun kv => kv.Parent = some parent ∧ kv.Key = nk)
      ↔ x ∈ rows ∧ x.Parent = some parent ∧ x.Key = nk := by
    intro x
    simp [List.mem_filter]
  unfold nestedValue
  constructor
  · intro h
    cases hl : (rows.filter fun kv => kv.Parent = some parent ∧ kv.Key = nk).getLast? with
    | none => rw [hl] at h; simp at h
    | some x =>
      rw [hl] at h
      simp only [Option.map_some', Option.some.injEq] at h
      obtain ⟨h1, h2, h3⟩ := (hL x).1 (List.mem_of_getLast?_eq_some hl)
      exact ⟨x, h1, h2, h3, h⟩
  · rintro ⟨r, hr, hp, hk, hv⟩
    have hrL := (hL r).2 ⟨hr, hp, hk⟩
    cases hl : (rows.filter fun kv => kv.Parent = some parent ∧ kv.Key = nk).getLast? with
    | none =>
      rw [List.getLast?_eq_none_iff.1 hl] at hrL
      simp at hrL
    | some x =>
      obtain ⟨h1, h2, h3⟩ := (hL x).1 (List.mem_of_getLast?_eq_some hl)
      have hxG : x ∈ rows.filter fun kv => kv.Parent = some parent :=
        List.mem_filter.2 ⟨h1, by simp [h2]⟩
      have hrG : r ∈ rows.filter fun kv => kv.Parent = some parent :=
        List.mem_filter.2 ⟨hr, by simp [hp]⟩
      have hxr : x = r := List.inj_on_of_nodup_map hd hxG hrG (by rw [h3, hk])
      simp [hxr, hv]

theorem nestedValue_perm (rows rows' : List PrettyKeyValue) (parent : String)
    (hperm : rows'.Perm rows)
    (hd : ((rows.filter fun kv => kv.Parent = some parent).map PrettyKeyValue.Key).Nodup)
    (nk : String) : nestedValue rows' parent nk = nestedValue rows parent nk := by
  have hd' : ((rows'.filter fun kv => kv.Parent = some parent).map
      PrettyKeyValue.Key).Nodup :=
    (((hperm.filter _).map _).nodup_iff).2 hd
  apply Option.ext
  intro v
  simp only [Option.mem_def]
  rw [nestedValue_distinct rows' parent hd', nestedValue_distinct rows parent hd]
  constructor
  · rintro ⟨r, hr, h⟩
    exact ⟨r, hperm.subset hr, h⟩
  · rintro ⟨r, hr, h⟩
    exact ⟨r, hperm.symm.subset hr, h⟩

end workflow
end gama

namespace gama
namespace workflow

/-- C10 (as stated, refuted): for the group matrix whose rows are declared as
os, then arch, with the values linux and amd64 set, the encoded string lists
arch before os: the keys are not in declaration order. -/
theorem toJson_declaration_order_counterexample :
    osArchRows.KeyVals.map PrettyKeyValue.Key = ["os", "arch"]
    ∧ ToJson osArchRows
        = .ok ("\x7b\"matrix\":\"\x7b\\\"arch\\\":\\\"amd64\\\",\\\"os\\\":\\\"linux\\\"\x7d\"\x7d",
            none)
    ∧ ToJson osArchRows
        ≠ .ok ("\x7b\"matrix\":\"\x7b\\\"os\\\":\\\"linux\\\",\\\"arch\\\":\\\"amd64\\\"\x7d\"\x7d",
            none) := by
  refine ⟨by decide, by decide, by decide⟩

/-- C10 (amended): for every row set, whatever rows it holds, and every group
field of it (the parent name of a key/value row) whose name is not also a
top-level key, the keys inside the JSON-encoded string value ToJson produces
for the group appear in ascending byte-wise order, whatever the order in which
the entries were declared. Whenever ToJson returns, the output is the encoding
of a map with distinct keys that holds, under the group's name, the string
that lists in strictly increasing key order exactly the pairs of a nested key
and its current value (the value of the last row of the group with that key);
with distinct nested keys, every row set with the same key/value rows in
another order gives the same string for the group. ToJson returns whenever no
top-level key is a parent name. For the group matrix with entries declared os
then arch and the values linux and amd64 set, the output lists arch before
os. -/
theorem toJson_group_key_order (p : Pretty) (parent : String)
    (hgroup : parent ∈ parentNames p) (htop : parent ∉ topLevelKeys p) :
    (∀ out, ToJson p = .ok out →
      ∃ (result : GoMap String) (sorted : List (String × String)),
        out = (marshalObject marshalString result, none) ∧
        NodupKeys result ∧
        mapGet result parent
          = some ("\x7b" ++ String.intercalate ","
              (sorted.map fun kv => marshalString kv.1 ++ ":" ++ marshalString kv.2)
              ++ "\x7d") ∧
        (sorted.map Prod.fst).Pairwise keyLT ∧
        (∀ nk v, (nk, v) ∈ sorted ↔ nestedValue p.KeyVals parent nk = some v) ∧
        (∀ (p' : Pretty) (out' : String × GoError), p'.KeyVals.Perm p.KeyVals →
          ((p.KeyVals.filter fun kv => kv.Parent = some parent).map
            PrettyKeyValue.Key).Nodup →
          parent ∉ topLevelKeys p' → ToJson p' = .ok out' →
          ∃ result' : GoMap String,
            out' = (marshalObject marshalString result', none) ∧
            mapGet result' parent = mapGet result parent))
    ∧ ((∀ k ∈ topLevelKeys p, k ∉ parentNames p) → ∃ out, ToJson p = .ok out)
    ∧ ToJson osArchRows
        = .ok ("\x7b\"matrix\":\"\x7b\\\"arch\\\":\\\"amd64\\\",\\\"os\\\":\\\"linux\\\"\x7d\"\x7d",
            none) := by
  refine ⟨fun out hret => ?_, ToJson_returns p, by decide⟩
  obtain ⟨result, group, hout, hndres, hval, hndg, hspec⟩ :=
    ToJson_group_value p parent hgroup htop out hret
  refine ⟨result, sortKeys group, hout, hndres, hval, sortKeys_strict group hndg,
    fun nk v => ?_, fun p' out' hperm hkeys htop' hret' => ?_⟩
  · rw [← hspec nk, (sortKeys_perm group).mem_iff]
    exact ⟨mapGet_eq_some_of_mem group hndg nk v, mem_of_mapGet_eq_some group nk v⟩
  · have hgroup' : parent ∈ parentNames p' :=
      (hperm.filterMap PrettyKeyValue.Parent).symm.subset hgroup
    obtain ⟨result', group', hout', _, hval', hndg', hspec'⟩ :=
      ToJson_group_value p' parent hgroup' htop' out' hret'
    refine ⟨result', hout', ?_⟩
    have heq : ∀ nk, mapGet group' nk = mapGet group nk := fun nk => by
      rw [hspec' nk, hspec nk, nestedValue_perm p.KeyVals p'.KeyVals parent hperm hkeys nk]
    rw [hval', hval, marshalObject_congr marshalString group group'
      (perm_of_mapGet_eq group group' hndg hndg' heq) hndg]

theorem toJson_group_key_order_witness :
    ("matrix" ∈ parentNames matrixAmongRows ∧ "matrix" ∉ topLevelKeys matrixAmongRows)
    ∧ ((∀ out, ToJson matrixAmongRows = .ok out →
        ∃ (result : GoMap String) (sorted : List (String × String)),
          out = (marshalObject marshalString result, none) ∧
          NodupKeys result ∧
          mapGet result "matrix"
            = some ("\x7b" ++ String.intercalate ","
                (sorted.map fun kv => marshalString kv.1 ++ ":" ++ marshalString kv.2)
                ++ "\x7d") ∧
          (sorted.map Prod.fst).Pairwise keyLT ∧
          (∀ nk v, (nk, v) ∈ sorted
            ↔ nestedValue matrixAmongRows.KeyVals "matrix" nk = some v) ∧
          (∀ (p' : Pretty) (out' : String × GoError),
            p'.KeyVals.Perm matrixAmongRows.KeyVals →
            ((matrixAmongRows.KeyVals.filter fun kv => kv.Parent = some "matrix").map
              PrettyKeyValue.Key).Nodup →
            "matrix" ∉ topLevelKeys p' → ToJson p' = .ok out' →
            ∃ result' : GoMap String,
              out' = (marshalObject marshalString result', none) ∧
              mapGet result' "matrix" = mapGet result "matrix"))
      ∧ ((∀ k ∈ topLevelKeys matrixAmongRows, k ∉ parentNames matrixAmongRows) →
          ∃ out, ToJson matrixAmongRows = .ok out)
      ∧ ToJson osArchRows
          = .ok ("\x7b\"matrix\":\"\x7b\\\"arch\\\":\\\"amd64\\\",\\\"os\\\":\\\"linux\\\"\x7d\"\x7d",
              none))
    ∧ (∀ k ∈ topLevelKeys matrixAmongRows, k ∉ parentNames matrixAmongRows)
    ∧ (matrixAmongRows.KeyVals.filter fun kv => kv.Parent = some "matrix").map
        PrettyKeyValue.Key = ["os", "arch"]
    ∧ ToJson matrixAmongRows
        = .ok ("\x7b\"dry\":\"true\",\"env\":\"\x7b\\\"stage\\\":\\\"dev\\\"\x7d\","
            ++ "\"matrix\":\"\x7b\\\"arch\\\":\\\"amd64\\\",\\\"os\\\":\\\"linux\\\"\x7d\","
            ++ "\"tag\":\"v1\",\"target\":\"prod\"\x7d", none)
    ∧ ToJson matrixAmongRowsSwapped = ToJson matrixAmongRows :=
  ⟨⟨by decide, by decide⟩,
    toJson_group_key_order matrixAmongRows "matrix" (by decide) (by decide),
    by decide, by decide, by decide, by decide⟩

end workflow
end gama
